import Mathlib

/-!
Verification development for the GLYPH codec (C implementation in
`src/c/glyph-codec`).  The value model, canonical encoder, JSON bridge and
accessors are shallowly embedded: C byte strings become `List Nat` (bytes
0..255, never 0 inside a C string), `int64_t` becomes `Int`, IEEE-754 doubles
become exact rationals together with a negative-zero flag (every finite double
is an exact rational; the operations the encoder performs on doubles -
comparison, `floor`, `fabs`, cast to `long`, exactly rounded `printf` - are
exact-rational operations), and fallible C functions returning NULL become
`Option`.
-/

namespace Glyph

/-- Byte string of an ASCII Lean string literal (used to transcribe the
string literals appearing in the C source); a C byte (`unsigned char` value,
0..255) is embedded as a `Nat`. -/
def ascii (s : String) : List Nat := s.data.map Char.toNat

/-- C `isdigit` in the default locale. -/
def isdigitB (c : Nat) : Bool := decide (48 ≤ c ∧ c ≤ 57)

/-- C `isalpha` in the default locale. -/
def isalphaB (c : Nat) : Bool := decide ((65 ≤ c ∧ c ≤ 90) ∨ (97 ≤ c ∧ c ≤ 122))

/-- C `isalnum` in the default locale. -/
def isalnumB (c : Nat) : Bool := isdigitB c || isalphaB c

/-- C `isspace` in the default locale: space, \t, \n, \v, \f, \r. -/
def isspaceB (c : Nat) : Bool := decide (c = 32 ∨ (9 ≤ c ∧ c ≤ 13))

/-- `strcmp(a, b) < 0`: byte-wise lexicographic comparison on unsigned
char values, a strict prefix comparing less. -/
def lexLt : List Nat → List Nat → Bool
  | [], [] => false
  | [], _ :: _ => true
  | _ :: _, [] => false
  | a :: as, b :: bs => if a < b then true else if b < a then false else lexLt as bs

/-- `strcmp(a, b) <= 0`, the order used to sort map entries and columns. -/
def lexLe (a b : List Nat) : Prop := lexLt b a = false

instance (a b : List Nat) : Decidable (lexLe a b) :=
  inferInstanceAs (Decidable (_ = false))

/-- Joining with a separator, mirroring the `if (i > 0) append sep` idiom of
the C emitters. -/
def joinSep (sep : List Nat) : List (List Nat) → List Nat
  | [] => []
  | [x] => x
  | x :: y :: rest => x ++ sep ++ joinSep sep (y :: rest)

/-! ## Number formatting -/

/-- Decimal digits of a natural number, most significant first, with the
fuel always sufficient (one division by ten per unit). -/
def natDecimalAux : Nat → Nat → List Nat
  | 0, _ => []
  | fuel + 1, n =>
    if n < 10 then [48 + n] else natDecimalAux fuel (n / 10) ++ [48 + n % 10]

/-- Decimal digits of a natural number, as bytes (no leading zeros, `"0"` for
zero); the body of `printf("%ld", ...)` and `printf("%zu", ...)`. -/
def natDecimal (n : Nat) : List Nat := natDecimalAux (n + 1) n

/-- `printf("%ld", n)`: optional minus sign followed by decimal digits. -/
def intRender (n : Int) : List Nat :=
  if n < 0 then 45 :: natDecimal (-n).toNat else natDecimal n.toNat

/-- A finite C `double`, embedded exactly: `val` is the exact rational value
represented, and `negZero` records a negative-zero bit pattern (meaningful
only when `val = 0`).  NaN and infinities are outside the model, as the spec
declares them implementation-defined. -/
structure CDouble where
  val : ℚ
  negZero : Bool
deriving DecidableEq, Repr

/-- The double holding the exact integer `n` (exact for `|n| < 2^53`,
which covers every claim's range). -/
def CDouble.ofInt (n : Int) : CDouble := ⟨(n : ℚ), false⟩

/-- 10^e as an exact rational, for possibly negative `e`. -/
def qpow10 (e : Int) : ℚ :=
  if 0 ≤ e then ((10 : ℚ) ^ e.toNat) else 1 / ((10 : ℚ) ^ (-e).toNat)

/-- Number of decimal digits of `n` (1 for `n = 0`). -/
def digitCount (n : Nat) : Nat := (natDecimal n).length

/-- `⌊log10 q⌋` for positive `q`, computed from the digit counts of the
numerator and denominator. -/
def floorLog10 (q : ℚ) : Int :=
  let e0 : Int := (digitCount q.num.natAbs : Int) - (digitCount q.den : Int)
  if qpow10 e0 ≤ q then e0 else e0 - 1

/-- Round to the nearest integer, ties to even - the correct rounding
`printf` applies to the exact value of a double. -/
def roundHalfEven (q : ℚ) : Int :=
  let n := ⌊q⌋
  if q - n < 1/2 then n
  else if (1:ℚ)/2 < q - n then n + 1
  else if n % 2 = 0 then n else n + 1

/-- Drop trailing `'0'` bytes (the `%g` trailing-zero stripping). -/
def stripZeros (ds : List Nat) : List Nat :=
  (ds.reverse.dropWhile (fun c => c = 48)).reverse

/-- Exponent suffix of `%g`'s scientific form: `e`, a sign, and at least two
exponent digits. -/
def expSuffix (e : Int) : List Nat :=
  101 :: (if e < 0 then 45 else 43) ::
    (let ds := natDecimal e.natAbs
     if ds.length < 2 then 48 :: ds else ds)

/-- Significand rounded to 15 significant digits together with the decimal
exponent: for `a > 0` returns `(D, e)` with `10^14 ≤ D < 10^15` and the
rounded value being `D * 10^(e-14)`. -/
def sigDigits15 (a : ℚ) : Nat × Int :=
  let e := floorLog10 a
  let D := (roundHalfEven (a * qpow10 (14 - e))).toNat
  if D = 10 ^ 15 then (10 ^ 14, e + 1) else (D, e)

/-- Body of `printf("%.15g", a)` for positive `a`: 15 significant digits,
fixed form for decimal exponents in `[-4, 15)`, scientific form otherwise,
trailing zeros stripped. -/
def fmtG15Pos (a : ℚ) : List Nat :=
  let p := sigDigits15 a
  let ds := natDecimal p.1
  let e := p.2
  if e < -4 ∨ 15 ≤ e then
    ds.take 1 ++
      (let frac := stripZeros (ds.drop 1)
       if frac = [] then [] else 46 :: frac) ++ expSuffix e
  else if e < 0 then
    ascii "0." ++ List.replicate (-(e+1)).toNat 48 ++ stripZeros ds
  else
    ds.take (e.toNat + 1) ++
      (let frac := stripZeros (ds.drop (e.toNat + 1))
       if frac = [] then [] else 46 :: frac)

/-- `printf("%.15g", f)` on a finite double. -/
def fmtG15 (f : CDouble) : List Nat :=
  if f.val = 0 then (if f.negZero then ascii "-0" else ascii "0")
  else if f.val < 0 then 45 :: fmtG15Pos (-f.val)
  else fmtG15Pos f.val

/-! ## The value model (`glyph_value_t`) -/

/-- `glyph_type_t`. -/
inductive GlyphType where
  | GLYPH_NULL | GLYPH_BOOL | GLYPH_INT | GLYPH_FLOAT | GLYPH_STR | GLYPH_BYTES
  | GLYPH_TIME | GLYPH_ID | GLYPH_LIST | GLYPH_MAP | GLYPH_STRUCT | GLYPH_SUM
deriving DecidableEq, Repr

/-- `glyph_value_t`: the tagged union of the twelve value kinds.  Children of
containers are non-NULL (the mutators reject NULL children); only the inner
value of a Sum may be absent, as in `glyph_sum_value_t`. -/
inductive GlyphValue where
  | vnull
  | vbool (b : Bool)
  | vint (n : Int)
  | vfloat (f : CDouble)
  | vstr (s : List Nat)
  | vbytes (bs : List Nat)
  | vtime (ms : Int)
  | vid (pfx : List Nat) (idval : List Nat)
  | vlist (items : List GlyphValue)
  | vmap (entries : List (List Nat × GlyphValue))
  | vstruct (tyname : List Nat) (fields : List (List Nat × GlyphValue))
  | vsum (tag : List Nat) (inner : Option GlyphValue)
deriving Repr

/-- `glyph_null_style_t`. -/
inductive NullStyle where
  | underscore | symbol
deriving DecidableEq, Repr

/-- `glyph_canon_opts_t`. -/
structure CanonOpts where
  auto_tabular : Bool
  min_rows : Nat
  max_cols : Nat
  allow_missing : Bool
  null_style : NullStyle
deriving DecidableEq, Repr

/-- `glyph_canon_opts_default`. -/
def glyph_canon_opts_default : CanonOpts :=
  ⟨true, 3, 64, true, NullStyle.underscore⟩

/-- `glyph_canon_opts_llm`. -/
def glyph_canon_opts_llm : CanonOpts := glyph_canon_opts_default

/-- `glyph_canon_opts_pretty`. -/
def glyph_canon_opts_pretty : CanonOpts :=
  { glyph_canon_opts_default with null_style := NullStyle.symbol }

/-- `glyph_canon_opts_no_tabular`. -/
def glyph_canon_opts_no_tabular : CanonOpts :=
  { glyph_canon_opts_default with auto_tabular := false }

/-! ## Canonicalization helpers -/

/-- `canon_null`: the null glyph; `"∅"` is the UTF-8 bytes e2 88 85. -/
def canon_null : NullStyle → List Nat
  | NullStyle.symbol => [0xe2, 0x88, 0x85]
  | NullStyle.underscore => [95]

/-- The reserved-word test inside `is_bare_safe`. -/
def reservedWord (s : List Nat) : Bool :=
  s = ascii "t" || s = ascii "f" || s = ascii "true" || s = ascii "false" ||
  s = ascii "null" || s = ascii "_"

/-- The per-byte character class of `is_bare_safe`'s final loop. -/
def bareChar (c : Nat) : Bool :=
  isalnumB c || c = 95 || c = 45 || c = 46 || c = 47 || c = 64 || c = 58 ||
  decide (127 < c)

/-- `is_bare_safe`: non-empty, does not start with a digit, `"`, `'` or `-`,
is not a reserved token, and every byte is in the bareword class. -/
def is_bare_safe : List Nat → Bool
  | [] => false
  | c :: rest =>
    if isdigitB c || c = 34 || c = 39 || c = 45 then false
    else if reservedWord (c :: rest) then false
    else (c :: rest).all bareChar

/-- `is_ref_bare_safe`: the stricter class used for the value part of an Id
(`/`, `@`, `:` excluded, no reserved words). -/
def is_ref_bare_safe (s : List Nat) : Bool :=
  !s.isEmpty &&
  s.all (fun c => isalnumB c || c = 95 || c = 45 || c = 46 || decide (127 < c))

/-- Lowercase hex digit. -/
def hexDigit (n : Nat) : Nat := if n < 10 then 48 + n else 87 + n

/-- One byte of `write_quoted_string`'s loop body. -/
def quoteChar (c : Nat) : List Nat :=
  if c = 92 then [92, 92]
  else if c = 34 then [92, 34]
  else if c = 10 then [92, 110]
  else if c = 13 then [92, 114]
  else if c = 9 then [92, 116]
  else if c < 32 then [92, 117, 48, 48, hexDigit (c / 16), hexDigit (c % 16)]
  else [c]

/-- `write_quoted_string`. -/
def write_quoted_string (s : List Nat) : List Nat :=
  34 :: (s.map quoteChar).flatten ++ [34]

/-- `write_canon_string`. -/
def write_canon_string (s : List Nat) : List Nat :=
  if is_bare_safe s then s else write_quoted_string s

/-- `compare_entries` as an order on key-indexed pairs: `strcmp` on the keys,
at most. -/
def entLe {α : Type} (a b : List Nat × α) : Prop := lexLt b.1 a.1 = false

instance {α : Type} (a b : List Nat × α) : Decidable (entLe a b) :=
  inferInstanceAs (Decidable (_ = false))

/-- The base64 alphabet `A-Z a-z 0-9 + /`. -/
def b64char (n : Nat) : Nat :=
  if n < 26 then 65 + n
  else if n < 52 then 97 + (n - 26)
  else if n < 62 then 48 + (n - 52)
  else if n = 62 then 43 else 47

/-- The base64 body emitted for a Bytes payload, three input bytes per
four output characters, `'='`-padded. -/
def base64 : List Nat → List Nat
  | [] => []
  | [a] =>
    let n := a * 65536
    [b64char (n / 262144 % 64), b64char (n / 4096 % 64), 61, 61]
  | [a, b] =>
    let n := a * 65536 + b * 256
    [b64char (n / 262144 % 64), b64char (n / 4096 % 64), b64char (n / 64 % 64), 61]
  | a :: b :: c :: rest =>
    let n := a * 65536 + b * 256 + c
    b64char (n / 262144 % 64) :: b64char (n / 4096 % 64) ::
      b64char (n / 64 % 64) :: b64char (n % 64) :: base64 rest

/-- Zero-padded decimal of width 2 (`%02d` fields of the time format). -/
def pad2 (n : Nat) : List Nat :=
  if n < 10 then 48 :: natDecimal n else natDecimal n

/-- Zero-padded decimal of width 4 (`%Y` for common years). -/
def pad4 (n : Nat) : List Nat :=
  List.replicate (4 - (natDecimal n).length) 48 ++ natDecimal n

/-- Civil date from days since the Unix epoch (the calendar computation
performed by `gmtime`), returning (year, month, day). -/
def civilFromDays (z0 : Int) : Int × Nat × Nat :=
  let z := z0 + 719468
  let era := Int.fdiv z 146097
  let doe := (z - era * 146097).toNat
  let yoe := (doe - doe / 1460 + doe / 36524 - doe / 146096) / 365
  let doy := doe - (365 * yoe + yoe / 4 - yoe / 100)
  let mp := (5 * doy + 2) / 153
  let d := doy - (153 * mp + 2) / 5 + 1
  let m := if mp < 10 then mp + 3 else mp - 9
  let y : Int := (yoe : Int) + era * 400 + (if m ≤ 2 then 1 else 0)
  (y, m, d)

/-- `gmtime` + `strftime("%Y-%m-%dT%H:%M:%SZ")` applied to `ms / 1000`
(C truncating division), as in the GLYPH_TIME case of `write_canon_value`. -/
def isoTime (ms : Int) : List Nat :=
  let t := Int.tdiv ms 1000
  let days := Int.fdiv t 86400
  let sod := (t - days * 86400).toNat
  let ymd := civilFromDays days
  (if ymd.1 < 0 then 45 :: pad4 ymd.1.natAbs else pad4 ymd.1.toNat) ++
    [45] ++ pad2 ymd.2.1 ++ [45] ++ pad2 ymd.2.2 ++
    [84] ++ pad2 (sod / 3600) ++ [58] ++ pad2 (sod % 3600 / 60) ++ [58] ++
    pad2 (sod % 60) ++ [90]

/-! ## Tabular detection (`check_homogeneous`) -/

/-- The keys of a Map or Struct element, `none` for any other kind -
the `else` branch of the type dispatch in `check_homogeneous`. -/
def entryKeys : GlyphValue → Option (List (List Nat))
  | GlyphValue.vmap es => some (es.map Prod.fst)
  | GlyphValue.vstruct _ fs => some (fs.map Prod.fst)
  | _ => none

/-- Append the keys not yet present, in encounter order - the inner
deduplicating collection loop of `check_homogeneous`. -/
def addKeys (acc : List (List Nat)) (ks : List (List Nat)) : List (List Nat) :=
  ks.foldl (fun a k => if a.contains k then a else a ++ [k]) acc

/-- Union of keys across all items in encounter order; `none` when some item
is neither a Map nor a Struct. -/
def collectAllKeys (items : List GlyphValue) : Option (List (List Nat)) :=
  items.foldlM (fun acc it => (entryKeys it).map (addKeys acc)) []

/-- Whether an item has the given key (non-containers scan zero entries). -/
def hasKey (it : GlyphValue) (k : List Nat) : Bool :=
  match entryKeys it with
  | some ks => ks.contains k
  | none => false

/-- `check_homogeneous`: `some sortedColumns` exactly when the C function
returns true, handing the byte-wise sorted column list to the caller. -/
def check_homogeneous (items : List GlyphValue) (opts : CanonOpts) :
    Option (List (List Nat)) :=
  if items.length < opts.min_rows then none
  else
    match collectAllKeys items with
    | none => none
    | some allKeys =>
      if allKeys.length = 0 ∨ opts.max_cols < allKeys.length then none
      else
        let common := allKeys.countP (fun k => items.all (fun it => hasKey it k))
        if common * 2 < allKeys.length then none
        else some (allKeys.insertionSort lexLe)

/-- `write_canon_map` on rendered entries: sort by key, join `key=value`
entries with single spaces, wrap in braces. -/
def write_canon_map (rendered : List (List Nat × List Nat)) : List Nat :=
  let sorted := rendered.insertionSort entLe
  123 :: joinSep [32] (sorted.map (fun e => write_canon_string e.1 ++ 61 :: e.2)) ++ [125]

/-- One tabular cell: first entry with the column's key, else the null
glyph. -/
def tabCell (opts : CanonOpts) (row : List (List Nat × List Nat))
    (c : List Nat) : List Nat :=
  match row.lookup c with
  | some bytes => bytes
  | none => canon_null opts.null_style

/-- `write_tabular`: the `@tab` header, one `|`-delimited line per row,
a closing `@end` with no trailing newline. -/
def write_tabular (opts : CanonOpts) (rows : List (List (List Nat × List Nat)))
    (count : Nat) (cols : List (List Nat)) : List Nat :=
  ascii "@tab _ rows=" ++ natDecimal count ++ ascii " cols=" ++
    natDecimal cols.length ++ ascii " [" ++
    joinSep [32] (cols.map write_canon_string) ++ [93, 10] ++
    (rows.map (fun row =>
      124 :: (cols.map (fun c => tabCell opts row c ++ [124])).flatten ++ [10])).flatten ++
    ascii "@end"

/-- `write_canon_list`: attempt tabular when `auto_tabular` is set, fall back
to the bracketed space-joined form. -/
def write_canon_list (opts : CanonOpts) (items : List GlyphValue)
    (rendered : List (List Nat)) (rows : List (List (List Nat × List Nat))) :
    List Nat :=
  let bracket := 91 :: joinSep [32] rendered ++ [93]
  if opts.auto_tabular then
    match check_homogeneous items opts with
    | some cols => write_tabular opts rows items.length cols
    | none => bracket
  else bracket

/-! ## The canonical writer

The C `write_canon_map` copies the entry array, sorts the copy by key with
`qsort`/`strcmp`, and then renders each entry in sorted order.  Rendering is
pointwise and the comparator reads only keys, so sorting the already rendered
`(key, bytes)` pairs produces the same output; the embedding renders first
(structurally) and sorts the rendered pairs. -/

mutual

/-- `write_canon_value` (the non-NULL case; the NULL-pointer case lives in
`glyph_canonicalize_loose_with_opts`). -/
def write_canon_value (opts : CanonOpts) : GlyphValue → List Nat
  | GlyphValue.vnull => canon_null opts.null_style
  | GlyphValue.vbool b => if b then [116] else [102]
  | GlyphValue.vint n => intRender n
  | GlyphValue.vfloat f =>
    let f' : CDouble := if f.val = 0 then ⟨0, false⟩ else f
    if (⌊f'.val⌋ : ℚ) = f'.val ∧ |f'.val| < 10 ^ 15 then intRender ⌊f'.val⌋
    else fmtG15 f'
  | GlyphValue.vstr s => write_canon_string s
  | GlyphValue.vbytes bs => ascii "b64" ++ [34] ++ base64 bs ++ [34]
  | GlyphValue.vtime ms => isoTime ms
  | GlyphValue.vid pfx idval =>
    94 :: (if pfx ≠ [] then pfx ++ [58] else []) ++
      (if is_ref_bare_safe idval then idval else write_quoted_string idval)
  | GlyphValue.vlist items =>
    write_canon_list opts items (renderItems opts items) (renderRows opts items)
  | GlyphValue.vmap entries => write_canon_map (renderEntries opts entries)
  | GlyphValue.vstruct tyname fields =>
    tyname ++ write_canon_map (renderEntries opts fields)
  | GlyphValue.vsum tag inner =>
    tag ++ [40] ++
      (match inner with
       | none => []
       | some v => write_canon_value opts v) ++ [41]

/-- Canonical bytes of each list item, in order. -/
def renderItems (opts : CanonOpts) : List GlyphValue → List (List Nat)
  | [] => []
  | v :: rest => write_canon_value opts v :: renderItems opts rest

/-- Entries with their values rendered, order and keys untouched. -/
def renderEntries (opts : CanonOpts) :
    List (List Nat × GlyphValue) → List (List Nat × List Nat)
  | [] => []
  | (k, v) :: rest => (k, write_canon_value opts v) :: renderEntries opts rest

/-- Per item, its rendered entries (non-containers scan zero entries) - the
cell source used by `write_tabular`. -/
def renderRows (opts : CanonOpts) :
    List GlyphValue → List (List (List Nat × List Nat))
  | [] => []
  | v :: rest =>
    (match v with
     | GlyphValue.vmap es => renderEntries opts es
     | GlyphValue.vstruct _ fs => renderEntries opts fs
     | _ => []) :: renderRows opts rest

end

/-! ## Public API -/

/-- `glyph_canonicalize_loose_with_opts`; a NULL value pointer canonicalizes
to the null glyph (the `!v` test at the top of `write_canon_value`). -/
def glyph_canonicalize_loose_with_opts (v : Option GlyphValue)
    (opts : CanonOpts) : List Nat :=
  match v with
  | none => canon_null opts.null_style
  | some v => write_canon_value opts v

/-- `glyph_canonicalize_loose`. -/
def glyph_canonicalize_loose (v : Option GlyphValue) : List Nat :=
  glyph_canonicalize_loose_with_opts v glyph_canon_opts_default

/-- `glyph_canonicalize_loose_no_tabular`. -/
def glyph_canonicalize_loose_no_tabular (v : Option GlyphValue) : List Nat :=
  glyph_canonicalize_loose_with_opts v glyph_canon_opts_no_tabular

/-- `glyph_fingerprint_loose`. -/
def glyph_fingerprint_loose (v : Option GlyphValue) : List Nat :=
  glyph_canonicalize_loose v

/-- `glyph_equal_loose`: byte-equal default canonical forms. -/
def glyph_equal_loose (a b : Option GlyphValue) : Bool :=
  glyph_canonicalize_loose a = glyph_canonicalize_loose b

/-- `glyph_get_type`: a NULL pointer reports GLYPH_NULL. -/
def glyph_get_type (v : Option GlyphValue) : GlyphType :=
  match v with
  | none => GlyphType.GLYPH_NULL
  | some GlyphValue.vnull => GlyphType.GLYPH_NULL
  | some (GlyphValue.vbool _) => GlyphType.GLYPH_BOOL
  | some (GlyphValue.vint _) => GlyphType.GLYPH_INT
  | some (GlyphValue.vfloat _) => GlyphType.GLYPH_FLOAT
  | some (GlyphValue.vstr _) => GlyphType.GLYPH_STR
  | some (GlyphValue.vbytes _) => GlyphType.GLYPH_BYTES
  | some (GlyphValue.vtime _) => GlyphType.GLYPH_TIME
  | some (GlyphValue.vid _ _) => GlyphType.GLYPH_ID
  | some (GlyphValue.vlist _) => GlyphType.GLYPH_LIST
  | some (GlyphValue.vmap _) => GlyphType.GLYPH_MAP
  | some (GlyphValue.vstruct _ _) => GlyphType.GLYPH_STRUCT
  | some (GlyphValue.vsum _ _) => GlyphType.GLYPH_SUM

/-- `glyph_list_append`: appends when the container is a List and the item is
present, otherwise leaves the container untouched (the guard
`!list || list->type != GLYPH_LIST || !item`). -/
def glyph_list_append (list : Option GlyphValue) (item : Option GlyphValue) :
    Option GlyphValue :=
  match list, item with
  | some (GlyphValue.vlist items), some it => some (GlyphValue.vlist (items ++ [it]))
  | _, _ => list

/-- `glyph_map_set`: appends an entry (no deduplication) when the container
is a Map and key and value are present, otherwise leaves it untouched. -/
def glyph_map_set (m : Option GlyphValue) (key : Option (List Nat))
    (value : Option GlyphValue) : Option GlyphValue :=
  match m, key, value with
  | some (GlyphValue.vmap es), some k, some v => some (GlyphValue.vmap (es ++ [(k, v)]))
  | _, _, _ => m

/-- `glyph_struct_set`: appends a field (no deduplication) when the container
is a Struct and key and value are present, otherwise leaves it untouched. -/
def glyph_struct_set (s : Option GlyphValue) (key : Option (List Nat))
    (value : Option GlyphValue) : Option GlyphValue :=
  match s, key, value with
  | some (GlyphValue.vstruct tn fs), some k, some v =>
    some (GlyphValue.vstruct tn (fs ++ [(k, v)]))
  | _, _, _ => s

/-! ## JSON serialization (`json.c`) -/

/-- `write_json_string`: identical escaping to `write_quoted_string`. -/
def write_json_string (s : List Nat) : List Nat :=
  34 :: (s.map quoteChar).flatten ++ [34]

mutual

/-- `write_json_value` (the non-NULL case; the NULL case lives in
`glyph_to_json`). -/
def write_json_value : GlyphValue → List Nat
  | GlyphValue.vnull => ascii "null"
  | GlyphValue.vbool b => if b then ascii "true" else ascii "false"
  | GlyphValue.vint n => intRender n
  | GlyphValue.vfloat f => fmtG15 f
  | GlyphValue.vstr s => write_json_string s
  | GlyphValue.vbytes bs => 34 :: base64 bs ++ [34]
  | GlyphValue.vid pfx idval =>
    34 :: 94 :: (if pfx ≠ [] then pfx ++ [58] else []) ++ idval ++ [34]
  | GlyphValue.vtime ms => 34 :: isoTime ms ++ [34]
  | GlyphValue.vlist items => 91 :: joinSep [44] (jsonItems items) ++ [93]
  | GlyphValue.vmap es => 123 :: joinSep [44] (jsonEntries es) ++ [125]
  | GlyphValue.vstruct tn fs =>
    123 :: ascii "\"_type\":" ++ write_json_string tn ++
      ((jsonEntries fs).map (fun e => 44 :: e)).flatten ++ [125]
  | GlyphValue.vsum tag inner =>
    123 :: ascii "\"_tag\":" ++ write_json_string tag ++
      (match inner with
       | none => []
       | some v => ascii ",\"_value\":" ++ write_json_value v) ++ [125]

/-- JSON bytes of each list item, in order. -/
def jsonItems : List GlyphValue → List (List Nat)
  | [] => []
  | v :: rest => write_json_value v :: jsonItems rest

/-- JSON bytes of each `key:value` entry, in order, keys escaped. -/
def jsonEntries : List (List Nat × GlyphValue) → List (List Nat)
  | [] => []
  | (k, v) :: rest =>
    (write_json_string k ++ 58 :: write_json_value v) :: jsonEntries rest

end

/-- `glyph_to_json`; a NULL value pointer serializes to `null`. -/
def glyph_to_json : Option GlyphValue → List Nat
  | none => ascii "null"
  | some v => write_json_value v

/-! ## JSON parsing (`json.c`)

The C parser walks a NUL-terminated byte string with an index; the embedding
passes the remaining suffix instead.  `peek`/`next`/`match` skip whitespace
and that skip persists in the C parser state, so every model function applies
`skipWs` first.  Recursion through arrays and objects is unbounded in the
input, so the mutually recursive functions take a fuel argument, decremented
on every nested call; `glyph_from_json` supplies `3 * length + 3` fuel, which
the call structure can never exhaust (each unit of three fuel steps consumes
at least one input byte). -/

/-- `skip_whitespace`. -/
def skipWs : List Nat → List Nat
  | [] => []
  | c :: rest => if isspaceB c then skipWs rest else c :: rest

/-- `peek`: the next non-whitespace byte, `'\0'` (0) at end of input. -/
def peekChar (s : List Nat) : Nat :=
  match skipWs s with
  | [] => 0
  | c :: _ => c

/-- `next`: consume the next non-whitespace byte. -/
def nextChar (s : List Nat) : Nat × List Nat :=
  match skipWs s with
  | [] => (0, [])
  | c :: rest => (c, rest)

/-- `match`: after skipping whitespace, consume the literal token or fail. -/
def matchTok (s tok : List Nat) : Option (List Nat) :=
  let s1 := skipWs s
  if tok.isPrefixOf s1 then some (s1.drop tok.length) else none

/-- The sign handling shared by the `strto*` family: an optional leading
`-` or `+`, returning the negativity flag and the rest. -/
def dropSign (s : List Nat) : Bool × List Nat :=
  match s with
  | 45 :: r => (true, r)
  | 43 :: r => (false, r)
  | _ => (false, s)

/-- Value of a hex digit byte, `none` for a non-hex byte. -/
def hexDigitVal (c : Nat) : Option Nat :=
  if 48 ≤ c ∧ c ≤ 57 then some (c - 48)
  else if 97 ≤ c ∧ c ≤ 102 then some (c - 87)
  else if 65 ≤ c ∧ c ≤ 70 then some (c - 55)
  else none

/-- Value of the longest hex-digit prefix (0 when there is none), as
`strtoul` accumulates it. -/
def hexPrefixVal : List Nat → Nat → Nat
  | [], acc => acc
  | c :: rest, acc =>
    match hexDigitVal c with
    | some d => hexPrefixVal rest (acc * 16 + d)
    | none => acc

/-- `strtoul(hex, NULL, 16)` on the four bytes copied out of a `\uXXXX`
escape: optional whitespace, optional sign (negation wraps modulo 2^64 on
`unsigned long`), optional `0x`, then hex digits; 0 when no digits. -/
def strtoulHex (cs : List Nat) : Nat :=
  let cs1 := cs.dropWhile (fun c => isspaceB c)
  let p := match cs1 with
    | 45 :: r => (true, r)
    | 43 :: r => (false, r)
    | _ => (false, cs1)
  let body := match p.2 with
    | 48 :: 120 :: c :: r =>
      if (hexDigitVal c).isSome then c :: r else p.2
    | 48 :: 88 :: c :: r =>
      if (hexDigitVal c).isSome then c :: r else p.2
    | _ => p.2
  let v := hexPrefixVal body 0
  if p.1 then (2 ^ 64 - v % 2 ^ 64) % 2 ^ 64 else v % 2 ^ 64

/-- UTF-8 bytes appended for one decoded `\uXXXX` code (`code` is the
`unsigned int` truncation of the `strtoul` result); for codes at or above
0x800 the lead byte computation `0xE0 | (code >> 12)` narrows to a byte. -/
def utf8Enc (code : Nat) : List Nat :=
  if code < 0x80 then [code]
  else if code < 0x800 then [0xC0 + code / 64, 0x80 + code % 64]
  else [(0xE0 ||| (code / 4096)) % 256, 0x80 + code / 64 % 64, 0x80 + code % 64]

/-- The body scan of `parse_string`, from just after the opening quote:
raw bytes up to the closing quote, with escape processing; `none` when the
input ends without a closing quote.  Each step consumes at least one byte,
so `s.length + 1` fuel always suffices. -/
def parse_string_loop (fuel : Nat) (s : List Nat) (acc : List Nat) :
    Option (List Nat × List Nat) :=
  match fuel with
  | 0 => none
  | fuel + 1 =>
    match s with
    | [] => none
    | c :: rest =>
      if c = 34 then some (acc.reverse, rest)
      else if c = 92 then
        match rest with
        | [] => parse_string_loop fuel [] (92 :: acc)
        | e :: rest2 =>
          if e = 110 then parse_string_loop fuel rest2 (10 :: acc)
          else if e = 114 then parse_string_loop fuel rest2 (13 :: acc)
          else if e = 116 then parse_string_loop fuel rest2 (9 :: acc)
          else if e = 92 then parse_string_loop fuel rest2 (92 :: acc)
          else if e = 34 then parse_string_loop fuel rest2 (34 :: acc)
          else if e = 117 then
            if 4 ≤ rest2.length then
              let code := strtoulHex (rest2.take 4) % 2 ^ 32
              parse_string_loop fuel (rest2.drop 4)
                ((utf8Enc code).reverse ++ acc)
            else parse_string_loop fuel rest2 (117 :: acc)
          else parse_string_loop fuel rest2 (e :: acc)
      else parse_string_loop fuel rest (c :: acc)

/-- `parse_string`: a `"` via `next` (whitespace skipped), then the body
scan. -/
def parse_string (s : List Nat) : Option (List Nat × List Nat) :=
  let n := nextChar s
  if n.1 = 34 then parse_string_loop (n.2.length + 1) n.2 [] else none

/-- Digit-sequence value, most significant first. -/
def digitsVal (ds : List Nat) : Nat :=
  ds.foldl (fun acc c => acc * 10 + (c - 48)) 0

/-- `strtoll(start, &end, 10)`: optional whitespace and sign, then a
non-empty digit run (`none` when `end == start`), the value clamped to the
`long long` range on overflow. -/
def strtollP (s : List Nat) : Option (Int × List Nat) :=
  let s1 := s.dropWhile (fun c => isspaceB c)
  let p := dropSign s1
  let ds := p.2.takeWhile (fun c => isdigitB c)
  if ds.isEmpty then none
  else
    let v : Int := if p.1 then -(digitsVal ds : Int) else (digitsVal ds : Int)
    let clamped := if v < -(2 ^ 63) then -(2 ^ 63)
      else if (2 ^ 63 - 1 : Int) < v then 2 ^ 63 - 1 else v
    some (clamped, p.2.drop ds.length)

/-- `strtod(start, &end)` on the inputs `parse_number` can hand it (the
dispatch guarantees a leading sign or digit, so only the decimal form is
reachable): optional whitespace and sign, digits with an optional decimal
point (at least one digit in the significand), then an exponent part
consumed only when complete.  The value is the exact rational of the
decimal text. -/
def strtodP (s : List Nat) : Option (CDouble × List Nat) :=
  let s1 := s.dropWhile (fun c => isspaceB c)
  let p := dropSign s1
  let ip := p.2.takeWhile (fun c => isdigitB c)
  let s2 := p.2.drop ip.length
  let fr := if s2.head? = some 46 then some (s2.tail.takeWhile (fun c => isdigitB c))
    else none
  if ip.isEmpty ∧ (fr.getD []).isEmpty then none
  else
    let s3 := match fr with
      | some f => s2.tail.drop f.length
      | none => s2
    let ex := match s3 with
      | e :: r =>
        if e = 101 ∨ e = 69 then
          let q := dropSign r
          let eds := q.2.takeWhile (fun c => isdigitB c)
          if eds.isEmpty then ((0 : Int), s3)
          else ((if q.1 then -(digitsVal eds : Int) else (digitsVal eds : Int)),
            q.2.drop eds.length)
        else ((0 : Int), s3)
      | [] => ((0 : Int), s3)
    let f := fr.getD []
    let mag : ℚ := ((digitsVal ip : ℚ) + (digitsVal f : ℚ) / (10 : ℚ) ^ f.length) *
      qpow10 ex.1
    some (⟨if p.1 then -mag else mag, p.1 ∧ mag = 0⟩, ex.2)

/-- `parse_number`: try `strtoll`; when the next byte is `.`, `e` or `E`,
reparse with `strtod` and build a Float, otherwise build an Int. -/
def parse_number (s : List Nat) : Option (GlyphValue × List Nat) :=
  let s1 := s.dropWhile (fun c => isspaceB c)
  match strtollP s1 with
  | none => none
  | some (n, rest) =>
    match rest with
    | c :: _ =>
      if c = 46 ∨ c = 101 ∨ c = 69 then
        match strtodP s1 with
        | some (f, rest2) => some (GlyphValue.vfloat f, rest2)
        | none => none
      else some (GlyphValue.vint n, rest)
    | [] => some (GlyphValue.vint n, rest)

mutual

/-- `parse_value`: dispatch on the peeked byte.  When the peek selects a
branch whose token match then fails, the C code falls through the remaining
comparisons against the same byte, which all fail - equivalently the branch
fails directly. -/
def parse_valueF : Nat → List Nat → Option (GlyphValue × List Nat)
  | 0, _ => none
  | fuel + 1, s =>
    let s1 := skipWs s
    let c := peekChar s
    if c = 110 then
      match matchTok s1 (ascii "null") with
      | some r => some (GlyphValue.vnull, r)
      | none => none
    else if c = 116 then
      match matchTok s1 (ascii "true") with
      | some r => some (GlyphValue.vbool true, r)
      | none => none
    else if c = 102 then
      match matchTok s1 (ascii "false") with
      | some r => some (GlyphValue.vbool false, r)
      | none => none
    else if c = 34 then
      match parse_string s1 with
      | some (str, r) => some (GlyphValue.vstr str, r)
      | none => none
    else if c = 91 then parse_arrayF fuel s1
    else if c = 123 then parse_objectF fuel s1
    else if c = 45 ∨ isdigitB c then parse_number s1
    else none

/-- `parse_array`: `[`, an empty-array check, then the element loop. -/
def parse_arrayF : Nat → List Nat → Option (GlyphValue × List Nat)
  | 0, _ => none
  | fuel + 1, s =>
    let n := nextChar s
    if n.1 = 91 then
      if peekChar n.2 = 93 then some (GlyphValue.vlist [], (nextChar n.2).2)
      else parse_array_loopF fuel n.2 []
    else none

/-- The element loop of `parse_array`: a value, then `]` to finish or `,`
to continue. -/
def parse_array_loopF : Nat → List Nat → List GlyphValue →
    Option (GlyphValue × List Nat)
  | 0, _, _ => none
  | fuel + 1, s, acc =>
    match parse_valueF fuel s with
    | none => none
    | some (item, r1) =>
      let c := peekChar r1
      if c = 93 then some (GlyphValue.vlist (acc ++ [item]), (nextChar r1).2)
      else if c = 44 then parse_array_loopF fuel (nextChar r1).2 (acc ++ [item])
      else none

/-- `parse_object`: `{`, an empty-object check, then the member loop. -/
def parse_objectF : Nat → List Nat → Option (GlyphValue × List Nat)
  | 0, _ => none
  | fuel + 1, s =>
    let n := nextChar s
    if n.1 = 123 then
      if peekChar n.2 = 125 then some (GlyphValue.vmap [], (nextChar n.2).2)
      else parse_object_loopF fuel n.2 []
    else none

/-- The member loop of `parse_object`: a quoted key, `:`, a value, then `}`
to finish or `,` to continue; entries append in encounter order via
`glyph_map_set`. -/
def parse_object_loopF : Nat → List Nat → List (List Nat × GlyphValue) →
    Option (GlyphValue × List Nat)
  | 0, _, _ => none
  | fuel + 1, s, acc =>
    if peekChar s = 34 then
      match parse_string (skipWs s) with
      | none => none
      | some (key, r1) =>
        let n := nextChar r1
        if n.1 = 58 then
          match parse_valueF fuel n.2 with
          | none => none
          | some (value, r2) =>
            let c := peekChar r2
            if c = 125 then
              some (GlyphValue.vmap (acc ++ [(key, value)]), (nextChar r2).2)
            else if c = 44 then
              parse_object_loopF fuel (nextChar r2).2 (acc ++ [(key, value)])
            else none
        else none
    else none

end

/-- `glyph_from_json`: parse one value, ignoring whatever follows it; a
NULL input or any structural failure yields an absent result.  The fuel is
an artifact of the embedding, always sufficient for the given input. -/
def glyph_from_json (j : List Nat) : Option GlyphValue :=
  (parse_valueF (3 * j.length + 3) j).map Prod.fst

/-! ## The language accepted by the JSON parser

`lstrSpan` and `numSpan` describe the spans of the scalar scanners:
`lstrSpan` is the lenient string dialect (any byte before the closing quote,
any escape `\c`, a `\uXXXX` block swallowing four bytes whenever four remain),
`numSpan` the `strtoll`/`strtod` number dialect (optional minus, digits, an
optional decimal point with optional further digits, an exponent part
consumed only when complete).  The mutually inductive `LJValue` relations
assemble them into the acceptance grammar of the whole parser. -/

/-- Span of the lenient string-body scan from just after the opening quote
to just after the closing quote. -/
def lstrSpan (fuel : Nat) (s : List Nat) : Option (List Nat) :=
  match fuel with
  | 0 => none
  | fuel + 1 =>
    match s with
    | [] => none
    | c :: rest =>
      if c = 34 then some rest
      else if c = 92 then
        match rest with
        | [] => none
        | e :: rest2 =>
          if e = 117 then
            if 4 ≤ rest2.length then lstrSpan fuel (rest2.drop 4)
            else lstrSpan fuel rest2
          else lstrSpan fuel rest2
      else lstrSpan fuel rest

/-- An optional leading minus (the parser's number dispatch admits only a
minus or a digit first). -/
def dropMinus (s : List Nat) : List Nat :=
  match s with
  | 45 :: r => r
  | _ => s

/-- Span of the number dialect. -/
def numSpan (s : List Nat) : Option (List Nat) :=
  let p := dropMinus s
  let ds := p.takeWhile (fun c => isdigitB c)
  if ds.isEmpty then none
  else
    let s2 := p.drop ds.length
    let s3 := if s2.head? = some 46 then
        s2.tail.drop (s2.tail.takeWhile (fun c => isdigitB c)).length
      else s2
    match s3 with
    | e :: r =>
      if e = 101 ∨ e = 69 then
        let q := (dropSign r).2
        let eds := q.takeWhile (fun c => isdigitB c)
        if eds.isEmpty then some s3 else some (q.drop eds.length)
      else some s3
    | [] => some s3

mutual

/-- `LJValue s r`: after optional leading whitespace, the parser's dialect
derives one JSON value from `s`, leaving `r`. -/
inductive LJValue : List Nat → List Nat → Prop where
  | jnull (s r : List Nat) (h : skipWs s = ascii "null" ++ r) : LJValue s r
  | jtrue (s r : List Nat) (h : skipWs s = ascii "true" ++ r) : LJValue s r
  | jfalse (s r : List Nat) (h : skipWs s = ascii "false" ++ r) : LJValue s r
  | jstr (s b r : List Nat) (h : skipWs s = 34 :: b)
      (hb : lstrSpan (b.length + 1) b = some r) : LJValue s r
  | jnum (s r : List Nat)
      (hd : peekChar s = 45 ∨ isdigitB (peekChar s) = true)
      (h : numSpan (skipWs s) = some r) : LJValue s r
  | jarr (s m r : List Nat) (h : skipWs s = 91 :: m) (ht : LJArrTail m r) :
      LJValue s r
  | jobj (s m r : List Nat) (h : skipWs s = 123 :: m) (ht : LJObjTail m r) :
      LJValue s r

/-- Everything after the `[` of an array. -/
inductive LJArrTail : List Nat → List Nat → Prop where
  | empty (m r : List Nat) (h : skipWs m = 93 :: r) : LJArrTail m r
  | items (m r : List Nat) (h : LJItems m r) : LJArrTail m r

/-- One or more comma-separated elements followed by `]`. -/
inductive LJItems : List Nat → List Nat → Prop where
  | last (m m1 r : List Nat) (hv : LJValue m m1) (h : skipWs m1 = 93 :: r) :
      LJItems m r
  | more (m m1 m2 r : List Nat) (hv : LJValue m m1)
      (h : skipWs m1 = 44 :: m2) (ht : LJItems m2 r) : LJItems m r

/-- Everything after the `{` of an object. -/
inductive LJObjTail : List Nat → List Nat → Prop where
  | empty (m r : List Nat) (h : skipWs m = 125 :: r) : LJObjTail m r
  | members (m r : List Nat) (h : LJMembers m r) : LJObjTail m r

/-- One or more comma-separated `"key": value` members followed by `}`. -/
inductive LJMembers : List Nat → List Nat → Prop where
  | last (m b m1 m2 m3 r : List Nat) (hk : skipWs m = 34 :: b)
      (hb : lstrSpan (b.length + 1) b = some m1)
      (hc : skipWs m1 = 58 :: m2) (hv : LJValue m2 m3)
      (h : skipWs m3 = 125 :: r) : LJMembers m r
  | more (m b m1 m2 m3 m4 r : List Nat) (hk : skipWs m = 34 :: b)
      (hb : lstrSpan (b.length + 1) b = some m1)
      (hc : skipWs m1 = 58 :: m2) (hv : LJValue m2 m3)
      (h : skipWs m3 = 44 :: m4) (ht : LJMembers m4 r) : LJMembers m r

end

/-! ## Strict JSON well-formedness

Transcribed from the specification's description of the JSON bridge (§4.9)
and the JSON grammar it refers to; this is the claim's notion of "a
well-formed JSON value at the start of the input", written against the spec
rather than against the C source.  `spec_json_wf` recognizes inputs that
begin, after optional whitespace, with a strictly well-formed JSON value
(strings restricted to the eight JSON escapes and `\uXXXX` with four hex
digits, no unescaped control bytes; numbers without leading zeros; an
incomplete fraction or exponent rolls back to the shorter valid value). -/

/-- Strict JSON string body, after the opening quote. -/
def specJsonStr (fuel : Nat) (s : List Nat) : Option (List Nat) :=
  match fuel with
  | 0 => none
  | fuel + 1 =>
    match s with
    | [] => none
    | 34 :: r => some r
    | 92 :: e :: r =>
      if e = 34 ∨ e = 92 ∨ e = 47 ∨ e = 98 ∨ e = 102 ∨ e = 110 ∨ e = 114 ∨
          e = 116 then
        specJsonStr fuel r
      else if e = 117 then
        match r with
        | h1 :: h2 :: h3 :: h4 :: r2 =>
          if (hexDigitVal h1).isSome ∧ (hexDigitVal h2).isSome ∧
              (hexDigitVal h3).isSome ∧ (hexDigitVal h4).isSome then
            specJsonStr fuel r2
          else none
        | _ => none
      else none
    | c :: r =>
      if 32 ≤ c ∧ c ≠ 34 ∧ c ≠ 92 then specJsonStr fuel r else none

/-- Strict JSON number: the longest valid numeric prefix, `none` when there
is none. -/
def specJsonNumber (s : List Nat) : Option (List Nat) :=
  let p := match s with
    | 45 :: r => r
    | _ => s
  let ipq : Option (List Nat) := match p with
    | 48 :: r => some r
    | d :: r =>
      if 49 ≤ d ∧ d ≤ 57 then some (r.dropWhile (fun c => isdigitB c)) else none
    | [] => none
  match ipq with
  | none => none
  | some s2 =>
    let s3 := match s2 with
      | 46 :: r =>
        let ds := r.takeWhile (fun c => isdigitB c)
        if ds.isEmpty then s2 else r.drop ds.length
      | _ => s2
    match s3 with
    | e :: r =>
      if e = 101 ∨ e = 69 then
        let q := (dropSign r).2
        let eds := q.takeWhile (fun c => isdigitB c)
        if eds.isEmpty then some s3 else some (q.drop eds.length)
      else some s3
    | [] => some s3

mutual

/-- One strict JSON value, after optional leading whitespace. -/
def specJsonValue : Nat → List Nat → Option (List Nat)
  | 0, _ => none
  | fuel + 1, s =>
    let s1 := skipWs s
    if (ascii "null").isPrefixOf s1 then some (s1.drop 4)
    else if (ascii "true").isPrefixOf s1 then some (s1.drop 4)
    else if (ascii "false").isPrefixOf s1 then some (s1.drop 5)
    else
      match s1 with
      | 34 :: b => specJsonStr (b.length + 1) b
      | 91 :: m => specJsonArrTail fuel m
      | 123 :: m => specJsonObjTail fuel m
      | _ => specJsonNumber s1

def specJsonArrTail : Nat → List Nat → Option (List Nat)
  | 0, _ => none
  | fuel + 1, m =>
    match skipWs m with
    | 93 :: r => some r
    | _ => specJsonItems fuel m

def specJsonItems : Nat → List Nat → Option (List Nat)
  | 0, _ => none
  | fuel + 1, m =>
    match specJsonValue fuel m with
    | none => none
    | some m1 =>
      match skipWs m1 with
      | 93 :: r => some r
      | 44 :: m2 => specJsonItems fuel m2
      | _ => none

def specJsonObjTail : Nat → List Nat → Option (List Nat)
  | 0, _ => none
  | fuel + 1, m =>
    match skipWs m with
    | 125 :: r => some r
    | _ => specJsonMembers fuel m

def specJsonMembers : Nat → List Nat → Option (List Nat)
  | 0, _ => none
  | fuel + 1, m =>
    match skipWs m with
    | 34 :: b =>
      match specJsonStr (b.length + 1) b with
      | none => none
      | some m1 =>
        match skipWs m1 with
        | 58 :: m2 =>
          match specJsonValue fuel m2 with
          | none => none
          | some m3 =>
            match skipWs m3 with
            | 125 :: r => some r
            | 44 :: m4 => specJsonMembers fuel m4
            | _ => none
        | _ => none
    | _ => none

end

/-- Whether the input starts, after optional whitespace, with a strictly
well-formed JSON value. -/
def spec_json_wf (s : List Nat) : Bool :=
  (specJsonValue (3 * s.length + 3) s).isSome

/-! ## The JSON round trip

`json_safe` carves out the value trees the JSON bridge round-trips: only the
kinds Null, Bool, Int, Float, Str, List and Map, with every Int payload in
the `int64_t` range the C representation holds.  `jnorm` is the exact value
`parse_value` reconstructs from `write_json_value`'s output: every kind maps
to itself except Float, whose `%.15g` rendering reads back as an Int when the
rendering is a bare integer (`floatNorm`). -/

/-- The bytes that can follow a serialized value in `write_json_value`'s
output: end of input, `,`, `]` or `}` - never a digit, `.`, `e` or `E`, so
the following context can never extend a number token. -/
def jsonStop : List Nat → Bool
  | [] => true
  | c :: _ => decide (c = 44 ∨ c = 93 ∨ c = 125)

mutual

/-- The value trees built only from the kinds Null, Bool, Int, Float, Str,
List and Map, with Int payloads in the `int64_t` range. -/
def json_safe : GlyphValue → Bool
  | GlyphValue.vnull => true
  | GlyphValue.vbool _ => true
  | GlyphValue.vint n => decide (-(2 ^ 63) ≤ n ∧ n < 2 ^ 63)
  | GlyphValue.vfloat _ => true
  | GlyphValue.vstr _ => true
  | GlyphValue.vlist items => json_safe_items items
  | GlyphValue.vmap es => json_safe_entries es
  | _ => false

/-- `json_safe` on every list item. -/
def json_safe_items : List GlyphValue → Bool
  | [] => true
  | v :: rest => json_safe v && json_safe_items rest

/-- `json_safe` on every entry value. -/
def json_safe_entries : List (List Nat × GlyphValue) → Bool
  | [] => true
  | (_, v) :: rest => json_safe v && json_safe_entries rest

end

/-- The value `parse_number` reconstructs from `printf("%.15g", f)`: when
the rendering is a bare integer (fixed form with every fractional digit
stripped) the parser stays on the `strtoll` path and yields an Int, otherwise
the `strtod` path yields the Float holding the exact rational of the rendered
decimal, `D * 10^(e-14)` for the 15-digit significand `D` and decimal
exponent `e`. -/
def floatNorm (f : CDouble) : GlyphValue :=
  if f.val = 0 then GlyphValue.vint 0
  else
    let p := sigDigits15 |f.val|
    if 0 ≤ p.2 ∧ p.2 < 15 ∧
        stripZeros ((natDecimal p.1).drop (p.2.toNat + 1)) = [] then
      let m : Int := digitsVal ((natDecimal p.1).take (p.2.toNat + 1))
      GlyphValue.vint (if f.val < 0 then -m else m)
    else
      let q : ℚ := (p.1 : ℚ) * qpow10 (p.2 - 14)
      GlyphValue.vfloat ⟨if f.val < 0 then -q else q, false⟩

mutual

/-- What parsing `write_json_value v` returns for a `json_safe` value: the
identity except on Float payloads, which `floatNorm` normalizes (kinds
outside `json_safe` map to themselves, unused). -/
def jnorm : GlyphValue → GlyphValue
  | GlyphValue.vnull => GlyphValue.vnull
  | GlyphValue.vbool b => GlyphValue.vbool b
  | GlyphValue.vint n => GlyphValue.vint n
  | GlyphValue.vfloat f => floatNorm f
  | GlyphValue.vstr s => GlyphValue.vstr s
  | GlyphValue.vbytes bs => GlyphValue.vbytes bs
  | GlyphValue.vtime ms => GlyphValue.vtime ms
  | GlyphValue.vid pfx idval => GlyphValue.vid pfx idval
  | GlyphValue.vlist items => GlyphValue.vlist (jnormItems items)
  | GlyphValue.vmap es => GlyphValue.vmap (jnormEntries es)
  | GlyphValue.vstruct tn fs => GlyphValue.vstruct tn fs
  | GlyphValue.vsum tag inner => GlyphValue.vsum tag inner

/-- `jnorm` on every list item. -/
def jnormItems : List GlyphValue → List GlyphValue
  | [] => []
  | v :: rest => jnorm v :: jnormItems rest

/-- `jnorm` on every entry value, keys untouched. -/
def jnormEntries : List (List Nat × GlyphValue) → List (List Nat × GlyphValue)
  | [] => []
  | (k, v) :: rest => (k, jnorm v) :: jnormEntries rest

end

/-- The rendered-entry row an item contributes to `write_tabular` - the
per-item body of `renderRows`, named for the congruence proofs. -/
def rowOf (opts : CanonOpts) : GlyphValue → List (List Nat × List Nat)
  | GlyphValue.vmap es => renderEntries opts es
  | GlyphValue.vstruct _ fs => renderEntries opts fs
  | _ => []

/-! ### Decimal digit strings -/

theorem natDecimalAux_fuel {fuel fuel' n : Nat} (h : n < fuel) (h' : n < fuel') :
    natDecimalAux fuel n = natDecimalAux fuel' n := by
  induction fuel generalizing fuel' n with
  | zero => omega
  | succ f ih =>
    cases fuel' with
    | zero => omega
    | succ f' =>
      simp only [natDecimalAux]
      by_cases h10 : n < 10
      · simp [h10]
      · rw [if_neg h10, if_neg h10]
        have hd : n / 10 < n := Nat.div_lt_self (by omega) (by omega)
        rw [@ih f' (n / 10) (by omega) (by omega)]

theorem natDecimalAux_fuel_witness : natDecimalAux 5 3 = natDecimalAux 4 3 :=
  natDecimalAux_fuel (by decide) (by decide)

theorem natDecimal_unfold (n : Nat) :
    natDecimal n =
      if n < 10 then [48 + n] else natDecimal (n / 10) ++ [48 + n % 10] := by
  show natDecimalAux (n + 1) n = _
  rw [natDecimalAux]
  by_cases h10 : n < 10
  · simp [h10]
  · rw [if_neg h10, if_neg h10]
    have hd : n / 10 < n := Nat.div_lt_self (by omega) (by omega)
    rw [natDecimalAux_fuel (by omega) (Nat.lt_succ_self (n / 10))]
    rfl

theorem digitsVal_foldl (l : List Nat) (a : Nat) :
    List.foldl (fun acc c => acc * 10 + (c - 48)) a l =
      a * 10 ^ l.length + digitsVal l := by
  induction l generalizing a with
  | nil => simp [digitsVal]
  | cons c t ih =>
    simp only [digitsVal, List.foldl_cons, List.length_cons]
    rw [ih (a * 10 + (c - 48)), ih (0 * 10 + (c - 48))]
    ring

theorem digitsVal_cons (c : Nat) (t : List Nat) :
    digitsVal (c :: t) = (c - 48) * 10 ^ t.length + digitsVal t := by
  show List.foldl _ 0 (c :: t) = _
  rw [List.foldl_cons, digitsVal_foldl]
  norm_num

theorem digitsVal_append (a b : List Nat) :
    digitsVal (a ++ b) = digitsVal a * 10 ^ b.length + digitsVal b := by
  show List.foldl _ 0 (a ++ b) = _
  rw [List.foldl_append, digitsVal_foldl]
  rfl

theorem digitsVal_replicate_zero (k : Nat) :
    digitsVal (List.replicate k 48) = 0 := by
  induction k with
  | zero => rfl
  | succ k ih =>
    rw [List.replicate_succ, digitsVal_cons, ih]
    norm_num

theorem digitsVal_lt {l : List Nat} (h : ∀ c ∈ l, c ≤ 57) :
    digitsVal l < 10 ^ l.length := by
  induction l with
  | nil => simp [digitsVal]
  | cons c t ih =>
    rw [digitsVal_cons, List.length_cons]
    have hc : c - 48 ≤ 9 := by have := h c (by simp); omega
    have ht : digitsVal t < 10 ^ t.length := ih (fun c hc => h c (by simp [hc]))
    calc (c - 48) * 10 ^ t.length + digitsVal t
        < (c - 48) * 10 ^ t.length + 10 ^ t.length := by omega
      _ = (c - 48 + 1) * 10 ^ t.length := by ring
      _ ≤ 10 * 10 ^ t.length := Nat.mul_le_mul_right _ (by omega)
      _ = 10 ^ (t.length + 1) := by ring

theorem digitsVal_head_ge {c : Nat} (t : List Nat) (h : 49 ≤ c) :
    10 ^ t.length ≤ digitsVal (c :: t) := by
  rw [digitsVal_cons]
  have h1 : 1 * 10 ^ t.length ≤ (c - 48) * 10 ^ t.length :=
    Nat.mul_le_mul_right _ (by omega)
  calc 10 ^ t.length = 1 * 10 ^ t.length := by ring
    _ ≤ (c - 48) * 10 ^ t.length := h1
    _ ≤ (c - 48) * 10 ^ t.length + digitsVal t := Nat.le_add_right _ _

theorem digitsVal_take_drop (l : List Nat) (k : Nat) :
    digitsVal l =
      digitsVal (l.take k) * 10 ^ (l.drop k).length + digitsVal (l.drop k) := by
  conv_lhs => rw [← List.take_append_drop k l]
  exact digitsVal_append _ _

theorem natDecimal_spec (n : Nat) :
    natDecimal n ≠ [] ∧ (∀ c ∈ natDecimal n, 48 ≤ c ∧ c ≤ 57) ∧
      digitsVal (natDecimal n) = n ∧ n < 10 ^ (natDecimal n).length ∧
      (1 ≤ n → 10 ^ ((natDecimal n).length - 1) ≤ n ∧
        ∃ h t, natDecimal n = h :: t ∧ 49 ≤ h ∧ h ≤ 57) := by
  induction n using Nat.strong_induction_on with
  | _ n ih =>
    rw [natDecimal_unfold n]
    by_cases h10 : n < 10
    · rw [if_pos h10]
      refine ⟨by simp, ?_, ?_, ?_, ?_⟩
      · intro c hc
        simp at hc
        omega
      · rw [digitsVal_cons]
        simp [digitsVal]
      · simpa using h10
      · intro h1
        refine ⟨by simpa using h1, 48 + n, [], rfl, by omega, by omega⟩
    · rw [if_neg h10]
      have hd : n / 10 < n := Nat.div_lt_self (by omega) (by omega)
      obtain ⟨hne, hdig, hval, hlt, hlow⟩ := ih (n / 10) hd
      have hlow' := hlow (by omega)
      obtain ⟨hpow, h, t, hht, hh49, hh57⟩ := hlow'
      have hlen1 : 1 ≤ (natDecimal (n / 10)).length := by
        cases hnd : natDecimal (n / 10) with
        | nil => exact absurd hnd hne
        | cons a b => simp
      refine ⟨by simp, ?_, ?_, ?_, ?_⟩
      · intro c hc
        rw [List.mem_append] at hc
        rcases hc with hc | hc
        · exact hdig c hc
        · simp at hc
          omega
      · rw [digitsVal_append, digitsVal_cons, hval]
        simp [digitsVal]
        omega
      · rw [List.length_append]
        have hsucc : 10 ^ ((natDecimal (n / 10)).length + [48 + n % 10].length) =
            10 * 10 ^ (natDecimal (n / 10)).length := by
          simp [pow_succ]
          ring
        rw [hsucc]
        omega
      · intro _
        constructor
        · rw [List.length_append]
          have hlen : (natDecimal (n / 10)).length + [48 + n % 10].length - 1 =
              ((natDecimal (n / 10)).length - 1) + 1 := by
            simp
            omega
          rw [hlen, pow_succ]
          have : 10 ^ ((natDecimal (n / 10)).length - 1) * 10 ≤ (n / 10) * 10 :=
            Nat.mul_le_mul_right _ hpow
          omega
        · exact ⟨h, t ++ [48 + n % 10], by rw [hht]; rfl, hh49, hh57⟩

theorem natDecimal_ne_nil (n : Nat) : natDecimal n ≠ [] := (natDecimal_spec n).1

theorem natDecimal_all_digits (n : Nat) :
    ∀ c ∈ natDecimal n, 48 ≤ c ∧ c ≤ 57 := (natDecimal_spec n).2.1

theorem digitsVal_natDecimal (n : Nat) : digitsVal (natDecimal n) = n :=
  (natDecimal_spec n).2.2.1

theorem natDecimal_lt_pow (n : Nat) : n < 10 ^ (natDecimal n).length :=
  (natDecimal_spec n).2.2.2.1

theorem natDecimal_pow_le {n : Nat} (h : 1 ≤ n) :
    10 ^ ((natDecimal n).length - 1) ≤ n := ((natDecimal_spec n).2.2.2.2 h).1

theorem natDecimal_head {n : Nat} (h : 1 ≤ n) :
    ∃ h t, natDecimal n = h :: t ∧ 49 ≤ h ∧ h ≤ 57 :=
  ((natDecimal_spec n).2.2.2.2 h).2

theorem natDecimal_length_eq {n k : Nat} (h1 : 10 ^ k ≤ n)
    (h2 : n < 10 ^ (k + 1)) : (natDecimal n).length = k + 1 := by
  have hn1 : 1 ≤ n := le_trans (Nat.one_le_pow _ _ (by omega)) h1
  have hlt := natDecimal_lt_pow n
  have hle := natDecimal_pow_le hn1
  have hk : k < (natDecimal n).length :=
    (Nat.pow_lt_pow_iff_right (by omega)).mp (lt_of_le_of_lt h1 hlt)
  have hk2 : (natDecimal n).length - 1 < k + 1 :=
    (Nat.pow_lt_pow_iff_right (by omega)).mp (lt_of_le_of_lt hle h2)
  omega

theorem natDecimal_mul_pow (m k : Nat) (hm : 1 ≤ m) :
    natDecimal (m * 10 ^ k) = natDecimal m ++ List.replicate k 48 := by
  induction k with
  | zero => simp
  | succ k ih =>
    have h1 : m * 10 ^ (k + 1) = m * 10 ^ k * 10 := by ring
    rw [natDecimal_unfold (m * 10 ^ (k + 1))]
    have hends : 10 ≤ m * 10 ^ (k + 1) := by
      calc (10 : Nat) = 1 * 10 ^ 1 := by norm_num
        _ ≤ m * 10 ^ (k + 1) :=
          Nat.mul_le_mul hm (Nat.pow_le_pow_right (by omega) (by omega))
    rw [if_neg (by omega)]
    have hdiv : m * 10 ^ (k + 1) / 10 = m * 10 ^ k := by
      rw [h1]
      exact Nat.mul_div_cancel _ (by omega)
    have hmod : m * 10 ^ (k + 1) % 10 = 0 := by
      rw [h1]
      exact Nat.mul_mod_left _ _
    rw [hdiv, hmod, ih, List.replicate_succ', ← List.append_assoc]

theorem natDecimal_digitsVal : ∀ (l : List Nat), l ≠ [] →
    (∀ c ∈ l, 48 ≤ c ∧ c ≤ 57) → (∀ h t, l = h :: t → 49 ≤ h) →
    natDecimal (digitsVal l) = l := by
  intro l
  induction l using List.reverseRecOn with
  | nil => intro h; exact absurd rfl h
  | append_singleton l' d ih =>
    intro _ hdig hhead
    have hd : 48 ≤ d ∧ d ≤ 57 := hdig d (by simp)
    cases hl' : l' with
    | nil =>
      subst hl'
      have h49 : 49 ≤ d := hhead d [] rfl
      have hv : digitsVal ([] ++ [d]) = d - 48 := by
        rw [List.nil_append, digitsVal_cons]
        simp [digitsVal]
      rw [hv, natDecimal_unfold, if_pos (by omega : d - 48 < 10)]
      have heq : 48 + (d - 48) = d := by omega
      rw [heq, List.nil_append]
    | cons h0 t0 =>
      have hne' : l' ≠ [] := by rw [hl']; simp
      have hhead' : 49 ≤ h0 := hhead h0 (t0 ++ [d]) (by rw [hl']; rfl)
      have hpos : 1 ≤ digitsVal l' := by
        rw [hl']
        exact le_trans (Nat.one_le_pow _ _ (by omega)) (digitsVal_head_ge t0 hhead')
      have hv : digitsVal (l' ++ [d]) = digitsVal l' * 10 + (d - 48) := by
        rw [digitsVal_append, digitsVal_cons]
        simp [digitsVal]
      rw [← hl']
      rw [hv, natDecimal_unfold, if_neg (by omega : ¬ digitsVal l' * 10 + (d - 48) < 10)]
      have hdiv : (digitsVal l' * 10 + (d - 48)) / 10 = digitsVal l' := by omega
      have hmod : (digitsVal l' * 10 + (d - 48)) % 10 = d - 48 := by omega
      rw [hdiv, hmod]
      rw [ih hne' (fun c hc => hdig c (by simp [hc]))
        (fun h t ht => hhead h (t ++ [d]) (by rw [ht]; rfl))]
      have heq : 48 + (d - 48) = d := by omega
      rw [heq]

/-! ### Trailing-zero stripping -/

theorem dropWhile_head_false {p : Nat → Bool} :
    ∀ (l : List Nat) c t, l.dropWhile p = c :: t → p c = false := by
  intro l
  induction l with
  | nil => intro c t h; simp at h
  | cons a l ih =>
    intro c t h
    by_cases hp : p a
    · rw [List.dropWhile_cons_of_pos hp] at h
      exact ih c t h
    · rw [List.dropWhile_cons_of_neg hp] at h
      injection h with h1 _
      subst h1
      simpa using hp

theorem stripZeros_decomp (ds : List Nat) :
    ∃ k, ds = stripZeros ds ++ List.replicate k 48 := by
  refine ⟨(ds.reverse.takeWhile (fun c => decide (c = 48))).length, ?_⟩
  have h1 : ds.reverse.takeWhile (fun c => decide (c = 48)) =
      List.replicate (ds.reverse.takeWhile (fun c => decide (c = 48))).length 48 :=
    List.eq_replicate_length.mpr (fun b hb => by simpa using List.mem_takeWhile_imp hb)
  unfold stripZeros
  conv_lhs => rw [← List.reverse_reverse ds,
    ← List.takeWhile_append_dropWhile (fun c => decide (c = 48)) ds.reverse]
  rw [List.reverse_append]
  congr 1
  conv_lhs => rw [h1]
  exact List.reverse_replicate _ _

theorem stripZeros_last_ne {ds : List Nat} (h : stripZeros ds ≠ []) :
    ∃ l d, stripZeros ds = l ++ [d] ∧ d ≠ 48 := by
  unfold stripZeros at h ⊢
  cases hc : ds.reverse.dropWhile (fun c => decide (c = 48)) with
  | nil => rw [hc] at h; simp at h
  | cons c t =>
    have hp := dropWhile_head_false _ c t hc
    refine ⟨t.reverse, c, ?_, by simpa using hp⟩
    simp

theorem stripZeros_replicate (k : Nat) : stripZeros (List.replicate k 48) = [] := by
  unfold stripZeros
  rw [List.reverse_replicate,
    List.dropWhile_eq_nil_iff.mpr
      (fun a ha => by rw [List.eq_of_mem_replicate ha]; simp)]
  rfl

/-! ### Powers of ten, floor log 10, rounding -/

theorem qpow10_eq (e : Int) : qpow10 e = (10 : ℚ) ^ e := by
  unfold qpow10
  by_cases h : 0 ≤ e
  · rw [if_pos h, ← zpow_natCast, Int.toNat_of_nonneg h]
  · rw [if_neg h, one_div, ← zpow_natCast, ← zpow_neg]
    congr 1
    omega

theorem qpow10_pos (e : Int) : 0 < qpow10 e := by
  rw [qpow10_eq]
  exact zpow_pos (by norm_num) e

theorem qpow10_mul (a b : Int) : qpow10 a * qpow10 b = qpow10 (a + b) := by
  rw [qpow10_eq, qpow10_eq, qpow10_eq, ← zpow_add₀ (by norm_num : (10:ℚ) ≠ 0)]

theorem qpow10_le {a b : Int} (h : a ≤ b) : qpow10 a ≤ qpow10 b := by
  rw [qpow10_eq, qpow10_eq]
  exact zpow_le_zpow_right₀ (by norm_num) h

theorem qpow10_lt {a b : Int} (h : a < b) : qpow10 a < qpow10 b := by
  rw [qpow10_eq, qpow10_eq]
  exact zpow_lt_zpow_right₀ (by norm_num) h

theorem natCast_pow_eq_qpow10 (k : Nat) :
    ((10 ^ k : ℕ) : ℚ) = qpow10 (k : Int) := by
  rw [qpow10_eq]
  push_cast
  rw [zpow_natCast]

theorem digitCount_pos (n : Nat) : 1 ≤ digitCount n := by
  unfold digitCount
  cases hnd : natDecimal n with
  | nil => exact absurd hnd (natDecimal_ne_nil n)
  | cons a b => simp

theorem floorLog10_bracket {q : ℚ} (hq : 0 < q) :
    qpow10 (floorLog10 q) ≤ q ∧ q < qpow10 (floorLog10 q + 1) := by
  have hnum : 0 < q.num := Rat.num_pos.mpr hq
  have hnum1 : 1 ≤ q.num.natAbs := by omega
  have hden : 0 < q.den := q.pos
  have hcastA : ((q.num.natAbs : ℚ)) = (q.num : ℚ) := by
    rw [Int.cast_natAbs]
    exact_mod_cast congrArg (fun z : ℤ => (z : ℚ)) (abs_of_pos hnum)
  have hqAB : q = (q.num.natAbs : ℚ) / (q.den : ℚ) := by
    rw [hcastA]
    exact (Rat.num_div_den q).symm
  have hA_up : (q.num.natAbs : ℚ) < qpow10 (digitCount q.num.natAbs : Int) := by
    rw [← natCast_pow_eq_qpow10]
    exact_mod_cast natDecimal_lt_pow q.num.natAbs
  have hA_lo : qpow10 ((digitCount q.num.natAbs : Int) - 1) ≤ (q.num.natAbs : ℚ) := by
    have h1 : ((digitCount q.num.natAbs : Int) - 1) =
        ((digitCount q.num.natAbs - 1 : ℕ) : Int) := by
      have := digitCount_pos q.num.natAbs
      omega
    rw [h1, ← natCast_pow_eq_qpow10]
    exact_mod_cast natDecimal_pow_le hnum1
  have hB_up : (q.den : ℚ) < qpow10 (digitCount q.den : Int) := by
    rw [← natCast_pow_eq_qpow10]
    exact_mod_cast natDecimal_lt_pow q.den
  have hB_lo : qpow10 ((digitCount q.den : Int) - 1) ≤ (q.den : ℚ) := by
    have h1 : ((digitCount q.den : Int) - 1) = ((digitCount q.den - 1 : ℕ) : Int) := by
      have := digitCount_pos q.den
      omega
    rw [h1, ← natCast_pow_eq_qpow10]
    exact_mod_cast natDecimal_pow_le (by omega : 1 ≤ q.den)
  have hBq : (0:ℚ) < (q.den : ℚ) := by exact_mod_cast hden
  have hdiv1 : ((q.num.natAbs : ℚ)) / (q.den : ℚ) <
      qpow10 (digitCount q.num.natAbs : Int) / qpow10 ((digitCount q.den : Int) - 1) := by
    refine (div_lt_div_iff₀ hBq (qpow10_pos _)).mpr ?_
    calc (q.num.natAbs : ℚ) * qpow10 ((digitCount q.den : Int) - 1)
        < qpow10 (digitCount q.num.natAbs : Int) * qpow10 ((digitCount q.den : Int) - 1) :=
          mul_lt_mul_of_pos_right hA_up (qpow10_pos _)
      _ ≤ qpow10 (digitCount q.num.natAbs : Int) * (q.den : ℚ) :=
          mul_le_mul_of_nonneg_left hB_lo (qpow10_pos _).le
  have hdiv2 : qpow10 ((digitCount q.num.natAbs : Int) - 1) /
      qpow10 (digitCount q.den : Int) ≤ ((q.num.natAbs : ℚ)) / (q.den : ℚ) := by
    refine (div_le_div_iff₀ (qpow10_pos _) hBq).mpr ?_
    calc qpow10 ((digitCount q.num.natAbs : Int) - 1) * (q.den : ℚ)
        ≤ (q.num.natAbs : ℚ) * (q.den : ℚ) :=
          mul_le_mul_of_nonneg_right hA_lo hBq.le
      _ ≤ (q.num.natAbs : ℚ) * qpow10 (digitCount q.den : Int) :=
          mul_le_mul_of_nonneg_left hB_up.le (by positivity)
  have hkey1 : q < qpow10 ((digitCount q.num.natAbs : Int) - (digitCount q.den : Int) + 1) :=
    calc q = (q.num.natAbs : ℚ) / (q.den : ℚ) := hqAB
      _ < qpow10 (digitCount q.num.natAbs : Int) / qpow10 ((digitCount q.den : Int) - 1) := hdiv1
      _ = qpow10 ((digitCount q.num.natAbs : Int) - (digitCount q.den : Int) + 1) := by
          rw [div_eq_iff (qpow10_pos _).ne.symm, qpow10_mul]
          congr 1
          ring
  have hkey2 : qpow10 ((digitCount q.num.natAbs : Int) - (digitCount q.den : Int) - 1) ≤ q :=
    calc qpow10 ((digitCount q.num.natAbs : Int) - (digitCount q.den : Int) - 1)
        = qpow10 ((digitCount q.num.natAbs : Int) - 1) / qpow10 (digitCount q.den : Int) := by
          rw [eq_div_iff (qpow10_pos _).ne.symm, qpow10_mul]
          congr 1
          ring
      _ ≤ (q.num.natAbs : ℚ) / (q.den : ℚ) := hdiv2
      _ = q := hqAB.symm
  unfold floorLog10
  by_cases hcase : qpow10 ((digitCount q.num.natAbs : Int) - (digitCount q.den : Int)) ≤ q
  · rw [if_pos hcase]
    exact ⟨hcase, hkey1⟩
  · rw [if_neg hcase]
    constructor
    · exact hkey2
    · have heq : (digitCount q.num.natAbs : Int) - (digitCount q.den : Int) - 1 + 1 =
          (digitCount q.num.natAbs : Int) - (digitCount q.den : Int) := by ring
      rw [heq]
      exact lt_of_not_le hcase

theorem floorLog10_eq {q : ℚ} {e : Int} (h1 : qpow10 e ≤ q)
    (h2 : q < qpow10 (e + 1)) : floorLog10 q = e := by
  have hq : 0 < q := lt_of_lt_of_le (qpow10_pos e) h1
  obtain ⟨hl, hr⟩ := floorLog10_bracket hq
  by_contra hne
  rcases lt_or_gt_of_ne hne with hlt | hgt
  · exact absurd (lt_of_le_of_lt h1 hr) (not_lt.mpr (qpow10_le (by omega)))
  · exact absurd (lt_of_le_of_lt hl h2) (not_lt.mpr (qpow10_le (by omega)))

theorem qpow10_lt_rev {a b : Int} (h : qpow10 a < qpow10 b) : a < b := by
  by_contra hc
  exact absurd (qpow10_le (by omega : b ≤ a)) (not_le.mpr h)

theorem qpow10_zero : qpow10 0 = 1 := by norm_num [qpow10]

theorem roundHalfEven_intCast (n : Int) : roundHalfEven (n : ℚ) = n := by
  unfold roundHalfEven
  rw [Int.floor_intCast]
  norm_num

theorem roundHalfEven_bounds (q : ℚ) :
    q - 1/2 ≤ (roundHalfEven q : ℚ) ∧ (roundHalfEven q : ℚ) ≤ q + 1/2 := by
  unfold roundHalfEven
  have h1 : (⌊q⌋ : ℚ) ≤ q := Int.floor_le q
  have h2 : q < ⌊q⌋ + 1 := Int.lt_floor_add_one q
  by_cases hc1 : q - ⌊q⌋ < 1/2
  · rw [if_pos hc1]
    constructor <;> linarith
  · rw [if_neg hc1]
    by_cases hc2 : (1:ℚ)/2 < q - ⌊q⌋
    · rw [if_pos hc2]
      constructor <;> push_cast <;> linarith
    · rw [if_neg hc2]
      by_cases hc3 : ⌊q⌋ % 2 = 0
      · rw [if_pos hc3]
        constructor <;> linarith
      · rw [if_neg hc3]
        constructor <;> push_cast <;> linarith

theorem roundHalfEven_natCast (n : Nat) : roundHalfEven (n : ℚ) = (n : Int) := by
  have h : ((n : ℚ)) = (((n : ℤ)) : ℚ) := by push_cast; rfl
  rw [h, roundHalfEven_intCast]

/-! ### The 15-digit significand -/

theorem sigDigits15_bounds {a : ℚ} (ha : 0 < a) :
    10 ^ 14 ≤ (sigDigits15 a).1 ∧ (sigDigits15 a).1 < 10 ^ 15 := by
  obtain ⟨hl, hr⟩ := floorLog10_bracket ha
  have hsl : qpow10 14 ≤ a * qpow10 (14 - floorLog10 a) :=
    calc qpow10 14 = qpow10 (floorLog10 a) * qpow10 (14 - floorLog10 a) := by
          rw [qpow10_mul]; congr 1; ring
      _ ≤ a * qpow10 (14 - floorLog10 a) :=
          mul_le_mul_of_nonneg_right hl (qpow10_pos _).le
  have hsr : a * qpow10 (14 - floorLog10 a) < qpow10 15 :=
    calc a * qpow10 (14 - floorLog10 a)
        < qpow10 (floorLog10 a + 1) * qpow10 (14 - floorLog10 a) :=
          mul_lt_mul_of_pos_right hr (qpow10_pos _)
      _ = qpow10 15 := by rw [qpow10_mul]; congr 1; ring
  obtain ⟨hrl, hrr⟩ := roundHalfEven_bounds (a * qpow10 (14 - floorLog10 a))
  have hq14 : qpow10 14 = ((10 ^ 14 : ℕ) : ℚ) := (natCast_pow_eq_qpow10 14).symm
  have hq15 : qpow10 15 = ((10 ^ 15 : ℕ) : ℚ) := (natCast_pow_eq_qpow10 15).symm
  have hRlo : ((10 ^ 14 : ℕ) : Int) ≤ roundHalfEven (a * qpow10 (14 - floorLog10 a)) := by
    have h3 : (((10 ^ 14 : ℕ) : ℤ) : ℚ) - 1 <
        (roundHalfEven (a * qpow10 (14 - floorLog10 a)) : ℚ) := by
      rw [hq14] at hsl
      push_cast at hsl ⊢
      linarith
    have h4 : ((10 ^ 14 : ℕ) : ℤ) - 1 < roundHalfEven (a * qpow10 (14 - floorLog10 a)) := by
      exact_mod_cast h3
    omega
  have hRhi : roundHalfEven (a * qpow10 (14 - floorLog10 a)) ≤ ((10 ^ 15 : ℕ) : Int) := by
    have h3 : (roundHalfEven (a * qpow10 (14 - floorLog10 a)) : ℚ) <
        (((10 ^ 15 : ℕ) : ℤ) : ℚ) + 1 := by
      rw [hq15] at hsr
      push_cast at hsr ⊢
      linarith
    have h4 : roundHalfEven (a * qpow10 (14 - floorLog10 a)) < ((10 ^ 15 : ℕ) : ℤ) + 1 := by
      exact_mod_cast h3
    omega
  simp only [sigDigits15]
  by_cases hD : (roundHalfEven (a * qpow10 (14 - floorLog10 a))).toNat = 10 ^ 15
  · rw [if_pos hD]
    exact ⟨le_rfl, by norm_num⟩
  · rw [if_neg hD]
    refine ⟨?_, ?_⟩
    · have h0 : (0:ℤ) ≤ roundHalfEven (a * qpow10 (14 - floorLog10 a)) :=
        le_trans (by positivity) hRlo
      omega
    · omega

theorem sigDigits15_len {a : ℚ} (ha : 0 < a) :
    (natDecimal (sigDigits15 a).1).length = 15 := by
  obtain ⟨h1, h2⟩ := sigDigits15_bounds ha
  exact natDecimal_length_eq h1 h2

theorem sigDigits15_idem {a : ℚ} (ha : 0 < a) :
    sigDigits15 (((sigDigits15 a).1 : ℚ) * qpow10 ((sigDigits15 a).2 - 14)) =
      sigDigits15 a := by
  obtain ⟨hDl, hDr⟩ := sigDigits15_bounds ha
  cases hsig : sigDigits15 a with
  | mk D e =>
    rw [hsig] at hDl hDr
    simp only at hDl hDr ⊢
    have hq14p : qpow10 14 = ((10 ^ 14 : ℕ) : ℚ) := (natCast_pow_eq_qpow10 14).symm
    have hq15p : qpow10 15 = ((10 ^ 15 : ℕ) : ℚ) := (natCast_pow_eq_qpow10 15).symm
    have hDq : qpow10 14 ≤ (D : ℚ) := by
      rw [hq14p]
      exact_mod_cast hDl
    have hDq2 : (D : ℚ) < qpow10 15 := by
      rw [hq15p]
      exact_mod_cast hDr
    have hfl : floorLog10 ((D : ℚ) * qpow10 (e - 14)) = e := by
      apply floorLog10_eq
      · calc qpow10 e = qpow10 14 * qpow10 (e - 14) := by
              rw [qpow10_mul]; congr 1; ring
          _ ≤ (D : ℚ) * qpow10 (e - 14) :=
              mul_le_mul_of_nonneg_right hDq (qpow10_pos _).le
      · calc (D : ℚ) * qpow10 (e - 14) < qpow10 15 * qpow10 (e - 14) :=
              mul_lt_mul_of_pos_right hDq2 (qpow10_pos _)
          _ = qpow10 (e + 1) := by rw [qpow10_mul]; congr 1; ring
    have hscaled : (D : ℚ) * qpow10 (e - 14) * qpow10 (14 - e) = ((D : ℤ) : ℚ) := by
      rw [mul_assoc, qpow10_mul]
      have hz : e - 14 + (14 - e) = 0 := by ring
      rw [hz, qpow10_zero, mul_one]
      push_cast
      rfl
    simp only [sigDigits15]
    rw [hfl, hscaled, roundHalfEven_intCast, Int.toNat_natCast]
    rw [if_neg (by omega : ¬ D = 10 ^ 15)]

theorem sigDigits15_whole {m : Nat} (hm : 1 ≤ m) (hlt : m < 10 ^ 15) :
    ∃ k : Nat, floorLog10 (m : ℚ) = (k : Int) ∧ k ≤ 14 ∧
      10 ^ k ≤ m ∧ m < 10 ^ (k + 1) ∧
      sigDigits15 (m : ℚ) = (m * 10 ^ (14 - k), (k : Int)) := by
  have hm0 : (0:ℚ) < (m:ℚ) := by exact_mod_cast hm
  obtain ⟨hl, hr⟩ := floorLog10_bracket hm0
  have he0 : 0 ≤ floorLog10 (m : ℚ) := by
    by_contra hneg
    have h1 : qpow10 (floorLog10 (m : ℚ) + 1) ≤ qpow10 0 := qpow10_le (by omega)
    have h3 : (1:ℚ) ≤ (m:ℚ) := by exact_mod_cast hm
    rw [qpow10_zero] at h1
    linarith
  have hmq15 : (m : ℚ) < qpow10 15 := by
    have hq15p : qpow10 15 = ((10 ^ 15 : ℕ) : ℚ) := (natCast_pow_eq_qpow10 15).symm
    rw [hq15p]
    exact_mod_cast hlt
  have hklt : floorLog10 (m : ℚ) < 15 :=
    qpow10_lt_rev (lt_of_le_of_lt hl hmq15)
  refine ⟨(floorLog10 (m : ℚ)).toNat, (Int.toNat_of_nonneg he0).symm, by omega, ?_, ?_, ?_⟩
  · have h1 : qpow10 ((floorLog10 (m : ℚ)).toNat : Int) ≤ (m : ℚ) := by
      rw [Int.toNat_of_nonneg he0]
      exact hl
    rw [← natCast_pow_eq_qpow10] at h1
    exact_mod_cast h1
  · have h1 : (m : ℚ) < qpow10 (((floorLog10 (m : ℚ)).toNat + 1 : ℕ) : Int) := by
      have h2 : (((floorLog10 (m : ℚ)).toNat + 1 : ℕ) : Int) = floorLog10 (m : ℚ) + 1 := by
        omega
      rw [h2]
      exact hr
    rw [← natCast_pow_eq_qpow10] at h1
    exact_mod_cast h1
  · have hscaled : (m : ℚ) * qpow10 (14 - floorLog10 (m : ℚ)) =
        ((m * 10 ^ (14 - (floorLog10 (m : ℚ)).toNat) : ℕ) : ℚ) := by
      have h2 : (14 - floorLog10 (m : ℚ)) = ((14 - (floorLog10 (m : ℚ)).toNat : ℕ) : Int) := by
        omega
      rw [h2, ← natCast_pow_eq_qpow10]
      push_cast
      ring
    simp only [sigDigits15]
    rw [hscaled, roundHalfEven_natCast, Int.toNat_natCast]
    have hD15 : m * 10 ^ (14 - (floorLog10 (m : ℚ)).toNat) < 10 ^ 15 := by
      have hke : (floorLog10 (m : ℚ)).toNat ≤ 14 := by omega
      calc m * 10 ^ (14 - (floorLog10 (m : ℚ)).toNat)
          < 10 ^ ((floorLog10 (m : ℚ)).toNat + 1) * 10 ^ (14 - (floorLog10 (m : ℚ)).toNat) := by
            refine (Nat.mul_lt_mul_right (Nat.pow_pos (by omega))).mpr ?_
            have h1 : (m : ℚ) < qpow10 (((floorLog10 (m : ℚ)).toNat + 1 : ℕ) : Int) := by
              have h2 : (((floorLog10 (m : ℚ)).toNat + 1 : ℕ) : Int) =
                  floorLog10 (m : ℚ) + 1 := by omega
              rw [h2]
              exact hr
            rw [← natCast_pow_eq_qpow10] at h1
            exact_mod_cast h1
        _ = 10 ^ 15 := by
            rw [← pow_add]
            congr 1
            omega
    rw [if_neg (by omega : ¬ m * 10 ^ (14 - (floorLog10 (m : ℚ)).toNat) = 10 ^ 15)]
    congr 1
    exact (Int.toNat_of_nonneg he0).symm

theorem sigDigits15_intForm {m : Nat} (hm : 1 ≤ m) (hlt : m < 10 ^ 15) :
    0 ≤ (sigDigits15 (m : ℚ)).2 ∧ (sigDigits15 (m : ℚ)).2 < 15 ∧
      stripZeros ((natDecimal (sigDigits15 (m : ℚ)).1).drop
        ((sigDigits15 (m : ℚ)).2.toNat + 1)) = [] ∧
      digitsVal ((natDecimal (sigDigits15 (m : ℚ)).1).take
        ((sigDigits15 (m : ℚ)).2.toNat + 1)) = m := by
  obtain ⟨k, hfl, hk14, hkle, hklt, hsig⟩ := sigDigits15_whole hm hlt
  rw [hsig]
  simp only
  have hnd : natDecimal (m * 10 ^ (14 - k)) = natDecimal m ++ List.replicate (14 - k) 48 :=
    natDecimal_mul_pow m (14 - k) hm
  have hlen : (natDecimal m).length = k + 1 := natDecimal_length_eq hkle hklt
  have htoNat : ((k : Int)).toNat = k := Int.toNat_natCast k
  refine ⟨by omega, by omega, ?_, ?_⟩
  · rw [hnd, htoNat]
    have hdrop : (natDecimal m ++ List.replicate (14 - k) 48).drop (k + 1) =
        List.replicate (14 - k) 48 := by
      rw [← hlen]
      exact List.drop_left _ _
    rw [hdrop]
    exact stripZeros_replicate _
  · rw [hnd, htoNat]
    have htake : (natDecimal m ++ List.replicate (14 - k) 48).take (k + 1) = natDecimal m := by
      rw [← hlen]
      exact List.take_left _ _
    rw [htake, digitsVal_natDecimal]

theorem fmtG15Pos_congr {x y : ℚ} (h : sigDigits15 x = sigDigits15 y) :
    fmtG15Pos x = fmtG15Pos y := by
  unfold fmtG15Pos
  rw [h]

theorem fmtG15Pos_intForm {a : ℚ} (h0 : 0 ≤ (sigDigits15 a).2)
    (h15 : (sigDigits15 a).2 < 15)
    (hstrip : stripZeros ((natDecimal (sigDigits15 a).1).drop
      ((sigDigits15 a).2.toNat + 1)) = []) :
    fmtG15Pos a = (natDecimal (sigDigits15 a).1).take ((sigDigits15 a).2.toNat + 1) := by
  simp only [fmtG15Pos]
  rw [if_neg (by omega : ¬ ((sigDigits15 a).2 < -4 ∨ 15 ≤ (sigDigits15 a).2))]
  rw [if_neg (by omega : ¬ (sigDigits15 a).2 < 0)]
  rw [hstrip]
  simp

theorem whole_intForm_aux {x : ℚ} (hx : x ≠ 0) (hfl : (⌊x⌋ : ℚ) = x)
    (hlt : |x| < 10 ^ 15) :
    1 ≤ ⌊x⌋.natAbs ∧ ⌊x⌋.natAbs < 10 ^ 15 ∧ |x| = (⌊x⌋.natAbs : ℚ) := by
  have hz : ⌊x⌋ ≠ 0 := by
    intro h
    rw [h] at hfl
    exact hx (by exact_mod_cast hfl.symm)
  have habs : |x| = (⌊x⌋.natAbs : ℚ) := by
    rw [Int.cast_natAbs, Int.cast_abs, hfl]
  refine ⟨by omega, ?_, habs⟩
  rw [habs] at hlt
  have hcast : ((⌊x⌋.natAbs : ℚ)) < ((10 ^ 15 : ℕ) : ℚ) := by
    push_cast
    linarith
  exact_mod_cast hcast

theorem intForm_cond_of_whole {x : ℚ} (hx : x ≠ 0) (hfl : (⌊x⌋ : ℚ) = x)
    (hlt : |x| < 10 ^ 15) :
    (0 ≤ (sigDigits15 |x|).2 ∧ (sigDigits15 |x|).2 < 15 ∧
      stripZeros ((natDecimal (sigDigits15 |x|).1).drop
        ((sigDigits15 |x|).2.toNat + 1)) = []) ∧
      digitsVal ((natDecimal (sigDigits15 |x|).1).take
        ((sigDigits15 |x|).2.toNat + 1)) = ⌊x⌋.natAbs := by
  obtain ⟨h1, h2, h3⟩ := whole_intForm_aux hx hfl hlt
  rw [h3]
  obtain ⟨g1, g2, g3, g4⟩ := sigDigits15_intForm h1 h2
  exact ⟨⟨g1, g2, g3⟩, g4⟩

theorem take_reconstruct {a : ℚ} (ha : 0 < a) :
    natDecimal (digitsVal ((natDecimal (sigDigits15 a).1).take
        ((sigDigits15 a).2.toNat + 1))) =
      (natDecimal (sigDigits15 a).1).take ((sigDigits15 a).2.toNat + 1) ∧
    1 ≤ digitsVal ((natDecimal (sigDigits15 a).1).take ((sigDigits15 a).2.toNat + 1)) := by
  have hD1 : 1 ≤ (sigDigits15 a).1 :=
    le_trans (by norm_num) (sigDigits15_bounds ha).1
  obtain ⟨h, t, hht, hh49, hh57⟩ := natDecimal_head hD1
  rw [hht, List.take_succ_cons]
  constructor
  · apply natDecimal_digitsVal
    · simp
    · intro c hc
      refine natDecimal_all_digits (sigDigits15 a).1 c ?_
      rw [hht]
      rcases List.mem_cons.mp hc with hc | hc
      · simp [hc]
      · exact List.mem_cons_of_mem _ (List.mem_of_mem_take hc)
    · intro h' t' h''
      injection h'' with hh _
      omega
  · exact le_trans (Nat.one_le_pow _ _ (by omega)) (digitsVal_head_ge _ hh49)

theorem write_canon_vfloat (opts : CanonOpts) (g : CDouble) (hg : g.val ≠ 0) :
    write_canon_value opts (GlyphValue.vfloat g) =
      if (⌊g.val⌋ : ℚ) = g.val ∧ |g.val| < 10 ^ 15 then intRender ⌊g.val⌋
      else fmtG15 g := by
  simp only [write_canon_value, if_neg hg]

theorem write_canon_vfloat_zero (opts : CanonOpts) (g : CDouble) (hg : g.val = 0) :
    write_canon_value opts (GlyphValue.vfloat g) = intRender 0 := by
  simp only [write_canon_value, if_pos hg]
  rw [if_pos ⟨by norm_num, by norm_num⟩]
  norm_num

theorem fmtG15_spec (g : CDouble) (hg : g.val ≠ 0) :
    fmtG15 g = if g.val < 0 then 45 :: fmtG15Pos (-g.val) else fmtG15Pos g.val := by
  simp only [fmtG15, if_neg hg]

theorem floatNorm_canon (opts : CanonOpts) (f : CDouble) :
    write_canon_value opts (floatNorm f) =
      write_canon_value opts (GlyphValue.vfloat f) := by
  by_cases hz : f.val = 0
  · rw [write_canon_vfloat_zero opts f hz]
    simp only [floatNorm, if_pos hz, write_canon_value]
  · have habs : 0 < |f.val| := abs_pos.mpr hz
    rw [write_canon_vfloat opts f hz]
    simp only [floatNorm, if_neg hz]
    by_cases hC : 0 ≤ (sigDigits15 |f.val|).2 ∧ (sigDigits15 |f.val|).2 < 15 ∧
        stripZeros ((natDecimal (sigDigits15 |f.val|).1).drop
          ((sigDigits15 |f.val|).2.toNat + 1)) = []
    · rw [if_pos hC]
      obtain ⟨h0, h15, hstrip⟩ := hC
      obtain ⟨hrec, hm1⟩ := take_reconstruct habs
      simp only [write_canon_value]
      by_cases hW : (⌊f.val⌋ : ℚ) = f.val ∧ |f.val| < 10 ^ 15
      · rw [if_pos hW]
        obtain ⟨hwf, hwlt⟩ := hW
        obtain ⟨_, hmval⟩ := intForm_cond_of_whole hz hwf hwlt
        rw [hmval]
        by_cases hneg : f.val < 0
        · have hfneg : ⌊f.val⌋ < 0 := by
            by_contra hle
            have h2 : (0:ℚ) ≤ (⌊f.val⌋ : ℚ) := by exact_mod_cast not_lt.mp hle
            rw [hwf] at h2
            linarith
          rw [if_pos hneg]
          have heq : -(⌊f.val⌋.natAbs : Int) = ⌊f.val⌋ := by omega
          rw [heq]
        · have hfpos : 0 ≤ ⌊f.val⌋ := by
            by_contra hlt2
            have h2 : (⌊f.val⌋ : ℚ) < 0 := by exact_mod_cast not_le.mp hlt2
            rw [hwf] at h2
            exact hneg h2
          rw [if_neg hneg]
          have heq : ((⌊f.val⌋.natAbs : ℕ) : Int) = ⌊f.val⌋ := by omega
          rw [heq]
      · rw [if_neg hW]
        have hform := fmtG15Pos_intForm h0 h15 hstrip
        rw [fmtG15_spec f hz]
        by_cases hneg : f.val < 0
        · rw [if_pos hneg, if_pos hneg]
          have habs_neg : -f.val = |f.val| := (abs_of_neg hneg).symm
          rw [habs_neg, hform]
          simp only [intRender]
          rw [if_pos (by omega : -(digitsVal ((natDecimal
            (sigDigits15 |f.val|).1).take ((sigDigits15 |f.val|).2.toNat + 1)) : Int) < 0)]
          have htn : (-(-(digitsVal ((natDecimal (sigDigits15 |f.val|).1).take
              ((sigDigits15 |f.val|).2.toNat + 1)) : Int))).toNat =
              digitsVal ((natDecimal (sigDigits15 |f.val|).1).take
                ((sigDigits15 |f.val|).2.toNat + 1)) := by omega
          rw [htn, hrec]
        · rw [if_neg hneg, if_neg hneg]
          have habs_pos : f.val = |f.val| :=
            (abs_of_pos (lt_of_le_of_ne (not_lt.mp hneg) (Ne.symm hz))).symm
          conv_rhs => rw [habs_pos]
          rw [hform]
          simp only [intRender]
          rw [if_neg (by omega : ¬ ((digitsVal ((natDecimal
            (sigDigits15 |f.val|).1).take ((sigDigits15 |f.val|).2.toNat + 1)) : ℕ) : Int) < 0)]
          rw [Int.toNat_natCast, hrec]
    · rw [if_neg hC]
      have hD1 : (0:ℚ) < ((sigDigits15 |f.val|).1 : ℚ) := by
        have := (sigDigits15_bounds habs).1
        exact_mod_cast lt_of_lt_of_le (by norm_num : (0:ℕ) < 10 ^ 14) this
      have hq'pos : 0 < ((sigDigits15 |f.val|).1 : ℚ) *
          qpow10 ((sigDigits15 |f.val|).2 - 14) := mul_pos hD1 (qpow10_pos _)
      have hsigq := sigDigits15_idem habs
      have hWf : ¬ ((⌊f.val⌋ : ℚ) = f.val ∧ |f.val| < 10 ^ 15) := by
        intro hW
        exact hC (intForm_cond_of_whole hz hW.1 hW.2).1
      rw [if_neg hWf, fmtG15_spec f hz]
      by_cases hneg : f.val < 0
      · rw [if_pos hneg, if_pos hneg]
        have hne2 : -(((sigDigits15 |f.val|).1 : ℚ) *
            qpow10 ((sigDigits15 |f.val|).2 - 14)) ≠ 0 := by
          simpa using hq'pos.ne.symm
        rw [write_canon_vfloat opts _ hne2]
        have habs2 : |(-(((sigDigits15 |f.val|).1 : ℚ) *
            qpow10 ((sigDigits15 |f.val|).2 - 14)))| =
            ((sigDigits15 |f.val|).1 : ℚ) * qpow10 ((sigDigits15 |f.val|).2 - 14) := by
          rw [abs_neg]
          exact abs_of_pos hq'pos
        have hw2 : ¬ ((⌊(-(((sigDigits15 |f.val|).1 : ℚ) *
            qpow10 ((sigDigits15 |f.val|).2 - 14)))⌋ : ℚ) =
              -(((sigDigits15 |f.val|).1 : ℚ) * qpow10 ((sigDigits15 |f.val|).2 - 14)) ∧
            |(-(((sigDigits15 |f.val|).1 : ℚ) *
              qpow10 ((sigDigits15 |f.val|).2 - 14)))| < 10 ^ 15) := by
          intro hW2
          have hcond := (intForm_cond_of_whole hne2 hW2.1 hW2.2).1
          rw [habs2, hsigq] at hcond
          exact hC hcond
        rw [if_neg hw2, fmtG15_spec _ hne2]
        rw [if_pos (by simpa using hq'pos :
          -(((sigDigits15 |f.val|).1 : ℚ) * qpow10 ((sigDigits15 |f.val|).2 - 14)) < 0)]
        rw [neg_neg]
        have hcongr := fmtG15Pos_congr hsigq
        rw [hcongr]
        rw [(abs_of_neg hneg).symm]
      · rw [if_neg hneg, if_neg hneg]
        have hne2 : ((sigDigits15 |f.val|).1 : ℚ) *
            qpow10 ((sigDigits15 |f.val|).2 - 14) ≠ 0 := hq'pos.ne.symm
        rw [write_canon_vfloat opts _ hne2]
        have habs2 : |(((sigDigits15 |f.val|).1 : ℚ) *
            qpow10 ((sigDigits15 |f.val|).2 - 14))| =
            ((sigDigits15 |f.val|).1 : ℚ) * qpow10 ((sigDigits15 |f.val|).2 - 14) :=
          abs_of_pos hq'pos
        have hw2 : ¬ ((⌊((sigDigits15 |f.val|).1 : ℚ) *
            qpow10 ((sigDigits15 |f.val|).2 - 14)⌋ : ℚ) =
              ((sigDigits15 |f.val|).1 : ℚ) * qpow10 ((sigDigits15 |f.val|).2 - 14) ∧
            |(((sigDigits15 |f.val|).1 : ℚ) *
              qpow10 ((sigDigits15 |f.val|).2 - 14))| < 10 ^ 15) := by
          intro hW2
          have hcond := (intForm_cond_of_whole hne2 hW2.1 hW2.2).1
          rw [habs2, hsigq] at hcond
          exact hC hcond
        rw [if_neg hw2, fmtG15_spec _ hne2]
        rw [if_neg (by simpa using not_lt.mpr hq'pos.le :
          ¬ ((sigDigits15 |f.val|).1 : ℚ) * qpow10 ((sigDigits15 |f.val|).2 - 14) < 0)]
        have hcongr := fmtG15Pos_congr hsigq
        rw [hcongr]
        have habs_pos : f.val = |f.val| :=
          (abs_of_pos (lt_of_le_of_ne (not_lt.mp hneg) (Ne.symm hz))).symm
        rw [← habs_pos]

/-! ### Canonical form is invariant under the parse normalization -/

theorem floatNorm_cases (f : CDouble) :
    (∃ n, floatNorm f = GlyphValue.vint n) ∨ ∃ c, floatNorm f = GlyphValue.vfloat c := by
  simp only [floatNorm]
  by_cases h1 : f.val = 0
  · rw [if_pos h1]
    exact Or.inl ⟨0, rfl⟩
  · rw [if_neg h1]
    by_cases h2 : 0 ≤ (sigDigits15 |f.val|).2 ∧ (sigDigits15 |f.val|).2 < 15 ∧
        stripZeros ((natDecimal (sigDigits15 |f.val|).1).drop
          ((sigDigits15 |f.val|).2.toNat + 1)) = []
    · rw [if_pos h2]
      exact Or.inl ⟨_, rfl⟩
    · rw [if_neg h2]
      exact Or.inr ⟨_, rfl⟩

theorem jnormEntries_keys (es : List (List Nat × GlyphValue)) :
    (jnormEntries es).map Prod.fst = es.map Prod.fst := by
  induction es with
  | nil => rfl
  | cons e rest ih =>
    obtain ⟨k, v⟩ := e
    simp only [jnormEntries, List.map_cons, ih]

theorem jnormItems_length (items : List GlyphValue) :
    (jnormItems items).length = items.length := by
  induction items with
  | nil => rfl
  | cons v rest ih => simp only [jnormItems, List.length_cons, ih]

theorem entryKeys_jnorm (v : GlyphValue) : entryKeys (jnorm v) = entryKeys v := by
  cases v with
  | vfloat f =>
    rcases floatNorm_cases f with ⟨n, h⟩ | ⟨c, h⟩ <;> simp only [jnorm, h] <;> rfl
  | vmap es =>
    simp only [jnorm, entryKeys, jnormEntries_keys]
  | vnull => rfl
  | vbool b => rfl
  | vint n => rfl
  | vstr s => rfl
  | vbytes bs => rfl
  | vtime ms => rfl
  | vid p i => rfl
  | vstruct tn fs => rfl
  | vsum tag inner => rfl
  | vlist items => rfl

theorem hasKey_jnorm (v : GlyphValue) (k : List Nat) :
    hasKey (jnorm v) k = hasKey v k := by
  unfold hasKey
  rw [entryKeys_jnorm]

theorem collectAllKeys_jnorm (items : List GlyphValue) :
    collectAllKeys (jnormItems items) = collectAllKeys items := by
  have haux : ∀ (its : List GlyphValue) (acc : List (List Nat)),
      List.foldlM (fun acc it => (entryKeys it).map (addKeys acc)) acc (jnormItems its) =
        List.foldlM (fun acc it => (entryKeys it).map (addKeys acc)) acc its := by
    intro its
    induction its with
    | nil => intro acc; rfl
    | cons v rest ih =>
      intro acc
      simp only [jnormItems, List.foldlM_cons, entryKeys_jnorm]
      cases entryKeys v with
      | none => rfl
      | some ks => exact ih (addKeys acc ks)
  exact haux items []

theorem all_hasKey_jnorm (items : List GlyphValue) (k : List Nat) :
    (jnormItems items).all (fun it => hasKey it k) =
      items.all (fun it => hasKey it k) := by
  induction items with
  | nil => rfl
  | cons v rest ih => simp only [jnormItems, List.all_cons, hasKey_jnorm, ih]

theorem check_homogeneous_jnorm (items : List GlyphValue) (opts : CanonOpts) :
    check_homogeneous (jnormItems items) opts = check_homogeneous items opts := by
  unfold check_homogeneous
  rw [jnormItems_length, collectAllKeys_jnorm]
  cases collectAllKeys items with
  | none => rfl
  | some allKeys =>
    simp only
    have hp : (fun k => (jnormItems items).all (fun it => hasKey it k)) =
        (fun k => items.all (fun it => hasKey it k)) :=
      funext (fun k => all_hasKey_jnorm items k)
    rw [hp]

theorem renderItems_congr (opts : CanonOpts) (items : List GlyphValue)
    (h : ∀ it ∈ items, write_canon_value opts (jnorm it) = write_canon_value opts it) :
    renderItems opts (jnormItems items) = renderItems opts items := by
  induction items with
  | nil => rfl
  | cons v rest ih =>
    simp only [jnormItems, renderItems]
    rw [h v (by simp), ih (fun it hit => h it (by simp [hit]))]

theorem renderEntries_congr (opts : CanonOpts) (es : List (List Nat × GlyphValue))
    (h : ∀ e ∈ es, write_canon_value opts (jnorm e.2) = write_canon_value opts e.2) :
    renderEntries opts (jnormEntries es) = renderEntries opts es := by
  induction es with
  | nil => rfl
  | cons e rest ih =>
    obtain ⟨k, v⟩ := e
    simp only [jnormEntries, renderEntries]
    rw [h (k, v) (by simp), ih (fun e he => h e (by simp [he]))]

theorem jnormItems_eq_map (items : List GlyphValue) :
    jnormItems items = items.map jnorm := by
  induction items with
  | nil => rfl
  | cons v rest ih => simp only [jnormItems, List.map_cons, ih]

theorem renderRows_eq_map (opts : CanonOpts) : ∀ items : List GlyphValue,
    renderRows opts items = items.map (rowOf opts) := by
  intro items
  induction items with
  | nil => rfl
  | cons v rest ih =>
    cases v <;> simp only [renderRows, List.map_cons, ih, rowOf]

theorem rowOf_jnorm (opts : CanonOpts) (v : GlyphValue)
    (h : ∀ es, v = GlyphValue.vmap es →
      renderEntries opts (jnormEntries es) = renderEntries opts es) :
    rowOf opts (jnorm v) = rowOf opts v := by
  cases v with
  | vmap es =>
    simp only [jnorm, rowOf]
    exact h es rfl
  | vfloat f =>
    rcases floatNorm_cases f with ⟨m, hm⟩ | ⟨c, hc⟩ <;> simp only [jnorm]
    · rw [hm]
      rfl
    · rw [hc]
      rfl
  | vnull => rfl
  | vbool b => rfl
  | vint m => rfl
  | vstr sb => rfl
  | vbytes bs => rfl
  | vtime ms => rfl
  | vid px i => rfl
  | vstruct tn fs => rfl
  | vsum tag inner => rfl
  | vlist its => rfl

theorem renderRows_congr (opts : CanonOpts) (items : List GlyphValue)
    (h : ∀ it ∈ items, ∀ es, it = GlyphValue.vmap es →
      renderEntries opts (jnormEntries es) = renderEntries opts es) :
    renderRows opts (jnormItems items) = renderRows opts items := by
  rw [renderRows_eq_map, renderRows_eq_map, jnormItems_eq_map, List.map_map]
  refine List.map_congr_left ?_
  intro it hit
  have := rowOf_jnorm opts it (fun es he => h it hit es he)
  simpa using this

theorem jnorm_canon_size (opts : CanonOpts) :
    ∀ (n : Nat) (v : GlyphValue), sizeOf v ≤ n →
      write_canon_value opts (jnorm v) = write_canon_value opts v := by
  intro n
  induction n with
  | zero =>
    intro v hv
    exact absurd hv (by cases v <;> simp)
  | succ n ih =>
    intro v hv
    cases v with
    | vnull => rfl
    | vbool b => rfl
    | vint m => rfl
    | vfloat f => exact floatNorm_canon opts f
    | vstr s => rfl
    | vbytes bs => rfl
    | vtime ms => rfl
    | vid p i => rfl
    | vstruct tn fs => rfl
    | vsum tag inner => rfl
    | vlist items =>
      have hsz : sizeOf (GlyphValue.vlist items) = 1 + sizeOf items := by simp
      have hitem : ∀ it ∈ items,
          write_canon_value opts (jnorm it) = write_canon_value opts it := by
        intro it hit
        refine ih it ?_
        have h1 := List.sizeOf_lt_of_mem hit
        omega
      have hentry : ∀ it ∈ items, ∀ es, it = GlyphValue.vmap es →
          renderEntries opts (jnormEntries es) = renderEntries opts es := by
        intro it hit es he
        refine renderEntries_congr opts es ?_
        intro e hee
        refine ih e.2 ?_
        have h1 := List.sizeOf_lt_of_mem hit
        have h2 := List.sizeOf_lt_of_mem hee
        have h4 : sizeOf e.2 < sizeOf e := by
          obtain ⟨k, v2⟩ := e
          simp only [Prod.mk.sizeOf_spec]
          omega
        subst he
        have h3 : sizeOf (GlyphValue.vmap es) = 1 + sizeOf es := by simp
        omega
      simp only [jnorm, write_canon_value]
      rw [renderItems_congr opts items hitem, renderRows_congr opts items hentry]
      simp only [write_canon_list]
      rw [check_homogeneous_jnorm, jnormItems_length]
    | vmap es =>
      have hsz : sizeOf (GlyphValue.vmap es) = 1 + sizeOf es := by simp
      have hentry : ∀ e ∈ es,
          write_canon_value opts (jnorm e.2) = write_canon_value opts e.2 := by
        intro e hee
        refine ih e.2 ?_
        have h2 := List.sizeOf_lt_of_mem hee
        have h4 : sizeOf e.2 < sizeOf e := by
          obtain ⟨k, v2⟩ := e
          simp only [Prod.mk.sizeOf_spec]
          omega
        omega
      simp only [jnorm, write_canon_value]
      rw [renderEntries_congr opts es hentry]

theorem jnorm_canon (opts : CanonOpts) (v : GlyphValue) :
    write_canon_value opts (jnorm v) = write_canon_value opts v :=
  jnorm_canon_size opts (sizeOf v) v le_rfl

theorem dropSign_snd_eq_dropMinus {t : List Nat} (hplus : ∀ u, t ≠ 43 :: u) :
    (dropSign t).2 = dropMinus t := by
  rcases t with _ | ⟨c, r⟩
  · rfl
  · by_cases h45 : c = 45
    · subst h45; rfl
    · by_cases h43 : c = 43
      · exact absurd (by rw [h43]) (hplus r)
      · unfold dropSign dropMinus
        split
        · rename_i heq; injection heq with h1 _; exact absurd h1 h45
        · rename_i heq; injection heq with h1 _; exact absurd h1 h43
        · split
          · rename_i heq; injection heq with h1 _; exact absurd h1 h45
          · rfl

theorem parse_number_sound {t : List Nat} (ht : t.dropWhile (fun c => isspaceB c) = t)
    (hplus : ∀ u, t ≠ 43 :: u) {v : GlyphValue} {r : List Nat}
    (h : parse_number t = some (v, r)) : numSpan t = some r := by
  have hsign : (dropSign t).2 = dropMinus t := dropSign_snd_eq_dropMinus hplus
  simp only [parse_number, ht] at h
  cases hll : strtollP t with
  | none => rw [hll] at h; simp at h
  | some p =>
    obtain ⟨n, rest⟩ := p
    rw [hll] at h
    simp only at h
    simp only [strtollP, ht, hsign] at hll
    simp only [numSpan]
    split at hll
    · simp at hll
    · rename_i hne
      injection hll with hll2
      injection hll2 with hn hrest
      rw [if_neg (by simpa using hne)]
      rw [hrest]
      cases rest with
      | nil =>
        simp only at h
        injection h with h2
        injection h2 with _ hr
        rw [← hr]
        simp
      | cons c tl =>
        simp only at h
        by_cases hc : c = 46 ∨ c = 101 ∨ c = 69
        · rw [if_pos hc] at h
          cases hdd : strtodP t with
          | none => rw [hdd] at h; simp at h
          | some q =>
            obtain ⟨cd, rest2⟩ := q
            rw [hdd] at h
            simp only at h
            injection h with h2
            injection h2 with _ hr
            simp only [strtodP, ht, hsign, hrest] at hdd
            rcases hc with hc | hc | hc <;> subst hc <;>
              simp only [List.head?_cons, List.tail_cons, Option.some.injEq,
                Option.getD_some, Option.getD_none, Nat.reduceEqDiff, reduceIte,
                List.isEmpty_nil, and_true, true_or, or_true, false_or, or_false,
                if_true, if_false] at hdd ⊢
            · rw [if_neg (fun hconj => hne hconj.1)] at hdd
              cases hs3 : List.drop (List.takeWhile (fun c => isdigitB c) tl).length tl with
              | nil =>
                rw [hs3] at hdd
                simp only at hdd ⊢
                injection hdd with hdd2
                injection hdd2 with _ hr2
                rw [← hr, ← hr2]
              | cons e rr =>
                rw [hs3] at hdd
                simp only at hdd ⊢
                injection hdd with hdd2
                injection hdd2 with _ hr2
                by_cases hee : e = 101 ∨ e = 69
                · simp only [if_pos hee] at hr2 ⊢
                  by_cases heds : (List.takeWhile (fun c => isdigitB c) (dropSign rr).2).isEmpty = true
                  · simp only [if_pos heds] at hr2 ⊢
                    rw [← hr, ← hr2]
                  · simp only [if_neg heds] at hr2 ⊢
                    rw [← hr, ← hr2]
                · simp only [if_neg hee] at hr2 ⊢
                  rw [← hr, ← hr2]
            · rw [if_neg hne] at hdd
              injection hdd with hdd2
              injection hdd2 with _ hr2
              by_cases heds : (List.takeWhile (fun c => isdigitB c) (dropSign tl).2).isEmpty = true
              · simp only [if_pos heds] at hr2 ⊢
                rw [← hr, ← hr2]
              · simp only [if_neg heds] at hr2 ⊢
                rw [← hr, ← hr2]
            · rw [if_neg hne] at hdd
              injection hdd with hdd2
              injection hdd2 with _ hr2
              by_cases heds : (List.takeWhile (fun c => isdigitB c) (dropSign tl).2).isEmpty = true
              · simp only [if_pos heds] at hr2 ⊢
                rw [← hr, ← hr2]
              · simp only [if_neg heds] at hr2 ⊢
                rw [← hr, ← hr2]
        · rw [if_neg hc] at h
          injection h with h2
          injection h2 with _ hr
          simp only [List.head?_cons, Option.some.injEq]
          rw [if_neg (fun hh => hc (Or.inl hh))]
          simp only
          rw [if_neg (fun hh => hc (Or.inr hh)), hr]


/-! ## Order lemmas for `strcmp` -/

theorem lexLt_irrefl (a : List Nat) : lexLt a a = false := by
  induction a with
  | nil => rfl
  | cons c cs ih => simp [lexLt, ih]

theorem lexLt_asymm : ∀ {a b : List Nat}, lexLt a b = true → lexLt b a = false := by
  intro a
  induction a with
  | nil =>
    intro b h
    cases b with
    | nil => simp [lexLt] at h
    | cons d ds => simp [lexLt]
  | cons c cs ih =>
    intro b h
    cases b with
    | nil => simp [lexLt] at h
    | cons d ds =>
      simp only [lexLt] at h ⊢
      rcases Nat.lt_trichotomy c d with hlt | heq | hgt
      · have hn : ¬ d < c := Nat.lt_asymm hlt
        simp [hn, hlt]
      · subst heq
        simp only [Nat.lt_irrefl, if_false] at h ⊢
        exact ih h
      · simp [Nat.lt_asymm hgt, hgt] at h

theorem lexLt_antisymm : ∀ {a b : List Nat},
    lexLt a b = false → lexLt b a = false → a = b := by
  intro a
  induction a with
  | nil =>
    intro b h1 _
    cases b with
    | nil => rfl
    | cons d ds => simp [lexLt] at h1
  | cons c cs ih =>
    intro b h1 h2
    cases b with
    | nil => simp [lexLt] at h2
    | cons d ds =>
      simp only [lexLt] at h1 h2
      rcases Nat.lt_trichotomy c d with hlt | heq | hgt
      · simp [hlt] at h1
      · subst heq
        simp only [Nat.lt_irrefl, if_false] at h1 h2
        rw [ih h1 h2]
      · simp [hgt] at h2

theorem lexLt_nlt_trans : ∀ {a b c : List Nat},
    lexLt b a = false → lexLt c b = false → lexLt c a = false := by
  intro a
  induction a with
  | nil =>
    intro b c _ _
    cases c with
    | nil => rfl
    | cons z zs => rfl
  | cons x xs ih =>
    intro b c h1 h2
    cases b with
    | nil => simp [lexLt] at h1
    | cons y ys =>
      cases c with
      | nil => simp [lexLt] at h2
      | cons z zs =>
        simp only [lexLt] at h1 h2 ⊢
        by_cases hyx : y < x
        · simp [hyx] at h1
        · by_cases hzy : z < y
          · simp [hzy] at h2
          · simp only [hyx, if_false] at h1
            simp only [hzy, if_false] at h2
            have hzx : ¬ z < x := by omega
            simp only [hzx, if_false]
            by_cases hxz : x < z
            · simp [hxz]
            · simp only [hxz, if_false]
              have hxy : ¬ x < y := by omega
              have hyz : ¬ y < z := by omega
              simp only [hxy, if_false] at h1
              simp only [hyz, if_false] at h2
              exact ih h1 h2

instance : IsTotal (List Nat × List Nat) entLe where
  total a b := by
    unfold entLe
    rcases hb : lexLt b.1 a.1 with _ | _
    · exact Or.inl rfl
    · exact Or.inr (lexLt_asymm hb)

instance : IsTrans (List Nat × List Nat) entLe where
  trans _ _ _ h1 h2 := lexLt_nlt_trans h1 h2

/-- Two sorted permutations of an entry list with pairwise-distinct keys
coincide: the key sort of `write_canon_map` has a unique result. -/
theorem sorted_perm_unique :
    ∀ {l₁ l₂ : List (List Nat × List Nat)}, l₁.Perm l₂ →
      l₁.Sorted entLe → l₂.Sorted entLe → (l₁.map Prod.fst).Nodup → l₁ = l₂ := by
  intro l₁
  induction l₁ with
  | nil =>
    intro l₂ hperm _ _ _
    exact hperm.nil_eq
  | cons a t ih =>
    intro l₂ hperm hs1 hs2 hnd
    cases l₂ with
    | nil => exact absurd hperm.eq_nil (by simp)
    | cons b t₂ =>
      have hab : a = b := by
        by_contra hne
        have ha2 : a ∈ t₂ := by
          have hm := hperm.subset (List.mem_cons_self a t)
          rcases List.mem_cons.mp hm with h | h
          · exact absurd h hne
          · exact h
        have hb1 : b ∈ t := by
          have hm := hperm.symm.subset (List.mem_cons_self b t₂)
          rcases List.mem_cons.mp hm with h | h
          · exact absurd h.symm hne
          · exact h
        have hba : entLe b a := (List.sorted_cons.mp hs2).1 a ha2
        have hab' : entLe a b := (List.sorted_cons.mp hs1).1 b hb1
        have hkey : a.1 = b.1 := lexLt_antisymm hba hab'
        have hmem : a.1 ∈ t.map Prod.fst :=
          hkey ▸ List.mem_map_of_mem Prod.fst hb1
        exact absurd hmem (List.nodup_cons.mp hnd).1
      subst hab
      have := ih hperm.cons_inv (List.sorted_cons.mp hs1).2
        (List.sorted_cons.mp hs2).2 (List.nodup_cons.mp hnd).2
      rw [this]

theorem renderEntries_eq_map (opts : CanonOpts) (es : List (List Nat × GlyphValue)) :
    renderEntries opts es = es.map (fun e => (e.1, write_canon_value opts e.2)) := by
  induction es with
  | nil => rfl
  | cons e rest ih =>
    cases e
    simp [renderEntries, ih]

/-- A permutation of an entry list with pairwise-distinct keys renders to the
same sorted map body. -/
theorem write_canon_map_perm (opts : CanonOpts)
    {es es' : List (List Nat × GlyphValue)} (hperm : es.Perm es')
    (hnd : (es.map Prod.fst).Nodup) :
    write_canon_map (renderEntries opts es) = write_canon_map (renderEntries opts es') := by
  have hpermR : (renderEntries opts es).Perm (renderEntries opts es') := by
    rw [renderEntries_eq_map, renderEntries_eq_map]
    exact hperm.map _
  have hndR : ((renderEntries opts es).map Prod.fst).Nodup := by
    rw [renderEntries_eq_map, List.map_map]
    exact hnd
  suffices hs : (renderEntries opts es).insertionSort entLe =
      (renderEntries opts es').insertionSort entLe by
    simp only [write_canon_map, hs]
  apply sorted_perm_unique
  · exact (List.perm_insertionSort entLe _).trans
      (hpermR.trans (List.perm_insertionSort entLe _).symm)
  · exact List.sorted_insertionSort entLe _
  · exact List.sorted_insertionSort entLe _
  · exact (((List.perm_insertionSort entLe
      (renderEntries opts es)).map Prod.fst).nodup_iff).mpr hndR

theorem suffix_app {l y : List Nat} (x : List Nat) (h : l.IsSuffix y) :
    l.IsSuffix (x ++ y) :=
  h.trans (List.suffix_append x y)

/-! ## Parser lemmas -/

theorem skipWs_ws_append {ws : List Nat} (s : List Nat)
    (h : ws.all (fun c => isspaceB c) = true) :
    skipWs (ws ++ s) = skipWs s := by
  induction ws with
  | nil => rfl
  | cons c cs ih =>
    rw [List.all_cons, Bool.and_eq_true] at h
    simp only [List.cons_append, skipWs, h.1, if_true]
    exact ih h.2

theorem skipWs_cons_not_ws {s : List Nat} {c : Nat} {r : List Nat}
    (h : skipWs s = c :: r) : isspaceB c = false := by
  induction s with
  | nil => simp [skipWs] at h
  | cons a t ih =>
    by_cases ha : isspaceB a = true
    · rw [skipWs, if_pos ha] at h
      exact ih h
    · rw [skipWs, if_neg ha] at h
      cases h
      exact Bool.eq_false_iff.mpr ha

theorem skipWs_idem (s : List Nat) : skipWs (skipWs s) = skipWs s := by
  cases hs : skipWs s with
  | nil => rfl
  | cons c r =>
    rw [skipWs, skipWs_cons_not_ws hs]
    simp

theorem dropWhile_isspace_eq_skipWs (s : List Nat) :
    s.dropWhile (fun c => isspaceB c) = skipWs s := by
  induction s with
  | nil => rfl
  | cons c t ih =>
    by_cases hc : isspaceB c = true
    · rw [List.dropWhile_cons_of_pos (by simpa using hc), skipWs, if_pos hc]
      exact ih
    · rw [List.dropWhile_cons_of_neg (by simpa using hc), skipWs, if_neg hc]

theorem matchTok_some {s tok r : List Nat} (h : matchTok s tok = some r) :
    skipWs s = tok ++ r := by
  unfold matchTok at h
  by_cases hp : tok.isPrefixOf (skipWs s)
  · rw [if_pos hp] at h
    obtain ⟨t, ht⟩ := List.isPrefixOf_iff_prefix.mp hp
    cases h
    rw [← ht, List.drop_left]
  · rw [if_neg hp] at h
    exact absurd h (by simp)

theorem nextChar_34 {s : List Nat} {c : Nat} (hc : c ≠ 0)
    (h : (nextChar s).1 = c) : skipWs s = c :: (nextChar s).2 := by
  unfold nextChar at h ⊢
  cases hs : skipWs s with
  | nil =>
    rw [hs] at h
    simp only at h
    exact absurd h.symm hc
  | cons a r =>
    rw [hs] at h
    simp only at h
    rw [h]

theorem parse_string_loop_nil (fuel : Nat) (acc : List Nat) :
    parse_string_loop fuel [] acc = none := by
  cases fuel <;> rfl

theorem lstrSpan_of_loop : ∀ (fuel : Nat) (s acc str r : List Nat),
    parse_string_loop fuel s acc = some (str, r) → lstrSpan fuel s = some r := by
  intro fuel
  induction fuel with
  | zero => intro s acc str r h; exact absurd h (by simp [parse_string_loop])
  | succ fuel ih =>
    intro s acc str r h
    match s with
    | [] => exact absurd h (by simp [parse_string_loop])
    | c :: rest =>
      rw [parse_string_loop.eq_def] at h
      rw [lstrSpan.eq_def]
      simp only at h ⊢
      by_cases h34 : c = 34
      · rw [if_pos h34] at h ⊢
        cases h
        rfl
      · rw [if_neg h34] at h ⊢
        by_cases h92 : c = 92
        · rw [if_pos h92] at h ⊢
          match rest with
          | [] =>
            simp only at h
            rw [parse_string_loop_nil] at h
            exact absurd h (by simp)
          | e :: rest2 =>
            simp only at h ⊢
            by_cases hn : e = 110
            · rw [if_pos hn] at h
              rw [if_neg (by omega : e ≠ 117)]
              exact ih _ _ _ _ h
            · rw [if_neg hn] at h
              by_cases hr : e = 114
              · rw [if_pos hr] at h
                rw [if_neg (by omega : e ≠ 117)]
                exact ih _ _ _ _ h
              · rw [if_neg hr] at h
                by_cases ht : e = 116
                · rw [if_pos ht] at h
                  rw [if_neg (by omega : e ≠ 117)]
                  exact ih _ _ _ _ h
                · rw [if_neg ht] at h
                  by_cases hb : e = 92
                  · rw [if_pos hb] at h
                    rw [if_neg (by omega : e ≠ 117)]
                    exact ih _ _ _ _ h
                  · rw [if_neg hb] at h
                    by_cases hq : e = 34
                    · rw [if_pos hq] at h
                      rw [if_neg (by omega : e ≠ 117)]
                      exact ih _ _ _ _ h
                    · rw [if_neg hq] at h
                      by_cases hu : e = 117
                      · rw [if_pos hu] at h ⊢
                        by_cases hlen : 4 ≤ rest2.length
                        · rw [if_pos hlen] at h ⊢
                          exact ih _ _ _ _ h
                        · rw [if_neg hlen] at h ⊢
                          exact ih _ _ _ _ h
                      · rw [if_neg hu] at h ⊢
                        exact ih _ _ _ _ h
        · rw [if_neg h92] at h ⊢
          exact ih _ _ _ _ h

theorem peekChar_eq_nextChar_fst (s : List Nat) : peekChar s = (nextChar s).1 := by
  unfold peekChar nextChar
  cases skipWs s <;> rfl

theorem peek_shape {s : List Nat} {c : Nat} (hc : c ≠ 0) (h : peekChar s = c) :
    skipWs s = c :: (nextChar s).2 :=
  nextChar_34 hc ((peekChar_eq_nextChar_fst s) ▸ h)

theorem dropWhile_skipWs (s : List Nat) :
    (skipWs s).dropWhile (fun c => isspaceB c) = skipWs s := by
  rw [dropWhile_isspace_eq_skipWs, skipWs_idem]

theorem parse_string_sound {s str r : List Nat}
    (h : parse_string s = some (str, r)) :
    ∃ b, skipWs s = 34 :: b ∧ lstrSpan (b.length + 1) b = some r := by
  simp only [parse_string] at h
  by_cases h34 : (nextChar s).1 = 34
  · rw [if_pos h34] at h
    exact ⟨(nextChar s).2, nextChar_34 (by decide) h34,
      lstrSpan_of_loop _ _ _ _ _ h⟩
  · rw [if_neg h34] at h
    exact absurd h (by simp)

theorem parse_soundness : ∀ fuel : Nat,
    (∀ s v r, parse_valueF fuel s = some (v, r) → LJValue s r) ∧
    (∀ s v r, parse_arrayF fuel s = some (v, r) →
      ∃ m, skipWs s = 91 :: m ∧ LJArrTail m r) ∧
    (∀ s acc v r, parse_array_loopF fuel s acc = some (v, r) → LJItems s r) ∧
    (∀ s v r, parse_objectF fuel s = some (v, r) →
      ∃ m, skipWs s = 123 :: m ∧ LJObjTail m r) ∧
    (∀ s acc v r, parse_object_loopF fuel s acc = some (v, r) → LJMembers s r) := by
  intro fuel
  induction fuel with
  | zero =>
    refine ⟨fun s v r h => ?_, fun s v r h => ?_, fun s acc v r h => ?_,
      fun s v r h => ?_, fun s acc v r h => ?_⟩ <;>
      exact absurd h (by simp [parse_valueF, parse_arrayF, parse_array_loopF,
        parse_objectF, parse_object_loopF])
  | succ fuel ih =>
    obtain ⟨ihv, iha, ihal, iho, ihol⟩ := ih
    refine ⟨?_, ?_, ?_, ?_, ?_⟩
    · -- parse_valueF
      intro s v r h
      rw [parse_valueF] at h
      by_cases h110 : peekChar s = 110
      · rw [if_pos h110] at h
        cases hm : matchTok (skipWs s) (ascii "null") with
        | none => rw [hm] at h; simp at h
        | some rr =>
          rw [hm] at h
          simp only at h
          injection h with h2
          injection h2 with _ hr
          exact LJValue.jnull s r (by rw [← skipWs_idem s, matchTok_some hm, hr])
      · rw [if_neg h110] at h
        by_cases h116 : peekChar s = 116
        · rw [if_pos h116] at h
          cases hm : matchTok (skipWs s) (ascii "true") with
          | none => rw [hm] at h; simp at h
          | some rr =>
            rw [hm] at h
            simp only at h
            injection h with h2
            injection h2 with _ hr
            exact LJValue.jtrue s r (by rw [← skipWs_idem s, matchTok_some hm, hr])
        · rw [if_neg h116] at h
          by_cases h102 : peekChar s = 102
          · rw [if_pos h102] at h
            cases hm : matchTok (skipWs s) (ascii "false") with
            | none => rw [hm] at h; simp at h
            | some rr =>
              rw [hm] at h
              simp only at h
              injection h with h2
              injection h2 with _ hr
              exact LJValue.jfalse s r
                (by rw [← skipWs_idem s, matchTok_some hm, hr])
          · rw [if_neg h102] at h
            by_cases h34 : peekChar s = 34
            · rw [if_pos h34] at h
              cases hps : parse_string (skipWs s) with
              | none => rw [hps] at h; simp at h
              | some p =>
                obtain ⟨str, rr⟩ := p
                rw [hps] at h
                simp only at h
                injection h with h2
                injection h2 with _ hr
                obtain ⟨b, hb1, hb2⟩ := parse_string_sound hps
                rw [skipWs_idem] at hb1
                exact LJValue.jstr s b r hb1 (hr ▸ hb2)
            · rw [if_neg h34] at h
              by_cases h91 : peekChar s = 91
              · rw [if_pos h91] at h
                obtain ⟨m, hm1, hm2⟩ := iha _ _ _ h
                rw [skipWs_idem] at hm1
                exact LJValue.jarr s m r hm1 hm2
              · rw [if_neg h91] at h
                by_cases h123 : peekChar s = 123
                · rw [if_pos h123] at h
                  obtain ⟨m, hm1, hm2⟩ := iho _ _ _ h
                  rw [skipWs_idem] at hm1
                  exact LJValue.jobj s m r hm1 hm2
                · rw [if_neg h123] at h
                  by_cases hnum : peekChar s = 45 ∨ isdigitB (peekChar s) = true
                  · rw [if_pos hnum] at h
                    have hplus : ∀ u, skipWs s ≠ 43 :: u := by
                      intro u hu
                      have : peekChar s = 43 := by
                        unfold peekChar
                        rw [hu]
                      rcases hnum with h45 | hdig
                      · rw [this] at h45
                        exact absurd h45 (by decide)
                      · rw [this] at hdig
                        exact absurd hdig (by decide)
                    exact LJValue.jnum s r hnum
                      (parse_number_sound (dropWhile_skipWs s) hplus h)
                  · rw [if_neg hnum] at h
                    simp at h
    · -- parse_arrayF
      intro s v r h
      rw [parse_arrayF] at h
      by_cases h91 : (nextChar s).1 = 91
      · rw [if_pos h91] at h
        have hsk : skipWs s = 91 :: (nextChar s).2 := nextChar_34 (by decide) h91
        by_cases hempty : peekChar (nextChar s).2 = 93
        · rw [if_pos hempty] at h
          injection h with h2
          injection h2 with _ hr
          exact ⟨(nextChar s).2, hsk, LJArrTail.empty _ _
            (by rw [peek_shape (by decide) hempty, hr])⟩
        · rw [if_neg hempty] at h
          exact ⟨(nextChar s).2, hsk, LJArrTail.items _ _ (ihal _ _ _ _ h)⟩
      · rw [if_neg h91] at h
        simp at h
    · -- parse_array_loopF
      intro s acc v r h
      rw [parse_array_loopF] at h
      cases hv : parse_valueF fuel s with
      | none => rw [hv] at h; simp at h
      | some p =>
        obtain ⟨item, r1⟩ := p
        rw [hv] at h
        simp only at h
        have hval := ihv _ _ _ hv
        by_cases h93 : peekChar r1 = 93
        · rw [if_pos h93] at h
          injection h with h2
          injection h2 with _ hr
          exact LJItems.last _ _ _ hval
            (by rw [peek_shape (by decide) h93, hr])
        · rw [if_neg h93] at h
          by_cases h44 : peekChar r1 = 44
          · rw [if_pos h44] at h
            exact LJItems.more _ _ _ _ hval (peek_shape (by decide) h44)
              (ihal _ _ _ _ h)
          · rw [if_neg h44] at h
            simp at h
    · -- parse_objectF
      intro s v r h
      rw [parse_objectF] at h
      by_cases h123 : (nextChar s).1 = 123
      · rw [if_pos h123] at h
        have hsk : skipWs s = 123 :: (nextChar s).2 := nextChar_34 (by decide) h123
        by_cases hempty : peekChar (nextChar s).2 = 125
        · rw [if_pos hempty] at h
          injection h with h2
          injection h2 with _ hr
          exact ⟨(nextChar s).2, hsk, LJObjTail.empty _ _
            (by rw [peek_shape (by decide) hempty, hr])⟩
        · rw [if_neg hempty] at h
          exact ⟨(nextChar s).2, hsk, LJObjTail.members _ _ (ihol _ _ _ _ h)⟩
      · rw [if_neg h123] at h
        simp at h
    · -- parse_object_loopF
      intro s acc v r h
      rw [parse_object_loopF] at h
      by_cases h34 : peekChar s = 34
      · rw [if_pos h34] at h
        cases hps : parse_string (skipWs s) with
        | none => rw [hps] at h; simp at h
        | some p =>
          obtain ⟨key, r1⟩ := p
          rw [hps] at h
          simp only at h
          obtain ⟨b, hb1, hb2⟩ := parse_string_sound hps
          rw [skipWs_idem] at hb1
          by_cases h58 : (nextChar r1).1 = 58
          · rw [if_pos h58] at h
            have hcolon : skipWs r1 = 58 :: (nextChar r1).2 :=
              nextChar_34 (by decide) h58
            cases hv : parse_valueF fuel (nextChar r1).2 with
            | none => rw [hv] at h; simp at h
            | some q =>
              obtain ⟨value, r2⟩ := q
              rw [hv] at h
              simp only at h
              have hval := ihv _ _ _ hv
              by_cases h125 : peekChar r2 = 125
              · rw [if_pos h125] at h
                injection h with h2
                injection h2 with _ hr
                exact LJMembers.last _ _ _ _ _ _ hb1 hb2 hcolon hval
                  (by rw [peek_shape (by decide) h125, hr])
              · rw [if_neg h125] at h
                by_cases h44 : peekChar r2 = 44
                · rw [if_pos h44] at h
                  exact LJMembers.more _ _ _ _ _ _ _ hb1 hb2 hcolon hval
                    (peek_shape (by decide) h44) (ihol _ _ _ _ h)
                · rw [if_neg h44] at h
                  simp at h
          · rw [if_neg h58] at h
            simp at h
      · rw [if_neg h34] at h
        simp at h


/-- Unfolding of `check_homogeneous` past the row-count test and the key
collection. -/
theorem check_homogeneous_cont (items : List GlyphValue) (opts : CanonOpts)
    (u : List (List Nat)) (h1 : ¬ items.length < opts.min_rows)
    (hcoll : collectAllKeys items = some u) :
    check_homogeneous items opts =
      if u.length = 0 ∨ opts.max_cols < u.length then none
      else if u.countP (fun k => items.all (fun it => hasKey it k)) * 2 <
          u.length then none
      else some (u.insertionSort lexLe) := by
  rw [check_homogeneous, if_neg h1, hcoll]

/-! ## Claim theorems -/

/-! ### Parsing the JSON writer's output: strings -/

theorem skipWs_not_ws {c : Nat} (r : List Nat) (h : isspaceB c = false) :
    skipWs (c :: r) = c :: r := by
  rw [skipWs, if_neg (by simp [h])]

theorem matchTok_prefix (s tok r : List Nat) (h : skipWs s = tok ++ r) :
    matchTok s tok = some r := by
  unfold matchTok
  rw [h, if_pos (List.isPrefixOf_iff_prefix.mpr ⟨r, rfl⟩), List.drop_left]

theorem hexDigitVal_hexDigit {m : Nat} (hm : m < 16) :
    hexDigitVal (hexDigit m) = some m := by
  unfold hexDigit hexDigitVal
  by_cases h : m < 10
  · rw [if_pos h, if_pos (by omega)]
    congr 1
    omega
  · rw [if_neg h, if_neg (by omega), if_pos (by omega)]
    congr 1
    omega

theorem strtoulHex_code {c : Nat} (hc : c < 32) :
    strtoulHex [48, 48, hexDigit (c / 16), hexDigit (c % 16)] % 2 ^ 32 = c := by
  have h1 := hexDigitVal_hexDigit (by omega : c / 16 < 16)
  have h2 := hexDigitVal_hexDigit (by omega : c % 16 < 16)
  have h48 : hexDigitVal 48 = some 0 := rfl
  have hhex : hexPrefixVal [48, 48, hexDigit (c / 16), hexDigit (c % 16)] 0 = c := by
    unfold hexPrefixVal
    rw [h48]
    unfold hexPrefixVal
    rw [h48]
    unfold hexPrefixVal
    rw [h1]
    unfold hexPrefixVal
    rw [h2]
    unfold hexPrefixVal
    omega
  unfold strtoulHex
  have hdw : ([48, 48, hexDigit (c / 16), hexDigit (c % 16)] :
      List Nat).dropWhile (fun c => isspaceB c) =
      [48, 48, hexDigit (c / 16), hexDigit (c % 16)] := by
    rw [List.dropWhile_cons_of_neg (by simp [isspaceB])]
  rw [hdw]
  simp only
  rw [if_neg (by simp : ¬ (false = true))]
  rw [hhex]
  omega

theorem utf8Enc_low {c : Nat} (hc : c < 128) : utf8Enc c = [c] := by
  unfold utf8Enc
  rw [if_pos (by omega)]

theorem parse_string_loop_quoted : ∀ (s acc rest : List Nat) (fuel : Nat),
    ((s.map quoteChar).flatten).length < fuel →
    parse_string_loop fuel ((s.map quoteChar).flatten ++ 34 :: rest) acc =
      some (acc.reverse ++ s, rest) := by
  intro s
  induction s with
  | nil =>
    intro acc rest fuel hf
    simp only [List.map_nil, List.flatten_nil, List.length_nil] at hf
    match fuel with
    | fuel + 1 =>
      rw [parse_string_loop.eq_def]
      simp only [List.map_nil, List.flatten_nil, List.nil_append, Nat.reduceEqDiff,
        reduceIte]
      simp
  | cons c t ih =>
    intro acc rest fuel hf
    have hflat : ((c :: t).map quoteChar).flatten =
        quoteChar c ++ (t.map quoteChar).flatten := by simp
    rw [hflat] at hf ⊢
    by_cases h92 : c = 92
    · subst h92
      have hq : quoteChar 92 = [92, 92] := rfl
      rw [hq] at hf ⊢
      simp only [List.length_append, List.length_cons, List.length_nil] at hf
      match fuel with
      | fuel + 1 =>
        simp only [List.cons_append, List.nil_append]
        rw [parse_string_loop.eq_def]
        simp only [Nat.reduceEqDiff, reduceIte]
        rw [ih (92 :: acc) rest fuel (by omega)]
        simp
    · by_cases h34 : c = 34
      · subst h34
        have hq : quoteChar 34 = [92, 34] := rfl
        rw [hq] at hf ⊢
        simp only [List.length_append, List.length_cons, List.length_nil] at hf
        match fuel with
        | fuel + 1 =>
          simp only [List.cons_append, List.nil_append]
          rw [parse_string_loop.eq_def]
          simp only [Nat.reduceEqDiff, reduceIte]
          rw [ih (34 :: acc) rest fuel (by omega)]
          simp
      · by_cases h10 : c = 10
        · subst h10
          have hq : quoteChar 10 = [92, 110] := rfl
          rw [hq] at hf ⊢
          simp only [List.length_append, List.length_cons, List.length_nil] at hf
          match fuel with
          | fuel + 1 =>
            simp only [List.cons_append, List.nil_append]
            rw [parse_string_loop.eq_def]
            simp only [Nat.reduceEqDiff, reduceIte]
            rw [ih (10 :: acc) rest fuel (by omega)]
            simp
        · by_cases h13 : c = 13
          · subst h13
            have hq : quoteChar 13 = [92, 114] := rfl
            rw [hq] at hf ⊢
            simp only [List.length_append, List.length_cons, List.length_nil] at hf
            match fuel with
            | fuel + 1 =>
              simp only [List.cons_append, List.nil_append]
              rw [parse_string_loop.eq_def]
              simp only [Nat.reduceEqDiff, reduceIte]
              rw [ih (13 :: acc) rest fuel (by omega)]
              simp
          · by_cases h9 : c = 9
            · subst h9
              have hq : quoteChar 9 = [92, 116] := rfl
              rw [hq] at hf ⊢
              simp only [List.length_append, List.length_cons, List.length_nil] at hf
              match fuel with
              | fuel + 1 =>
                simp only [List.cons_append, List.nil_append]
                rw [parse_string_loop.eq_def]
                simp only [Nat.reduceEqDiff, reduceIte]
                rw [ih (9 :: acc) rest fuel (by omega)]
                simp
            · by_cases h32 : c < 32
              · have hq : quoteChar c =
                    [92, 117, 48, 48, hexDigit (c / 16), hexDigit (c % 16)] := by
                  unfold quoteChar
                  rw [if_neg h92, if_neg h34, if_neg h10, if_neg h13, if_neg h9,
                    if_pos h32]
                rw [hq] at hf ⊢
                simp only [List.length_append, List.length_cons, List.length_nil] at hf
                match fuel with
                | fuel + 1 =>
                  simp only [List.cons_append, List.nil_append]
                  rw [parse_string_loop.eq_def]
                  simp only [Nat.reduceEqDiff, reduceIte]
                  rw [if_pos (by
                    simp only [List.length_cons, List.length_append]
                    omega)]
                  have htake : (48 :: 48 :: hexDigit (c / 16) :: hexDigit (c % 16) ::
                      ((t.map quoteChar).flatten ++ 34 :: rest)).take 4 =
                      [48, 48, hexDigit (c / 16), hexDigit (c % 16)] := by
                    simp
                  have hdrop : (48 :: 48 :: hexDigit (c / 16) :: hexDigit (c % 16) ::
                      ((t.map quoteChar).flatten ++ 34 :: rest)).drop 4 =
                      (t.map quoteChar).flatten ++ 34 :: rest := by
                    simp
                  rw [htake, hdrop, strtoulHex_code h32, utf8Enc_low (by omega)]
                  have hacc : ([c].reverse ++ acc) = c :: acc := by simp
                  rw [hacc, ih (c :: acc) rest fuel (by omega)]
                  simp
              · have hq : quoteChar c = [c] := by
                  unfold quoteChar
                  rw [if_neg h92, if_neg h34, if_neg h10, if_neg h13, if_neg h9,
                    if_neg h32]
                rw [hq] at hf ⊢
                simp only [List.length_append, List.length_cons, List.length_nil] at hf
                match fuel with
                | fuel + 1 =>
                  simp only [List.cons_append, List.nil_append]
                  rw [parse_string_loop.eq_def]
                  simp only [Nat.reduceEqDiff, reduceIte]
                  rw [if_neg h34, if_neg h92]
                  rw [ih (c :: acc) rest fuel (by omega)]
                  simp

theorem parse_string_quoted (s rest : List Nat) :
    parse_string (write_json_string s ++ rest) = some (s, rest) := by
  have hshape : write_json_string s ++ rest =
      34 :: ((s.map quoteChar).flatten ++ 34 :: rest) := by
    simp [write_json_string]
  rw [hshape]
  unfold parse_string nextChar
  rw [skipWs_not_ws _ (by simp [isspaceB])]
  simp only [reduceIte]
  rw [parse_string_loop_quoted s [] rest _ (by
    simp only [List.length_append, List.length_cons]
    omega)]
  simp

/-! ### Parsing the JSON writer's output: numbers -/

theorem isdigitB_true {c : Nat} (h : 48 ≤ c ∧ c ≤ 57) : isdigitB c = true := by
  simp only [isdigitB, decide_eq_true_eq]
  exact h

theorem takeWhile_append_all {p : Nat → Bool} : ∀ (l r : List Nat),
    (∀ c ∈ l, p c = true) → (l ++ r).takeWhile p = l ++ r.takeWhile p := by
  intro l r h
  induction l with
  | nil => simp
  | cons c t ih =>
    rw [List.cons_append, List.takeWhile_cons_of_pos (h c (by simp)),
      ih (fun c hc => h c (by simp [hc]))]
    rfl

theorem takeWhile_digits_stop {rest : List Nat} (h : jsonStop rest = true) :
    rest.takeWhile (fun c => isdigitB c) = [] := by
  cases rest with
  | nil => rfl
  | cons c t =>
    simp only [jsonStop, decide_eq_true_eq] at h
    rw [List.takeWhile_cons_of_neg]
    simp only [isdigitB, decide_eq_true_eq]
    rcases h with h | h | h <;> omega

theorem jsonStop_head {rest : List Nat} (h : jsonStop rest = true) :
    ∀ c t, rest = c :: t → c = 44 ∨ c = 93 ∨ c = 125 := by
  intro c t hct
  subst hct
  simpa [jsonStop] using h

theorem dropSign_no_sign {c : Nat} {r : List Nat} (h45 : c ≠ 45) (h43 : c ≠ 43) :
    dropSign (c :: r) = (false, c :: r) := by
  unfold dropSign
  split
  · rename_i heq
    injection heq with h1 _
    exact absurd h1 h45
  · rename_i heq
    injection heq with h1 _
    exact absurd h1 h43
  · rfl

theorem natDecimal_digits_true (n : Nat) :
    ∀ c ∈ natDecimal n, isdigitB c = true :=
  fun c hc => isdigitB_true (natDecimal_all_digits n c hc)

theorem strtollP_digits {l rest : List Nat} (hne : l ≠ [])
    (hdig : ∀ c ∈ l, isdigitB c = true)
    (hstop : rest.takeWhile (fun c => isdigitB c) = [])
    (hval : digitsVal l < 2 ^ 63) :
    strtollP (l ++ rest) = some ((digitsVal l : Int), rest) := by
  obtain ⟨c, t, hct⟩ : ∃ c t, l = c :: t := by
    cases l with
    | nil => exact absurd rfl hne
    | cons c t => exact ⟨c, t, rfl⟩
  have hc := hdig c (by rw [hct]; simp)
  have hcd : 48 ≤ c ∧ c ≤ 57 := by
    simpa [isdigitB] using hc
  simp only [strtollP]
  have hdw : (l ++ rest).dropWhile (fun c => isspaceB c) = l ++ rest := by
    rw [hct, List.cons_append, List.dropWhile_cons_of_neg]
    simp only [isspaceB, decide_eq_true_eq]
    omega
  rw [hdw]
  have hds : dropSign (l ++ rest) = (false, l ++ rest) := by
    rw [hct, List.cons_append]
    exact dropSign_no_sign (by omega) (by omega)
  rw [hds]
  simp only
  rw [takeWhile_append_all l rest hdig, hstop, List.append_nil]
  rw [if_neg (by simpa [List.isEmpty_iff] using hne)]
  rw [List.drop_left]
  rw [if_neg (by simp : ¬ (false = true))]
  have hc1 : ¬ ((digitsVal l : Int) < -(2 ^ 63)) := by
    have : (0:Int) ≤ (digitsVal l : Int) := by positivity
    omega
  have hc2 : ¬ ((2 ^ 63 - 1 : Int) < (digitsVal l : Int)) := by
    have : (digitsVal l : Int) < 2 ^ 63 := by exact_mod_cast hval
    omega
  rw [if_neg hc1, if_neg hc2]

theorem strtollP_digits_neg {l rest : List Nat} (hne : l ≠ [])
    (hdig : ∀ c ∈ l, isdigitB c = true)
    (hstop : rest.takeWhile (fun c => isdigitB c) = [])
    (hval : digitsVal l ≤ 2 ^ 63) :
    strtollP (45 :: (l ++ rest)) = some (-(digitsVal l : Int), rest) := by
  obtain ⟨c, t, hct⟩ : ∃ c t, l = c :: t := by
    cases l with
    | nil => exact absurd rfl hne
    | cons c t => exact ⟨c, t, rfl⟩
  simp only [strtollP]
  have hdw : (45 :: (l ++ rest)).dropWhile (fun c => isspaceB c) = 45 :: (l ++ rest) := by
    rw [List.dropWhile_cons_of_neg]
    simp [isspaceB]
  rw [hdw]
  have hds : dropSign (45 :: (l ++ rest)) = (true, l ++ rest) := rfl
  rw [hds]
  simp only
  rw [takeWhile_append_all l rest hdig, hstop, List.append_nil]
  rw [if_neg (by simpa [List.isEmpty_iff] using hne)]
  rw [List.drop_left]
  rw [if_pos (trivial : True)]
  have hc1 : ¬ (-(digitsVal l : Int) < -(2 ^ 63)) := by
    have : (digitsVal l : Int) ≤ 2 ^ 63 := by exact_mod_cast hval
    omega
  have hc2 : ¬ ((2 ^ 63 - 1 : Int) < -(digitsVal l : Int)) := by
    have : (0:Int) ≤ (digitsVal l : Int) := by positivity
    omega
  rw [if_neg hc1, if_neg hc2]

theorem parse_number_intRender {n : Int} (hlo : -(2 ^ 63) ≤ n) (hhi : n < 2 ^ 63)
    (rest : List Nat) (hstop : jsonStop rest = true) :
    parse_number (intRender n ++ rest) = some (GlyphValue.vint n, rest) := by
  have hafter : ∀ m : Int, strtollP (intRender n ++ rest) = some (m, rest) →
      parse_number (intRender n ++ rest) = some (GlyphValue.vint m, rest) := by
    intro m hll
    simp only [parse_number]
    have hdw : (intRender n ++ rest).dropWhile (fun c => isspaceB c) =
        intRender n ++ rest := by
      unfold intRender
      by_cases hn : n < 0
      · rw [if_pos hn, List.cons_append, List.dropWhile_cons_of_neg]
        simp [isspaceB]
      · rw [if_neg hn]
        obtain ⟨c, t, hct⟩ : ∃ c t, natDecimal n.toNat = c :: t := by
          cases hnd : natDecimal n.toNat with
          | nil => exact absurd hnd (natDecimal_ne_nil _)
          | cons c t => exact ⟨c, t, rfl⟩
        have hcd := natDecimal_all_digits n.toNat c (by rw [hct]; simp)
        rw [hct, List.cons_append, List.dropWhile_cons_of_neg]
        simp only [isspaceB, decide_eq_true_eq]
        omega
    rw [hdw, hll]
    simp only
    cases hrest : rest with
    | nil => rfl
    | cons c t =>
      have hc := jsonStop_head hstop c t hrest
      simp only
      rw [if_neg (by omega : ¬ (c = 46 ∨ c = 101 ∨ c = 69))]
  by_cases hn : n < 0
  · have hone : 1 ≤ (-n).toNat := by omega
    have hren : intRender n = 45 :: natDecimal (-n).toNat := if_pos hn
    have hdv : digitsVal (natDecimal (-n).toNat) = (-n).toNat :=
      digitsVal_natDecimal _
    refine hafter n ?_
    rw [hren, List.cons_append]
    rw [strtollP_digits_neg (natDecimal_ne_nil _) (natDecimal_digits_true _)
      (takeWhile_digits_stop hstop) (by rw [hdv]; omega)]
    rw [hdv]
    congr 1
    congr 1
    omega
  · have hren : intRender n = natDecimal n.toNat := if_neg hn
    have hdv : digitsVal (natDecimal n.toNat) = n.toNat := digitsVal_natDecimal _
    refine hafter n ?_
    rw [hren]
    rw [strtollP_digits (natDecimal_ne_nil _) (natDecimal_digits_true _)
      (takeWhile_digits_stop hstop) (by rw [hdv]; omega)]
    rw [hdv]
    congr 2
    omega

theorem qpow10_14_pow : qpow10 14 = (10:ℚ) ^ (14:ℕ) := by
  have h : qpow10 14 = ((10 ^ 14 : ℕ) : ℚ) := (natCast_pow_eq_qpow10 14).symm
  rw [h]
  push_cast
  ring

theorem alg_split {D z : Nat} {e : Int} (j : Nat) (tk frac : List Nat)
    (hds : natDecimal D = tk ++ (frac ++ List.replicate z 48))
    (hlen : (natDecimal D).length = 15) (htk : tk.length = j + 1) (_hj : j ≤ 14)
    (hdv : digitsVal (natDecimal D) = D) :
    ((digitsVal tk : ℚ) + (digitsVal frac : ℚ) / (10:ℚ) ^ frac.length) * qpow10 e =
      (D : ℚ) * qpow10 (e - 14 + (j : Int)) := by
  have hlens : (j + 1) + (frac.length + z) = 15 := by
    rw [hds] at hlen
    simp only [List.length_append, List.length_replicate] at hlen
    omega
  have hD : D = digitsVal tk * 10 ^ (frac.length + z) + digitsVal frac * 10 ^ z := by
    rw [← hdv, hds, digitsVal_append, digitsVal_append, digitsVal_replicate_zero]
    simp only [List.length_append, List.length_replicate]
    ring_nf
  have hDq : (D : ℚ) = (digitsVal tk : ℚ) * ((10:ℚ) ^ frac.length * 10 ^ z) +
      (digitsVal frac : ℚ) * 10 ^ z := by
    rw [← pow_add]
    exact_mod_cast congrArg (Nat.cast : ℕ → ℚ) hD
  have hkey : ((digitsVal tk : ℚ) + (digitsVal frac : ℚ) / (10:ℚ) ^ frac.length) *
      ((10:ℚ) ^ frac.length * 10 ^ z) = (D : ℚ) := by
    rw [hDq]
    field_simp
    ring
  have hq : qpow10 (14 - (j : Int)) = (10:ℚ) ^ frac.length * 10 ^ z := by
    have h1 : (14 - (j : Int)) = ((frac.length + z : ℕ) : Int) := by omega
    rw [h1, ← natCast_pow_eq_qpow10]
    push_cast
    rw [pow_add]
  refine mul_right_cancel₀ (qpow10_pos (14 - (j : Int))).ne.symm ?_
  calc ((digitsVal tk : ℚ) + (digitsVal frac : ℚ) / (10:ℚ) ^ frac.length) *
        qpow10 e * qpow10 (14 - (j : Int))
      = ((digitsVal tk : ℚ) + (digitsVal frac : ℚ) / (10:ℚ) ^ frac.length) *
        ((10:ℚ) ^ frac.length * 10 ^ z) * qpow10 e := by rw [← hq]; ring
    _ = (D : ℚ) * qpow10 e := by rw [hkey]
    _ = (D : ℚ) * qpow10 (e - 14 + (j : Int)) * qpow10 (14 - (j : Int)) := by
        rw [mul_assoc, qpow10_mul]
        congr 2
        ring

theorem alg_fix0 {D z u : Nat} (sds : List Nat)
    (hds : natDecimal D = sds ++ List.replicate z 48)
    (hlen : (natDecimal D).length = 15)
    (hdv : digitsVal (natDecimal D) = D) :
    ((digitsVal [48] : ℚ) + (digitsVal (List.replicate u 48 ++ sds) : ℚ) /
      (10:ℚ) ^ (List.replicate u 48 ++ sds).length) * qpow10 0 =
      (D : ℚ) * qpow10 (-((u : Int) + 1) - 14) := by
  have hlens : sds.length + z = 15 := by
    rw [hds] at hlen
    simp only [List.length_append, List.length_replicate] at hlen
    omega
  have hD : D = digitsVal sds * 10 ^ z := by
    rw [← hdv, hds, digitsVal_append, digitsVal_replicate_zero]
    simp [List.length_replicate]
  have hdvf : digitsVal (List.replicate u 48 ++ sds) = digitsVal sds := by
    rw [digitsVal_append, digitsVal_replicate_zero]
    simp
  have hflen : (List.replicate u 48 ++ sds).length = u + sds.length := by
    simp
  have hd48 : digitsVal [48] = 0 := by
    rw [digitsVal_cons]
    simp [digitsVal]
  rw [hd48, hdvf, hflen, qpow10_zero, mul_one]
  have hDq : (D : ℚ) = (digitsVal sds : ℚ) * (10:ℚ) ^ z := by
    exact_mod_cast congrArg (Nat.cast : ℕ → ℚ) hD
  have hq : qpow10 ((u : Int) + 1 + 14 - z) = (10:ℚ) ^ (u + sds.length) := by
    have h1 : ((u : Int) + 1 + 14 - z) = ((u + sds.length : ℕ) : Int) := by omega
    rw [h1, ← natCast_pow_eq_qpow10]
    push_cast
    ring
  refine mul_right_cancel₀ (qpow10_pos ((u : Int) + 1 + 14 - z)).ne.symm ?_
  have hzq : (D : ℚ) * qpow10 (-((u : Int) + 1) - 14) * qpow10 ((u : Int) + 1 + 14 - z) =
      (D : ℚ) * qpow10 (-(z : Int)) := by
    rw [mul_assoc, qpow10_mul]
    congr 2
    ring
  rw [hzq, hq]
  have hlhs : (((0:ℕ):ℚ) + (digitsVal sds : ℚ) / (10:ℚ) ^ (u + sds.length)) *
      (10:ℚ) ^ (u + sds.length) = (digitsVal sds : ℚ) := by
    field_simp
  rw [hlhs, hDq]
  have hinv : qpow10 (-(z : Int)) = ((10:ℚ) ^ z)⁻¹ := by
    rw [qpow10_eq, zpow_neg, zpow_natCast]
  rw [hinv]
  field_simp

theorem sig_facts {a : ℚ} (ha : 0 < a) {D : Nat} {e : Int}
    (hsig : sigDigits15 a = (D, e)) :
    (natDecimal D).length = 15 ∧ digitsVal (natDecimal D) = D ∧
    (∀ c ∈ natDecimal D, 48 ≤ c ∧ c ≤ 57) ∧ 10 ^ 14 ≤ D ∧ D < 10 ^ 15 := by
  have h1 := sigDigits15_len ha
  have h2 := sigDigits15_bounds ha
  rw [hsig] at h1 h2
  exact ⟨h1, digitsVal_natDecimal D, natDecimal_all_digits D, h2.1, h2.2⟩

theorem sig_val_pos {D : Nat} (e : Int) (hD : 10 ^ 14 ≤ D) :
    0 < (D : ℚ) * qpow10 (e - 14) :=
  mul_pos (by exact_mod_cast lt_of_lt_of_le (by norm_num) hD) (qpow10_pos _)

theorem strtodP_fixp {a : ℚ} (ha : 0 < a) (h0 : 0 ≤ (sigDigits15 a).2)
    (h15 : (sigDigits15 a).2 < 15)
    (hfrac : stripZeros ((natDecimal (sigDigits15 a).1).drop
      ((sigDigits15 a).2.toNat + 1)) ≠ [])
    (rest : List Nat) (hstop : jsonStop rest = true) :
    strtodP (fmtG15Pos a ++ rest) =
      some (⟨((sigDigits15 a).1 : ℚ) * qpow10 ((sigDigits15 a).2 - 14), false⟩, rest) := by
  cases hsig : sigDigits15 a with
  | mk D e =>
    rw [hsig] at h0 h15 hfrac
    simp only at h0 h15 hfrac ⊢
    obtain ⟨hlen, hdv, hdig, hDlo, hDhi⟩ := sig_facts ha hsig
    have hbody : fmtG15Pos a = (natDecimal D).take (e.toNat + 1) ++
        (46 :: stripZeros ((natDecimal D).drop (e.toNat + 1))) := by
      simp only [fmtG15Pos]
      rw [hsig]
      simp only
      rw [if_neg (by omega : ¬ (e < -4 ∨ 15 ≤ e)), if_neg (by omega : ¬ e < 0),
        if_neg hfrac]
    rw [hbody]
    obtain ⟨h, t, hht, hh49, hh57⟩ := natDecimal_head (by omega : 1 ≤ D)
    have htk_shape : ∃ t', (natDecimal D).take (e.toNat + 1) = h :: t' := by
      rw [hht, List.take_succ_cons]
      exact ⟨_, rfl⟩
    obtain ⟨t', htk⟩ := htk_shape
    have htkmem : ∀ c ∈ (natDecimal D).take (e.toNat + 1), 48 ≤ c ∧ c ≤ 57 :=
      fun c hc => hdig c (List.mem_of_mem_take hc)
    have htkdig : ∀ c ∈ (natDecimal D).take (e.toNat + 1), isdigitB c = true :=
      fun c hc => isdigitB_true (htkmem c hc)
    obtain ⟨z, hz⟩ := stripZeros_decomp ((natDecimal D).drop (e.toNat + 1))
    have hfmem : ∀ c ∈ stripZeros ((natDecimal D).drop (e.toNat + 1)),
        48 ≤ c ∧ c ≤ 57 := by
      intro c hc
      refine hdig c (List.mem_of_mem_drop (n := e.toNat + 1) ?_)
      rw [hz]
      exact List.mem_append_left _ hc
    have hfdig : ∀ c ∈ stripZeros ((natDecimal D).drop (e.toNat + 1)),
        isdigitB c = true := fun c hc => isdigitB_true (hfmem c hc)
    simp only [strtodP]
    have hassoc : ((natDecimal D).take (e.toNat + 1) ++
        (46 :: stripZeros ((natDecimal D).drop (e.toNat + 1)))) ++ rest =
        (natDecimal D).take (e.toNat + 1) ++
          (46 :: (stripZeros ((natDecimal D).drop (e.toNat + 1)) ++ rest)) := by
      simp [List.append_assoc]
    rw [hassoc]
    have hdw : ((natDecimal D).take (e.toNat + 1) ++
        (46 :: (stripZeros ((natDecimal D).drop (e.toNat + 1)) ++ rest))).dropWhile
          (fun c => isspaceB c) = (natDecimal D).take (e.toNat + 1) ++
        (46 :: (stripZeros ((natDecimal D).drop (e.toNat + 1)) ++ rest)) := by
      rw [htk, List.cons_append, List.dropWhile_cons_of_neg]
      simp only [isspaceB, decide_eq_true_eq]
      omega
    rw [hdw]
    have hds : dropSign ((natDecimal D).take (e.toNat + 1) ++
        (46 :: (stripZeros ((natDecimal D).drop (e.toNat + 1)) ++ rest))) =
        (false, (natDecimal D).take (e.toNat + 1) ++
          (46 :: (stripZeros ((natDecimal D).drop (e.toNat + 1)) ++ rest))) := by
      rw [htk, List.cons_append]
      exact dropSign_no_sign (by omega) (by omega)
    rw [hds]
    simp only
    rw [takeWhile_append_all _ _ htkdig]
    rw [List.takeWhile_cons_of_neg (by simp [isdigitB])]
    rw [List.append_nil, List.drop_left]
    simp only [List.head?_cons, List.tail_cons]
    rw [if_pos (trivial : True)]
    rw [takeWhile_append_all _ _ hfdig, takeWhile_digits_stop hstop, List.append_nil]
    simp only [Option.getD_some]
    rw [if_neg (by
      intro hcon
      have h1 := hcon.1
      rw [htk] at h1
      simp at h1)]
    rw [List.drop_left]
    have he : e = (e.toNat : Int) := by omega
    have hmag : ((digitsVal ((natDecimal D).take (e.toNat + 1)) : ℚ) +
        (digitsVal (stripZeros ((natDecimal D).drop (e.toNat + 1))) : ℚ) /
          (10:ℚ) ^ (stripZeros ((natDecimal D).drop (e.toNat + 1))).length) *
        qpow10 0 = (D : ℚ) * qpow10 (e - 14) := by
      have halg := alg_split (e := 0) e.toNat ((natDecimal D).take (e.toNat + 1))
        (stripZeros ((natDecimal D).drop (e.toNat + 1)))
        (by rw [← hz]; exact (List.take_append_drop _ _).symm)
        hlen
        (by rw [List.length_take, hlen]; omega)
        (by omega) hdv
      rw [halg]
      congr 2
      omega
    have hne : (D : ℚ) * qpow10 (e - 14) ≠ 0 := (sig_val_pos e hDlo).ne.symm
    cases rest with
    | nil =>
      simp only
      rw [if_neg (by simp : ¬ (false = true)), hmag]
      simp
    | cons c tr =>
      have hc := jsonStop_head hstop c tr rfl
      have hce : ¬ (c = 101 ∨ c = 69) := by omega
      simp [hce, hmag]

theorem expSuffix_shape (e : Int) :
    ∃ eds, expSuffix e = 101 :: (if e < 0 then 45 else 43) :: eds ∧
      (∀ c ∈ eds, isdigitB c = true) ∧ eds ≠ [] ∧ digitsVal eds = e.natAbs := by
  by_cases hpad : (natDecimal e.natAbs).length < 2
  · refine ⟨48 :: natDecimal e.natAbs, ?_, ?_, by simp, ?_⟩
    · simp only [expSuffix]
      rw [if_pos hpad]
    · intro c hc
      rcases List.mem_cons.mp hc with h | h
      · subst h
        rfl
      · exact natDecimal_digits_true _ c h
    · rw [digitsVal_cons, digitsVal_natDecimal]
      simp
  · refine ⟨natDecimal e.natAbs, ?_, natDecimal_digits_true _, natDecimal_ne_nil _,
      digitsVal_natDecimal _⟩
    simp only [expSuffix]
    rw [if_neg hpad]

theorem strtodP_sci {a : ℚ} (ha : 0 < a)
    (he : (sigDigits15 a).2 < -4 ∨ 15 ≤ (sigDigits15 a).2)
    (rest : List Nat) (hstop : jsonStop rest = true) :
    strtodP (fmtG15Pos a ++ rest) =
      some (⟨((sigDigits15 a).1 : ℚ) * qpow10 ((sigDigits15 a).2 - 14), false⟩, rest) := by
  cases hsig : sigDigits15 a with
  | mk D e =>
    rw [hsig] at he
    simp only at he ⊢
    obtain ⟨hlen, hdv, hdig, hDlo, hDhi⟩ := sig_facts ha hsig
    obtain ⟨h, t, hht, hh49, hh57⟩ := natDecimal_head (by omega : 1 ≤ D)
    have htake1 : (natDecimal D).take 1 = [h] := by
      rw [hht]
      rfl
    have hdrop1 : (natDecimal D).drop 1 = t := by
      rw [hht]
      rfl
    obtain ⟨z, hz⟩ := stripZeros_decomp ((natDecimal D).drop 1)
    have hfmem : ∀ c ∈ stripZeros ((natDecimal D).drop 1), 48 ≤ c ∧ c ≤ 57 := by
      intro c hc
      refine hdig c (List.mem_of_mem_drop (n := 1) ?_)
      rw [hz]
      exact List.mem_append_left _ hc
    have hfdig : ∀ c ∈ stripZeros ((natDecimal D).drop 1), isdigitB c = true :=
      fun c hc => isdigitB_true (hfmem c hc)
    obtain ⟨eds, heds_eq, heds_dig, heds_ne, heds_dv⟩ := expSuffix_shape e
    have hsplit_ds : natDecimal D = [h] ++ (stripZeros ((natDecimal D).drop 1) ++
        List.replicate z 48) := by
      rw [← hz, hdrop1, hht]
      rfl
    have hvne : (D : ℚ) * qpow10 (e - 14) ≠ 0 := (sig_val_pos e hDlo).ne.symm
    have hmagA : ((digitsVal [h] : ℚ) +
        (digitsVal (stripZeros ((natDecimal D).drop 1)) : ℚ) /
          (10:ℚ) ^ (stripZeros ((natDecimal D).drop 1)).length) * qpow10 e =
        (D : ℚ) * qpow10 (e - 14) := by
      have halg := alg_split (e := e) 0 [h] (stripZeros ((natDecimal D).drop 1))
        hsplit_ds hlen (by simp) (by omega) hdv
      rw [halg]
      congr 2
      omega
    have hbody : fmtG15Pos a = (natDecimal D).take 1 ++
        ((if stripZeros ((natDecimal D).drop 1) = [] then []
          else 46 :: stripZeros ((natDecimal D).drop 1)) ++ expSuffix e) := by
      simp only [fmtG15Pos]
      rw [hsig]
      simp only
      rw [if_pos he, List.append_assoc]
    by_cases hfe : stripZeros ((natDecimal D).drop 1) = []
    · -- no fractional digits: the leading digit then the exponent directly
      have hmagB : ((digitsVal [h] : ℚ) +
          (digitsVal ([] : List Nat) : ℚ) / (10:ℚ) ^ (List.length ([] : List Nat))) *
          qpow10 e = (D : ℚ) * qpow10 (e - 14) := by
        rw [hfe] at hmagA
        exact hmagA
      rw [hbody, htake1, if_pos hfe, List.nil_append, heds_eq]
      have hshape : ([h] ++ (101 :: (if e < 0 then 45 else 43) :: eds)) ++ rest =
          h :: (101 :: ((if e < 0 then 45 else 43) :: (eds ++ rest))) := by
        simp
      rw [hshape]
      simp only [strtodP]
      rw [List.dropWhile_cons_of_neg (by
        simp only [isspaceB, decide_eq_true_eq]
        omega)]
      rw [dropSign_no_sign (by omega) (by omega)]
      simp only
      rw [List.takeWhile_cons_of_pos (isdigitB_true ⟨by omega, hh57⟩),
        List.takeWhile_cons_of_neg (by simp [isdigitB])]
      have hdrop2 : (h :: (101 :: ((if e < 0 then 45 else 43) :: (eds ++ rest)))).drop
          ([h] : List Nat).length =
          101 :: ((if e < 0 then 45 else 43) :: (eds ++ rest)) := rfl
      rw [hdrop2]
      simp only [List.head?_cons]
      rw [if_neg (by simp : ¬ ((some (101:Nat) : Option Nat) = some 46))]
      rw [if_neg (by simp : ¬ ((([h] : List Nat).isEmpty = true) ∧
        (((none : Option (List Nat)).getD []).isEmpty = true)))]
      simp only [Option.getD_none]
      by_cases hes : e < 0
      · rw [if_pos hes]
        have hds2 : dropSign (45 :: (eds ++ rest)) = (true, eds ++ rest) := rfl
        rw [if_pos (Or.inl trivial : True ∨ (101:Nat) = 69), hds2]
        simp only
        rw [takeWhile_append_all eds rest heds_dig, takeWhile_digits_stop hstop,
          List.append_nil]
        have hempty : eds.isEmpty = false := by
          cases eds with
          | nil => exact absurd rfl heds_ne
          | cons a l => rfl
        have hEe : -(e.natAbs : Int) = e := by omega
        rw [hempty]
        simp only [Bool.false_eq_true, if_false, if_true, List.drop_left, heds_dv, hEe]
        simp
        rw [← hmagB]
        norm_num
      · rw [if_neg hes]
        have hds2 : dropSign (43 :: (eds ++ rest)) = (false, eds ++ rest) := rfl
        rw [if_pos (Or.inl trivial : True ∨ (101:Nat) = 69), hds2]
        simp only
        rw [takeWhile_append_all eds rest heds_dig, takeWhile_digits_stop hstop,
          List.append_nil]
        have hempty : eds.isEmpty = false := by
          cases eds with
          | nil => exact absurd rfl heds_ne
          | cons a l => rfl
        have hEe : (e.natAbs : Int) = e := by omega
        rw [hempty]
        simp only [Bool.false_eq_true, if_false, if_true, List.drop_left, heds_dv, hEe]
        simp
        rw [← hmagB]
        norm_num
    · -- fractional digits, then the exponent
      rw [hbody, htake1, if_neg hfe, heds_eq]
      have hshape : ([h] ++ ((46 :: stripZeros ((natDecimal D).drop 1)) ++
          (101 :: (if e < 0 then 45 else 43) :: eds))) ++ rest =
          h :: (46 :: (stripZeros ((natDecimal D).drop 1) ++
            (101 :: ((if e < 0 then 45 else 43) :: (eds ++ rest))))) := by
        simp
      rw [hshape]
      simp only [strtodP]
      rw [List.dropWhile_cons_of_neg (by
        simp only [isspaceB, decide_eq_true_eq]
        omega)]
      rw [dropSign_no_sign (by omega) (by omega)]
      simp only
      rw [List.takeWhile_cons_of_pos (isdigitB_true ⟨by omega, hh57⟩),
        List.takeWhile_cons_of_neg (by simp [isdigitB])]
      have hdrop2 : (h :: (46 :: (stripZeros ((natDecimal D).drop 1) ++
          (101 :: ((if e < 0 then 45 else 43) :: (eds ++ rest)))))).drop
          ([h] : List Nat).length =
          46 :: (stripZeros ((natDecimal D).drop 1) ++
            (101 :: ((if e < 0 then 45 else 43) :: (eds ++ rest)))) := rfl
      rw [hdrop2]
      simp only [List.head?_cons, List.tail_cons]
      rw [if_pos (trivial : True)]
      rw [takeWhile_append_all _ _ hfdig,
        List.takeWhile_cons_of_neg (by simp [isdigitB]), List.append_nil]
      rw [if_neg (by
        intro hcon
        have h1 := hcon.1
        simp at h1)]
      simp only [Option.getD_some]
      rw [List.drop_left]
      simp only
      by_cases hes : e < 0
      · rw [if_pos hes]
        have hds2 : dropSign (45 :: (eds ++ rest)) = (true, eds ++ rest) := rfl
        rw [if_pos (Or.inl trivial : True ∨ (101:Nat) = 69), hds2]
        simp only
        rw [takeWhile_append_all eds rest heds_dig, takeWhile_digits_stop hstop,
          List.append_nil]
        have hempty : eds.isEmpty = false := by
          cases eds with
          | nil => exact absurd rfl heds_ne
          | cons a l => rfl
        have hEe : -(e.natAbs : Int) = e := by omega
        rw [hempty]
        simp only [Bool.false_eq_true, if_false, if_true, List.drop_left, heds_dv, hEe]
        simp
        simp only [List.drop_one] at hmagA
        exact hmagA
      · rw [if_neg hes]
        have hds2 : dropSign (43 :: (eds ++ rest)) = (false, eds ++ rest) := rfl
        rw [if_pos (Or.inl trivial : True ∨ (101:Nat) = 69), hds2]
        simp only
        rw [takeWhile_append_all eds rest heds_dig, takeWhile_digits_stop hstop,
          List.append_nil]
        have hempty : eds.isEmpty = false := by
          cases eds with
          | nil => exact absurd rfl heds_ne
          | cons a l => rfl
        have hEe : (e.natAbs : Int) = e := by omega
        rw [hempty]
        simp only [Bool.false_eq_true, if_false, if_true, List.drop_left, heds_dv, hEe]
        simp
        simp only [List.drop_one] at hmagA
        exact hmagA

theorem strtodP_fix0 {a : ℚ} (ha : 0 < a)
    (hlo : -4 ≤ (sigDigits15 a).2) (hhi : (sigDigits15 a).2 < 0)
    (rest : List Nat) (hstop : jsonStop rest = true) :
    strtodP (fmtG15Pos a ++ rest) =
      some (⟨((sigDigits15 a).1 : ℚ) * qpow10 ((sigDigits15 a).2 - 14), false⟩, rest) := by
  cases hsig : sigDigits15 a with
  | mk D e =>
    rw [hsig] at hlo hhi
    simp only at hlo hhi ⊢
    obtain ⟨hlen, hdv, hdig, hDlo, hDhi⟩ := sig_facts ha hsig
    obtain ⟨z, hz⟩ := stripZeros_decomp (natDecimal D)
    have hfmem : ∀ c ∈ stripZeros (natDecimal D), 48 ≤ c ∧ c ≤ 57 := by
      intro c hc
      refine hdig c ?_
      rw [hz]
      exact List.mem_append_left _ hc
    have hfdig : ∀ c ∈ stripZeros (natDecimal D), isdigitB c = true :=
      fun c hc => isdigitB_true (hfmem c hc)
    have hzdig : ∀ c ∈ List.replicate (-(e+1)).toNat 48 ++ stripZeros (natDecimal D),
        isdigitB c = true := by
      intro c hc
      rcases List.mem_append.mp hc with hcm | hcm
      · rw [List.eq_of_mem_replicate hcm]
        rfl
      · exact hfdig c hcm
    have hbody : fmtG15Pos a = 48 :: (46 :: (List.replicate (-(e+1)).toNat 48 ++
        stripZeros (natDecimal D))) := by
      simp only [fmtG15Pos]
      rw [hsig]
      simp only
      rw [if_neg (by omega : ¬ (e < -4 ∨ 15 ≤ e)), if_pos hhi]
      rfl
    rw [hbody]
    have hshape : (48 :: (46 :: (List.replicate (-(e+1)).toNat 48 ++
        stripZeros (natDecimal D)))) ++ rest =
        48 :: (46 :: ((List.replicate (-(e+1)).toNat 48 ++
          stripZeros (natDecimal D)) ++ rest)) := by
      simp
    rw [hshape]
    simp only [strtodP]
    rw [List.dropWhile_cons_of_neg (by
      simp only [isspaceB, decide_eq_true_eq]
      omega)]
    rw [dropSign_no_sign (by omega) (by omega)]
    simp only
    rw [List.takeWhile_cons_of_pos (isdigitB_true ⟨by omega, by omega⟩),
      List.takeWhile_cons_of_neg (by simp [isdigitB])]
    have hdrop2 : (48 :: (46 :: ((List.replicate (-(e+1)).toNat 48 ++
        stripZeros (natDecimal D)) ++ rest))).drop ([48] : List Nat).length =
        46 :: ((List.replicate (-(e+1)).toNat 48 ++ stripZeros (natDecimal D)) ++ rest) :=
      rfl
    rw [hdrop2]
    simp only [List.head?_cons, List.tail_cons]
    rw [if_pos (trivial : True)]
    rw [takeWhile_append_all _ _ hzdig, takeWhile_digits_stop hstop, List.append_nil]
    simp only [Option.getD_some]
    rw [if_neg (by
      intro hcon
      have h1 := hcon.1
      simp at h1)]
    rw [List.drop_left]
    have hmag : ((digitsVal [48] : ℚ) +
        (digitsVal (List.replicate (-(e+1)).toNat 48 ++ stripZeros (natDecimal D)) : ℚ) /
          (10:ℚ) ^ (List.replicate (-(e+1)).toNat 48 ++
            stripZeros (natDecimal D)).length) *
        qpow10 0 = (D : ℚ) * qpow10 (e - 14) := by
      have halg := alg_fix0 (u := (-(e+1)).toNat) (stripZeros (natDecimal D)) hz hlen hdv
      rw [halg]
      congr 2
      omega
    cases rest with
    | nil =>
      simp only
      rw [if_neg (by simp : ¬ (false = true)), hmag]
      simp
    | cons c tr =>
      have hc := jsonStop_head hstop c tr rfl
      have hce : ¬ (c = 101 ∨ c = 69) := by omega
      simp [hce]
      rw [← hmag]
      have hee : ((-1 + -e : Int)).toNat = (-(e+1)).toNat := by omega
      rw [hee, List.length_append, List.length_replicate]

theorem strtollP_digit_head_stop {l r : List Nat} {c : Nat} (hl : l ≠ [])
    (hdig : ∀ x ∈ l, isdigitB x = true) (hc : ¬ isdigitB c = true)
    (hval : digitsVal l < 2 ^ 63) :
    strtollP (l ++ c :: r) = some ((digitsVal l : Int), c :: r) :=
  strtollP_digits hl hdig (List.takeWhile_cons_of_neg hc) hval

theorem strtollP_digit_head_stop_neg {l r : List Nat} {c : Nat} (hl : l ≠ [])
    (hdig : ∀ x ∈ l, isdigitB x = true) (hc : ¬ isdigitB c = true)
    (hval : digitsVal l ≤ 2 ^ 63) :
    strtollP (45 :: (l ++ c :: r)) = some (-(digitsVal l : Int), c :: r) :=
  strtollP_digits_neg hl hdig (List.takeWhile_cons_of_neg hc) hval

theorem fmtG15Pos_head {a : ℚ} (ha : 0 < a) :
    ∃ c t, fmtG15Pos a = c :: t ∧ 48 ≤ c ∧ c ≤ 57 := by
  cases hsig : sigDigits15 a with
  | mk D e =>
    obtain ⟨hlen, hdv, hdig, hDlo, hDhi⟩ := sig_facts ha hsig
    obtain ⟨h, t, hht, hh49, hh57⟩ := natDecimal_head (by omega : 1 ≤ D)
    simp only [fmtG15Pos]
    rw [hsig]
    simp only
    by_cases hsci : e < -4 ∨ 15 ≤ e
    · rw [if_pos hsci, hht]
      exact ⟨h, _, rfl, by omega, hh57⟩
    · rw [if_neg hsci]
      by_cases hfx : e < 0
      · rw [if_pos hfx]
        exact ⟨48, _, rfl, by omega, by omega⟩
      · rw [if_neg hfx, hht, List.take_succ_cons]
        exact ⟨h, _, rfl, by omega, hh57⟩

theorem parse_number_int_path {s rest : List Nat} {n : Int}
    (hdw : s.dropWhile (fun c => isspaceB c) = s)
    (hll : strtollP s = some (n, rest)) (hstop : jsonStop rest = true) :
    parse_number s = some (GlyphValue.vint n, rest) := by
  simp only [parse_number]
  rw [hdw, hll]
  simp only
  cases hrest : rest with
  | nil => rfl
  | cons c t =>
    have hc := jsonStop_head hstop c t hrest
    simp only
    rw [if_neg (by omega : ¬ (c = 46 ∨ c = 101 ∨ c = 69))]

theorem parse_number_float_path {s rest2 rest : List Nat} {n : Int} {c : Nat}
    {g : CDouble}
    (hdw : s.dropWhile (fun c => isspaceB c) = s)
    (hll : strtollP s = some (n, c :: rest2))
    (hc : c = 46 ∨ c = 101 ∨ c = 69)
    (hdd : strtodP s = some (g, rest)) :
    parse_number s = some (GlyphValue.vfloat g, rest) := by
  simp only [parse_number]
  rw [hdw, hll]
  simp only
  rw [if_pos hc, hdd]

theorem strtodP_neg {c : Nat} {t rest : List Nat} {v : ℚ}
    (hc48 : 48 ≤ c) (hc57 : c ≤ 57) (hv : v ≠ 0)
    (h : strtodP (c :: t) = some (⟨v, false⟩, rest)) :
    strtodP (45 :: c :: t) = some (⟨-v, false⟩, rest) := by
  simp only [strtodP] at h ⊢
  rw [List.dropWhile_cons_of_neg (by
    simp only [isspaceB, decide_eq_true_eq]
    omega)] at h
  rw [List.dropWhile_cons_of_neg (by simp [isspaceB])]
  rw [dropSign_no_sign (by omega) (by omega)] at h
  have hds : dropSign (45 :: c :: t) = (true, c :: t) := rfl
  rw [hds]
  simp only at h ⊢
  rw [List.takeWhile_cons_of_pos (isdigitB_true ⟨hc48, hc57⟩)] at h ⊢
  simp only [List.isEmpty_cons, Bool.false_eq_true, false_and, if_false,
    Option.some.injEq, Prod.mk.injEq, CDouble.mk.injEq] at h ⊢
  obtain ⟨⟨hmg, hnz⟩, hex⟩ := h
  rw [hmg, hex]
  simp [hv]

theorem parse_number_fmtG15Pos {a : ℚ} (ha : 0 < a) (rest : List Nat)
    (hstop : jsonStop rest = true) :
    parse_number (fmtG15Pos a ++ rest) =
      some ((if 0 ≤ (sigDigits15 a).2 ∧ (sigDigits15 a).2 < 15 ∧
          stripZeros ((natDecimal (sigDigits15 a).1).drop
            ((sigDigits15 a).2.toNat + 1)) = []
        then GlyphValue.vint (digitsVal ((natDecimal (sigDigits15 a).1).take
          ((sigDigits15 a).2.toNat + 1)))
        else GlyphValue.vfloat ⟨((sigDigits15 a).1 : ℚ) *
          qpow10 ((sigDigits15 a).2 - 14), false⟩), rest) := by
  have hdw : (fmtG15Pos a ++ rest).dropWhile (fun c => isspaceB c) =
      fmtG15Pos a ++ rest := by
    obtain ⟨c, t, hct, h48, h57⟩ := fmtG15Pos_head ha
    rw [hct, List.cons_append, List.dropWhile_cons_of_neg]
    simp only [isspaceB, decide_eq_true_eq]
    omega
  cases hsig : sigDigits15 a with
  | mk D e =>
    simp only
    obtain ⟨hlen, hdv, hdig, hDlo, hDhi⟩ := sig_facts ha hsig
    obtain ⟨h, t, hht, hh49, hh57⟩ := natDecimal_head (by omega : 1 ≤ D)
    have hhead_val : digitsVal [h] < 2 ^ 63 := by
      have h1 := digitsVal_lt (l := [h]) (by
        intro x hx
        rw [List.mem_singleton] at hx
        omega)
      simp only [List.length_cons, List.length_nil] at h1
      omega
    by_cases hint : 0 ≤ e ∧ e < 15 ∧ stripZeros ((natDecimal D).drop (e.toNat + 1)) = []
    · rw [if_pos hint]
      obtain ⟨h0, h15, hfrac⟩ := hint
      have hbody : fmtG15Pos a = (natDecimal D).take (e.toNat + 1) := by
        simp only [fmtG15Pos]
        rw [hsig]
        simp only
        rw [if_neg (by omega : ¬ (e < -4 ∨ 15 ≤ e)), if_neg (by omega : ¬ e < 0),
          if_pos hfrac, List.append_nil]
      have htkne : (natDecimal D).take (e.toNat + 1) ≠ [] := by
        rw [hht, List.take_succ_cons]
        simp
      have htkdig : ∀ x ∈ (natDecimal D).take (e.toNat + 1), isdigitB x = true :=
        fun x hx => isdigitB_true (hdig x (List.mem_of_mem_take hx))
      have htkval : digitsVal ((natDecimal D).take (e.toNat + 1)) < 2 ^ 63 := by
        have h1 := digitsVal_lt (l := (natDecimal D).take (e.toNat + 1))
          (fun x hx => (hdig x (List.mem_of_mem_take hx)).2)
        have h2 : ((natDecimal D).take (e.toNat + 1)).length ≤ 15 := by
          rw [List.length_take, hlen]
          omega
        have h3 : (10:Nat) ^ ((natDecimal D).take (e.toNat + 1)).length ≤ 10 ^ 15 :=
          Nat.pow_le_pow_right (by omega) h2
        have h4 : (10:Nat) ^ 15 < 2 ^ 63 := by norm_num
        omega
      rw [hbody] at hdw ⊢
      exact parse_number_int_path hdw
        (strtollP_digits htkne htkdig (takeWhile_digits_stop hstop) htkval) hstop
    · rw [if_neg hint]
      by_cases hsci : e < -4 ∨ 15 ≤ e
      · have hdd := strtodP_sci ha (by rw [hsig]; exact hsci) rest hstop
        rw [hsig] at hdd
        simp only at hdd
        obtain ⟨eds, heds_eq, heds_dig, heds_ne, heds_dv⟩ := expSuffix_shape e
        have hsbody : fmtG15Pos a = [h] ++
            ((if stripZeros ((natDecimal D).drop 1) = [] then []
              else 46 :: stripZeros ((natDecimal D).drop 1)) ++ expSuffix e) := by
          simp only [fmtG15Pos]
          rw [hsig]
          simp only
          rw [if_pos hsci, List.append_assoc, hht, List.take_succ_cons, List.take_zero]
        by_cases hfe : stripZeros ((natDecimal D).drop 1) = []
        · have hfull : fmtG15Pos a ++ rest = [h] ++ 101 ::
              (((if e < 0 then 45 else 43) :: eds) ++ rest) := by
            rw [hsbody, if_pos hfe, List.nil_append, heds_eq]
            simp
          have hll := strtollP_digit_head_stop
            (l := [h]) (c := 101) (r := ((if e < 0 then 45 else 43) :: eds) ++ rest)
            (by simp) (by
              intro x hx
              rw [List.mem_singleton] at hx
              exact isdigitB_true ⟨by omega, by omega⟩) (by simp [isdigitB]) hhead_val
          rw [← hfull] at hll
          exact parse_number_float_path hdw hll (by omega) hdd
        · have hfull : fmtG15Pos a ++ rest = [h] ++ 46 ::
              (stripZeros ((natDecimal D).drop 1) ++ (expSuffix e ++ rest)) := by
            rw [hsbody, if_neg hfe]
            simp
          have hll := strtollP_digit_head_stop
            (l := [h]) (c := 46)
            (r := stripZeros ((natDecimal D).drop 1) ++ (expSuffix e ++ rest))
            (by simp) (by
              intro x hx
              rw [List.mem_singleton] at hx
              exact isdigitB_true ⟨by omega, by omega⟩) (by simp [isdigitB]) hhead_val
          rw [← hfull] at hll
          exact parse_number_float_path hdw hll (by omega) hdd
      · by_cases hfx : e < 0
        · have hdd := strtodP_fix0 ha (by rw [hsig]; simp only; omega)
            (by rw [hsig]; exact hfx) rest hstop
          rw [hsig] at hdd
          simp only at hdd
          have hzbody : fmtG15Pos a = [48] ++ 46 ::
              (List.replicate (-(e+1)).toNat 48 ++ stripZeros (natDecimal D)) := by
            simp only [fmtG15Pos]
            rw [hsig]
            simp only
            rw [if_neg hsci, if_pos hfx]
            rfl
          have hfull : fmtG15Pos a ++ rest = [48] ++ 46 ::
              ((List.replicate (-(e+1)).toNat 48 ++ stripZeros (natDecimal D)) ++
                rest) := by
            rw [hzbody]
            simp
          have hzval : digitsVal [48] < 2 ^ 63 := by
            have h1 := digitsVal_lt (l := [48]) (by
              intro x hx
              rw [List.mem_singleton] at hx
              omega)
            simp only [List.length_cons, List.length_nil] at h1
            omega
          have hll := strtollP_digit_head_stop
            (l := [48]) (c := 46)
            (r := (List.replicate (-(e+1)).toNat 48 ++ stripZeros (natDecimal D)) ++
              rest)
            (by simp) (by
              intro x hx
              rw [List.mem_singleton] at hx
              exact isdigitB_true ⟨by omega, by omega⟩) (by simp [isdigitB]) hzval
          rw [← hfull] at hll
          exact parse_number_float_path hdw hll (by omega) hdd
        · have h0 : (0:Int) ≤ e := by omega
          have h15 : e < 15 := by omega
          have hfrac : stripZeros ((natDecimal D).drop (e.toNat + 1)) ≠ [] := by
            intro hcon
            exact hint ⟨h0, h15, hcon⟩
          have hdd := strtodP_fixp ha (by rw [hsig]; exact h0)
            (by rw [hsig]; exact h15) (by rw [hsig]; exact hfrac) rest hstop
          rw [hsig] at hdd
          simp only at hdd
          have hpbody : fmtG15Pos a = (natDecimal D).take (e.toNat + 1) ++
              (46 :: stripZeros ((natDecimal D).drop (e.toNat + 1))) := by
            simp only [fmtG15Pos]
            rw [hsig]
            simp only
            rw [if_neg hsci, if_neg hfx, if_neg hfrac]
          have hfull : fmtG15Pos a ++ rest = (natDecimal D).take (e.toNat + 1) ++
              46 :: (stripZeros ((natDecimal D).drop (e.toNat + 1)) ++ rest) := by
            rw [hpbody]
            simp
          have htkne : (natDecimal D).take (e.toNat + 1) ≠ [] := by
            rw [hht, List.take_succ_cons]
            simp
          have htkdig : ∀ x ∈ (natDecimal D).take (e.toNat + 1), isdigitB x = true :=
            fun x hx => isdigitB_true (hdig x (List.mem_of_mem_take hx))
          have htkval : digitsVal ((natDecimal D).take (e.toNat + 1)) < 2 ^ 63 := by
            have h1 := digitsVal_lt (l := (natDecimal D).take (e.toNat + 1))
              (fun x hx => (hdig x (List.mem_of_mem_take hx)).2)
            have h2 : ((natDecimal D).take (e.toNat + 1)).length ≤ 15 := by
              rw [List.length_take, hlen]
              omega
            have h3 : (10:Nat) ^ ((natDecimal D).take (e.toNat + 1)).length ≤ 10 ^ 15 :=
              Nat.pow_le_pow_right (by omega) h2
            have h4 : (10:Nat) ^ 15 < 2 ^ 63 := by norm_num
            omega
          have hll := strtollP_digit_head_stop (c := 46)
            (r := stripZeros ((natDecimal D).drop (e.toNat + 1)) ++ rest)
            htkne htkdig (by simp [isdigitB]) htkval
          rw [← hfull] at hll
          exact parse_number_float_path hdw hll (by omega) hdd

theorem parse_number_fmtG15Pos_neg {a : ℚ} (ha : 0 < a) (rest : List Nat)
    (hstop : jsonStop rest = true) :
    parse_number (45 :: (fmtG15Pos a ++ rest)) =
      some ((if 0 ≤ (sigDigits15 a).2 ∧ (sigDigits15 a).2 < 15 ∧
          stripZeros ((natDecimal (sigDigits15 a).1).drop
            ((sigDigits15 a).2.toNat + 1)) = []
        then GlyphValue.vint (-(digitsVal ((natDecimal (sigDigits15 a).1).take
          ((sigDigits15 a).2.toNat + 1)) : Int))
        else GlyphValue.vfloat ⟨-(((sigDigits15 a).1 : ℚ) *
          qpow10 ((sigDigits15 a).2 - 14)), false⟩), rest) := by
  have hdw : (45 :: (fmtG15Pos a ++ rest)).dropWhile (fun c => isspaceB c) =
      45 :: (fmtG15Pos a ++ rest) := by
    rw [List.dropWhile_cons_of_neg]
    simp [isspaceB]
  obtain ⟨hc, ht, hcht, hc48, hc57⟩ := fmtG15Pos_head ha
  cases hsig : sigDigits15 a with
  | mk D e =>
    simp only
    obtain ⟨hlen, hdv, hdig, hDlo, hDhi⟩ := sig_facts ha hsig
    obtain ⟨h, t, hht, hh49, hh57⟩ := natDecimal_head (by omega : 1 ≤ D)
    have hhead_val : digitsVal [h] ≤ 2 ^ 63 := by
      have h1 := digitsVal_lt (l := [h]) (by
        intro x hx
        rw [List.mem_singleton] at hx
        omega)
      simp only [List.length_cons, List.length_nil] at h1
      omega
    have hqpos : 0 < (D : ℚ) * qpow10 (e - 14) := sig_val_pos e hDlo
    by_cases hint : 0 ≤ e ∧ e < 15 ∧ stripZeros ((natDecimal D).drop (e.toNat + 1)) = []
    · rw [if_pos hint]
      obtain ⟨h0, h15, hfrac⟩ := hint
      have hbody : fmtG15Pos a = (natDecimal D).take (e.toNat + 1) := by
        simp only [fmtG15Pos]
        rw [hsig]
        simp only
        rw [if_neg (by omega : ¬ (e < -4 ∨ 15 ≤ e)), if_neg (by omega : ¬ e < 0),
          if_pos hfrac, List.append_nil]
      have htkne : (natDecimal D).take (e.toNat + 1) ≠ [] := by
        rw [hht, List.take_succ_cons]
        simp
      have htkdig : ∀ x ∈ (natDecimal D).take (e.toNat + 1), isdigitB x = true :=
        fun x hx => isdigitB_true (hdig x (List.mem_of_mem_take hx))
      have htkval : digitsVal ((natDecimal D).take (e.toNat + 1)) ≤ 2 ^ 63 := by
        have h1 := digitsVal_lt (l := (natDecimal D).take (e.toNat + 1))
          (fun x hx => (hdig x (List.mem_of_mem_take hx)).2)
        have h2 : ((natDecimal D).take (e.toNat + 1)).length ≤ 15 := by
          rw [List.length_take, hlen]
          omega
        have h3 : (10:Nat) ^ ((natDecimal D).take (e.toNat + 1)).length ≤ 10 ^ 15 :=
          Nat.pow_le_pow_right (by omega) h2
        have h4 : (10:Nat) ^ 15 < 2 ^ 63 := by norm_num
        omega
      rw [hbody] at hdw ⊢
      exact parse_number_int_path hdw
        (strtollP_digits_neg htkne htkdig (takeWhile_digits_stop hstop) htkval) hstop
    · rw [if_neg hint]
      have hddn : ∀ q : ℚ, q ≠ 0 →
          strtodP (fmtG15Pos a ++ rest) = some (⟨q, false⟩, rest) →
          strtodP (45 :: (fmtG15Pos a ++ rest)) = some (⟨-q, false⟩, rest) := by
        intro q hq hdd
        rw [hcht, List.cons_append] at hdd ⊢
        exact strtodP_neg hc48 hc57 hq hdd
      by_cases hsci : e < -4 ∨ 15 ≤ e
      · have hdd := strtodP_sci ha (by rw [hsig]; exact hsci) rest hstop
        rw [hsig] at hdd
        simp only at hdd
        have hdd2 := hddn _ hqpos.ne.symm hdd
        obtain ⟨eds, heds_eq, heds_dig, heds_ne, heds_dv⟩ := expSuffix_shape e
        have hsbody : fmtG15Pos a = [h] ++
            ((if stripZeros ((natDecimal D).drop 1) = [] then []
              else 46 :: stripZeros ((natDecimal D).drop 1)) ++ expSuffix e) := by
          simp only [fmtG15Pos]
          rw [hsig]
          simp only
          rw [if_pos hsci, List.append_assoc, hht, List.take_succ_cons, List.take_zero]
        by_cases hfe : stripZeros ((natDecimal D).drop 1) = []
        · have hfull : fmtG15Pos a ++ rest = [h] ++ 101 ::
              (((if e < 0 then 45 else 43) :: eds) ++ rest) := by
            rw [hsbody, if_pos hfe, List.nil_append, heds_eq]
            simp
          have hll := strtollP_digit_head_stop_neg
            (l := [h]) (c := 101) (r := ((if e < 0 then 45 else 43) :: eds) ++ rest)
            (by simp) (by
              intro x hx
              rw [List.mem_singleton] at hx
              exact isdigitB_true ⟨by omega, by omega⟩) (by simp [isdigitB]) hhead_val
          rw [← hfull] at hll
          exact parse_number_float_path hdw hll (by omega) hdd2
        · have hfull : fmtG15Pos a ++ rest = [h] ++ 46 ::
              (stripZeros ((natDecimal D).drop 1) ++ (expSuffix e ++ rest)) := by
            rw [hsbody, if_neg hfe]
            simp
          have hll := strtollP_digit_head_stop_neg
            (l := [h]) (c := 46)
            (r := stripZeros ((natDecimal D).drop 1) ++ (expSuffix e ++ rest))
            (by simp) (by
              intro x hx
              rw [List.mem_singleton] at hx
              exact isdigitB_true ⟨by omega, by omega⟩) (by simp [isdigitB]) hhead_val
          rw [← hfull] at hll
          exact parse_number_float_path hdw hll (by omega) hdd2
      · by_cases hfx : e < 0
        · have hdd := strtodP_fix0 ha (by rw [hsig]; simp only; omega)
            (by rw [hsig]; exact hfx) rest hstop
          rw [hsig] at hdd
          simp only at hdd
          have hdd2 := hddn _ hqpos.ne.symm hdd
          have hzbody : fmtG15Pos a = [48] ++ 46 ::
              (List.replicate (-(e+1)).toNat 48 ++ stripZeros (natDecimal D)) := by
            simp only [fmtG15Pos]
            rw [hsig]
            simp only
            rw [if_neg hsci, if_pos hfx]
            rfl
          have hfull : fmtG15Pos a ++ rest = [48] ++ 46 ::
              ((List.replicate (-(e+1)).toNat 48 ++ stripZeros (natDecimal D)) ++
                rest) := by
            rw [hzbody]
            simp
          have hzval : digitsVal [48] ≤ 2 ^ 63 := by
            have h1 := digitsVal_lt (l := [48]) (by
              intro x hx
              rw [List.mem_singleton] at hx
              omega)
            simp only [List.length_cons, List.length_nil] at h1
            omega
          have hll := strtollP_digit_head_stop_neg
            (l := [48]) (c := 46)
            (r := (List.replicate (-(e+1)).toNat 48 ++ stripZeros (natDecimal D)) ++
              rest)
            (by simp) (by
              intro x hx
              rw [List.mem_singleton] at hx
              exact isdigitB_true ⟨by omega, by omega⟩) (by simp [isdigitB]) hzval
          rw [← hfull] at hll
          exact parse_number_float_path hdw hll (by omega) hdd2
        · have h0 : (0:Int) ≤ e := by omega
          have h15 : e < 15 := by omega
          have hfrac : stripZeros ((natDecimal D).drop (e.toNat + 1)) ≠ [] := by
            intro hcon
            exact hint ⟨h0, h15, hcon⟩
          have hdd := strtodP_fixp ha (by rw [hsig]; exact h0)
            (by rw [hsig]; exact h15) (by rw [hsig]; exact hfrac) rest hstop
          rw [hsig] at hdd
          simp only at hdd
          have hdd2 := hddn _ hqpos.ne.symm hdd
          have hpbody : fmtG15Pos a = (natDecimal D).take (e.toNat + 1) ++
              (46 :: stripZeros ((natDecimal D).drop (e.toNat + 1))) := by
            simp only [fmtG15Pos]
            rw [hsig]
            simp only
            rw [if_neg hsci, if_neg hfx, if_neg hfrac]
          have hfull : fmtG15Pos a ++ rest = (natDecimal D).take (e.toNat + 1) ++
              46 :: (stripZeros ((natDecimal D).drop (e.toNat + 1)) ++ rest) := by
            rw [hpbody]
            simp
          have htkne : (natDecimal D).take (e.toNat + 1) ≠ [] := by
            rw [hht, List.take_succ_cons]
            simp
          have htkdig : ∀ x ∈ (natDecimal D).take (e.toNat + 1), isdigitB x = true :=
            fun x hx => isdigitB_true (hdig x (List.mem_of_mem_take hx))
          have htkval : digitsVal ((natDecimal D).take (e.toNat + 1)) ≤ 2 ^ 63 := by
            have h1 := digitsVal_lt (l := (natDecimal D).take (e.toNat + 1))
              (fun x hx => (hdig x (List.mem_of_mem_take hx)).2)
            have h2 : ((natDecimal D).take (e.toNat + 1)).length ≤ 15 := by
              rw [List.length_take, hlen]
              omega
            have h3 : (10:Nat) ^ ((natDecimal D).take (e.toNat + 1)).length ≤ 10 ^ 15 :=
              Nat.pow_le_pow_right (by omega) h2
            have h4 : (10:Nat) ^ 15 < 2 ^ 63 := by norm_num
            omega
          have hll := strtollP_digit_head_stop_neg (c := 46)
            (r := stripZeros ((natDecimal D).drop (e.toNat + 1)) ++ rest)
            htkne htkdig (by simp [isdigitB]) htkval
          rw [← hfull] at hll
          exact parse_number_float_path hdw hll (by omega) hdd2

theorem parse_number_fmtG15 (f : CDouble) (rest : List Nat)
    (hstop : jsonStop rest = true) :
    parse_number (fmtG15 f ++ rest) = some (floatNorm f, rest) := by
  by_cases h0 : f.val = 0
  · simp only [fmtG15, floatNorm]
    rw [if_pos h0, if_pos h0]
    by_cases hnz : f.negZero = true
    · rw [if_pos hnz]
      have hsh : ascii "-0" ++ rest = 45 :: ([48] ++ rest) := rfl
      rw [hsh]
      have hdw : (45 :: ([48] ++ rest)).dropWhile (fun c => isspaceB c) =
          45 :: ([48] ++ rest) := by
        rw [List.dropWhile_cons_of_neg]
        simp [isspaceB]
      have hll := strtollP_digits_neg (l := [48]) (by simp)
        (by
          intro x hx
          rw [List.mem_singleton] at hx
          exact isdigitB_true ⟨by omega, by omega⟩)
        (takeWhile_digits_stop hstop) (by
          have h1 := digitsVal_lt (l := [48]) (by
            intro x hx
            rw [List.mem_singleton] at hx
            omega)
          simp only [List.length_cons, List.length_nil] at h1
          omega)
      have hres := parse_number_int_path hdw hll hstop
      rw [hres]
      norm_num [digitsVal]
    · rw [if_neg hnz]
      have hsh : ascii "0" ++ rest = [48] ++ rest := rfl
      rw [hsh]
      have hdw : (([48] : List Nat) ++ rest).dropWhile (fun c => isspaceB c) =
          [48] ++ rest := by
        rw [List.cons_append, List.dropWhile_cons_of_neg]
        simp [isspaceB]
      have hll := strtollP_digits (l := [48]) (by simp)
        (by
          intro x hx
          rw [List.mem_singleton] at hx
          exact isdigitB_true ⟨by omega, by omega⟩)
        (takeWhile_digits_stop hstop) (by
          have h1 := digitsVal_lt (l := [48]) (by
            intro x hx
            rw [List.mem_singleton] at hx
            omega)
          simp only [List.length_cons, List.length_nil] at h1
          omega)
      have hres := parse_number_int_path hdw hll hstop
      rw [hres]
      norm_num [digitsVal]
  · simp only [fmtG15, floatNorm]
    rw [if_neg h0, if_neg h0]
    by_cases hneg : f.val < 0
    · rw [if_pos hneg]
      have habs : |f.val| = -f.val := abs_of_neg hneg
      rw [habs, List.cons_append]
      have ha : 0 < -f.val := by linarith
      have hres := parse_number_fmtG15Pos_neg ha rest hstop
      rw [hres]
      simp only [if_pos hneg]
    · rw [if_neg hneg]
      have hpos : 0 < f.val := lt_of_le_of_ne (by linarith [not_lt.mp hneg]) (Ne.symm h0)
      have habs : |f.val| = f.val := abs_of_pos hpos
      rw [habs]
      have hres := parse_number_fmtG15Pos hpos rest hstop
      rw [hres]
      simp only [if_neg hneg]

theorem peekChar_cons {c : Nat} (r : List Nat) (h : isspaceB c = false) :
    peekChar (c :: r) = c := by
  simp [peekChar, skipWs_not_ws r h]

theorem nextChar_cons {c : Nat} (r : List Nat) (h : isspaceB c = false) :
    nextChar (c :: r) = (c, r) := by
  simp [nextChar, skipWs_not_ws r h]

theorem json_safe_items_mem {items : List GlyphValue}
    (h : json_safe_items items = true) : ∀ v ∈ items, json_safe v = true := by
  induction items with
  | nil =>
    intro v hv
    simp at hv
  | cons w ws ih =>
    rw [json_safe_items, Bool.and_eq_true] at h
    intro v hv
    rcases List.mem_cons.mp hv with hv | hv
    · subst hv
      exact h.1
    · exact ih h.2 v hv

theorem json_safe_entries_mem {es : List (List Nat × GlyphValue)}
    (h : json_safe_entries es = true) : ∀ e ∈ es, json_safe e.2 = true := by
  induction es with
  | nil =>
    intro e he
    simp at he
  | cons w ws ih =>
    obtain ⟨k, v⟩ := w
    rw [json_safe_entries, Bool.and_eq_true] at h
    intro e he
    rcases List.mem_cons.mp he with he | he
    · subst he
      exact h.1
    · exact ih h.2 e he

theorem digit_not_space {c : Nat} (h48 : 48 ≤ c) (h57 : c ≤ 57) :
    isspaceB c = false := by
  simp only [isspaceB, decide_eq_false_iff_not]
  omega

theorem write_head_safe (v : GlyphValue) (hs : json_safe v = true) :
    ∃ c t, write_json_value v = c :: t ∧ isspaceB c = false ∧ c ≠ 93 ∧ c ≠ 125 := by
  cases v with
  | vnull => exact ⟨110, _, rfl, rfl, by omega, by omega⟩
  | vbool b =>
    cases b with
    | false => exact ⟨102, _, rfl, rfl, by omega, by omega⟩
    | true => exact ⟨116, _, rfl, rfl, by omega, by omega⟩
  | vint n =>
    simp only [write_json_value, intRender]
    by_cases hn : n < 0
    · rw [if_pos hn]
      exact ⟨45, _, rfl, rfl, by omega, by omega⟩
    · rw [if_neg hn]
      obtain ⟨c, t, hct⟩ : ∃ c t, natDecimal n.toNat = c :: t := by
        cases hnd : natDecimal n.toNat with
        | nil => exact absurd hnd (natDecimal_ne_nil _)
        | cons c t => exact ⟨c, t, rfl⟩
      have hcd := natDecimal_all_digits n.toNat c (by rw [hct]; simp)
      exact ⟨c, t, hct, digit_not_space hcd.1 hcd.2, by omega, by omega⟩
  | vfloat g =>
    simp only [write_json_value, fmtG15]
    by_cases h0 : g.val = 0
    · rw [if_pos h0]
      by_cases hnz : g.negZero = true
      · rw [if_pos hnz]
        exact ⟨45, _, rfl, rfl, by omega, by omega⟩
      · rw [if_neg hnz]
        exact ⟨48, _, rfl, rfl, by omega, by omega⟩
    · rw [if_neg h0]
      by_cases hneg : g.val < 0
      · rw [if_pos hneg]
        exact ⟨45, _, rfl, rfl, by omega, by omega⟩
      · rw [if_neg hneg]
        have hpos : 0 < g.val := lt_of_le_of_ne (not_lt.mp hneg) (Ne.symm h0)
        obtain ⟨c, t, hct, h48, h57⟩ := fmtG15Pos_head hpos
        exact ⟨c, t, hct, digit_not_space h48 h57, by omega, by omega⟩
  | vstr str => exact ⟨34, _, rfl, rfl, by omega, by omega⟩
  | vlist items => exact ⟨91, _, rfl, rfl, by omega, by omega⟩
  | vmap es => exact ⟨123, _, rfl, rfl, by omega, by omega⟩
  | vbytes bs => simp [json_safe] at hs
  | vtime ms => simp [json_safe] at hs
  | vid p i => simp [json_safe] at hs
  | vstruct tn fs => simp [json_safe] at hs
  | vsum tag inner => simp [json_safe] at hs

theorem parse_array_loop_write :
    ∀ (items : List GlyphValue), items ≠ [] →
      (∀ v ∈ items, ∀ fuel rest, jsonStop rest = true →
        3 * (write_json_value v ++ rest).length + 1 ≤ fuel →
        parse_valueF fuel (write_json_value v ++ rest) = some (jnorm v, rest)) →
      ∀ fuel acc rest, jsonStop rest = true →
        3 * (joinSep [44] (jsonItems items) ++ 93 :: rest).length + 2 ≤ fuel →
        parse_array_loopF fuel (joinSep [44] (jsonItems items) ++ 93 :: rest) acc =
          some (GlyphValue.vlist (acc ++ jnormItems items), rest) := by
  intro items
  induction items with
  | nil =>
    intro hne
    exact absurd rfl hne
  | cons v vs ih =>
    intro _ HP fuel acc rest hstop hfuel
    cases fuel with
    | zero => omega
    | succ fuel =>
      cases vs with
      | nil =>
        have hj : joinSep [44] (jsonItems [v]) ++ 93 :: rest =
            write_json_value v ++ 93 :: rest := rfl
        rw [hj] at hfuel ⊢
        simp only [parse_array_loopF]
        rw [HP v (by simp) fuel (93 :: rest) (by rfl) (by omega)]
        simp only
        rw [peekChar_cons _ (by rfl)]
        rw [if_pos rfl, nextChar_cons _ (by rfl)]
        rfl
      | cons w ws =>
        have hj : joinSep [44] (jsonItems (v :: w :: ws)) ++ 93 :: rest =
            write_json_value v ++ 44 ::
              (joinSep [44] (jsonItems (w :: ws)) ++ 93 :: rest) := by
          simp [joinSep, jsonItems, List.append_assoc]
        rw [hj] at hfuel ⊢
        simp only [parse_array_loopF]
        rw [HP v (by simp) fuel (44 :: (joinSep [44] (jsonItems (w :: ws)) ++
          93 :: rest)) (by rfl) (by omega)]
        simp only
        rw [peekChar_cons _ (by rfl)]
        rw [if_neg (by omega : ¬ ((44:Nat) = 93)), if_pos rfl,
          nextChar_cons _ (by rfl)]
        rw [ih (by simp) (fun u hu fl rs h1 h2 => HP u (by simp [hu]) fl rs h1 h2)
          fuel (acc ++ [jnorm v]) rest hstop (by
            simp only [List.length_append, List.length_cons] at hfuel ⊢
            omega)]
        simp [jnormItems, List.append_assoc]

theorem parse_object_loop_write :
    ∀ (es : List (List Nat × GlyphValue)), es ≠ [] →
      (∀ e ∈ es, ∀ fuel rest, jsonStop rest = true →
        3 * (write_json_value e.2 ++ rest).length + 1 ≤ fuel →
        parse_valueF fuel (write_json_value e.2 ++ rest) = some (jnorm e.2, rest)) →
      ∀ fuel acc rest, jsonStop rest = true →
        3 * (joinSep [44] (jsonEntries es) ++ 125 :: rest).length + 2 ≤ fuel →
        parse_object_loopF fuel (joinSep [44] (jsonEntries es) ++ 125 :: rest) acc =
          some (GlyphValue.vmap (acc ++ jnormEntries es), rest) := by
  intro es
  induction es with
  | nil =>
    intro hne
    exact absurd rfl hne
  | cons e ws ih =>
    obtain ⟨k, v⟩ := e
    intro _ HP fuel acc rest hstop hfuel
    cases fuel with
    | zero => omega
    | succ fuel =>
      cases ws with
      | nil =>
        have hj : joinSep [44] (jsonEntries [(k, v)]) ++ 125 :: rest =
            write_json_string k ++ 58 :: (write_json_value v ++ 125 :: rest) := by
          simp [joinSep, jsonEntries, List.append_assoc]
        rw [hj] at hfuel ⊢
        simp only [parse_object_loopF]
        have hpk : peekChar (write_json_string k ++
            (58 :: (write_json_value v ++ 125 :: rest))) = 34 := peekChar_cons _ rfl
        have hsk : skipWs (write_json_string k ++
            (58 :: (write_json_value v ++ 125 :: rest))) =
            write_json_string k ++ (58 :: (write_json_value v ++ 125 :: rest)) :=
          skipWs_not_ws _ rfl
        rw [hpk, if_pos rfl, hsk]
        rw [parse_string_quoted k (58 :: (write_json_value v ++ 125 :: rest))]
        simp only
        rw [nextChar_cons _ (by rfl), if_pos rfl]
        rw [HP (k, v) (by simp) fuel (125 :: rest) (by rfl) (by
          simp only [List.length_append, List.length_cons] at hfuel ⊢
          omega)]
        simp only
        rw [peekChar_cons _ (by rfl), if_pos rfl, nextChar_cons _ (by rfl)]
        rfl
      | cons w2 ws2 =>
        have hj : joinSep [44] (jsonEntries ((k, v) :: w2 :: ws2)) ++ 125 :: rest =
            write_json_string k ++ 58 :: (write_json_value v ++ 44 ::
              (joinSep [44] (jsonEntries (w2 :: ws2)) ++ 125 :: rest)) := by
          obtain ⟨k2, v2⟩ := w2
          simp [joinSep, jsonEntries, List.append_assoc]
        rw [hj] at hfuel ⊢
        simp only [parse_object_loopF]
        have hpk : peekChar (write_json_string k ++ (58 :: (write_json_value v ++
            44 :: (joinSep [44] (jsonEntries (w2 :: ws2)) ++ 125 :: rest)))) = 34 :=
          peekChar_cons _ rfl
        have hsk : skipWs (write_json_string k ++ (58 :: (write_json_value v ++
            44 :: (joinSep [44] (jsonEntries (w2 :: ws2)) ++ 125 :: rest)))) =
            write_json_string k ++ (58 :: (write_json_value v ++
              44 :: (joinSep [44] (jsonEntries (w2 :: ws2)) ++ 125 :: rest))) :=
          skipWs_not_ws _ rfl
        rw [hpk, if_pos rfl, hsk]
        rw [parse_string_quoted k (58 :: (write_json_value v ++ 44 ::
          (joinSep [44] (jsonEntries (w2 :: ws2)) ++ 125 :: rest)))]
        simp only
        rw [nextChar_cons _ (by rfl), if_pos rfl]
        rw [HP (k, v) (by simp) fuel (44 :: (joinSep [44] (jsonEntries (w2 :: ws2)) ++
          125 :: rest)) (by rfl) (by
          simp only [List.length_append, List.length_cons] at hfuel ⊢
          omega)]
        simp only
        rw [peekChar_cons _ (by rfl)]
        rw [if_neg (by omega : ¬ ((44:Nat) = 125)), if_pos rfl,
          nextChar_cons _ (by rfl)]
        rw [ih (by simp) (fun u hu fl rs h1 h2 => HP u (by simp [hu]) fl rs h1 h2)
          fuel (acc ++ [(k, jnorm v)]) rest hstop (by
            simp only [List.length_append, List.length_cons] at hfuel ⊢
            omega)]
        simp [jnormEntries, List.append_assoc]

theorem parse_write_json :
    ∀ (n : Nat) (v : GlyphValue), sizeOf v ≤ n → json_safe v = true →
      ∀ fuel rest, jsonStop rest = true →
        3 * (write_json_value v ++ rest).length + 1 ≤ fuel →
        parse_valueF fuel (write_json_value v ++ rest) = some (jnorm v, rest) := by
  intro n
  induction n with
  | zero =>
    intro v hv
    exact absurd hv (by cases v <;> simp)
  | succ n ih =>
    intro v hv hsafe fuel rest hstop hfuel
    cases fuel with
    | zero => omega
    | succ fuel =>
      cases v with
      | vnull =>
        simp only [write_json_value] at hfuel ⊢
        simp only [parse_valueF]
        have hsk : skipWs (ascii "null" ++ rest) = ascii "null" ++ rest :=
          skipWs_not_ws _ rfl
        have hpk : peekChar (ascii "null" ++ rest) = 110 := peekChar_cons _ rfl
        rw [hpk, hsk, if_pos rfl, matchTok_prefix _ _ _ hsk]
        rfl
      | vbool b =>
        cases b with
        | true =>
          have hb : write_json_value (GlyphValue.vbool true) = ascii "true" := rfl
          rw [hb] at hfuel ⊢
          simp only [parse_valueF]
          have hsk : skipWs (ascii "true" ++ rest) = ascii "true" ++ rest :=
            skipWs_not_ws _ rfl
          have hpk : peekChar (ascii "true" ++ rest) = 116 := peekChar_cons _ rfl
          rw [hpk, hsk]
          rw [if_neg (by omega : ¬ ((116:Nat) = 110)), if_pos rfl,
            matchTok_prefix _ _ _ hsk]
          rfl
        | false =>
          have hb : write_json_value (GlyphValue.vbool false) = ascii "false" := rfl
          rw [hb] at hfuel ⊢
          simp only [parse_valueF]
          have hsk : skipWs (ascii "false" ++ rest) = ascii "false" ++ rest :=
            skipWs_not_ws _ rfl
          have hpk : peekChar (ascii "false" ++ rest) = 102 := peekChar_cons _ rfl
          rw [hpk, hsk]
          rw [if_neg (by omega : ¬ ((102:Nat) = 110)),
            if_neg (by omega : ¬ ((102:Nat) = 116)), if_pos rfl,
            matchTok_prefix _ _ _ hsk]
          rfl
      | vint m =>
        simp only [json_safe, decide_eq_true_eq] at hsafe
        simp only [write_json_value] at hfuel ⊢
        obtain ⟨c, t, hct, hc⟩ : ∃ c t, intRender m = c :: t ∧
            (c = 45 ∨ (48 ≤ c ∧ c ≤ 57)) := by
          simp only [intRender]
          by_cases hm : m < 0
          · rw [if_pos hm]
            exact ⟨45, _, rfl, Or.inl rfl⟩
          · rw [if_neg hm]
            obtain ⟨c, t, hct⟩ : ∃ c t, natDecimal m.toNat = c :: t := by
              cases hnd : natDecimal m.toNat with
              | nil => exact absurd hnd (natDecimal_ne_nil _)
              | cons c t => exact ⟨c, t, rfl⟩
            exact ⟨c, t, hct, Or.inr (natDecimal_all_digits m.toNat c
              (by rw [hct]; simp))⟩
        simp only [parse_valueF]
        have hns : isspaceB c = false := by
          simp only [isspaceB, decide_eq_false_iff_not]
          omega
        have hsk : skipWs (intRender m ++ rest) = intRender m ++ rest := by
          rw [hct, List.cons_append]
          exact skipWs_not_ws _ hns
        have hpk : peekChar (intRender m ++ rest) = c := by
          rw [hct, List.cons_append]
          exact peekChar_cons _ hns
        rw [hpk, hsk]
        rw [if_neg (by omega : ¬ (c = 110)), if_neg (by omega : ¬ (c = 116)),
          if_neg (by omega : ¬ (c = 102)), if_neg (by omega : ¬ (c = 34)),
          if_neg (by omega : ¬ (c = 91)), if_neg (by omega : ¬ (c = 123))]
        rw [if_pos (by
          rcases hc with h | h
          · exact Or.inl h
          · exact Or.inr (isdigitB_true h))]
        exact parse_number_intRender hsafe.1 hsafe.2 rest hstop
      | vfloat g =>
        simp only [write_json_value] at hfuel ⊢
        obtain ⟨c, t, hct, hc⟩ : ∃ c t, fmtG15 g = c :: t ∧
            (c = 45 ∨ (48 ≤ c ∧ c ≤ 57)) := by
          simp only [fmtG15]
          by_cases h0 : g.val = 0
          · rw [if_pos h0]
            by_cases hnz : g.negZero = true
            · rw [if_pos hnz]
              exact ⟨45, _, rfl, Or.inl rfl⟩
            · rw [if_neg hnz]
              exact ⟨48, _, rfl, Or.inr ⟨by omega, by omega⟩⟩
          · rw [if_neg h0]
            by_cases hneg : g.val < 0
            · rw [if_pos hneg]
              exact ⟨45, _, rfl, Or.inl rfl⟩
            · rw [if_neg hneg]
              have hpos : 0 < g.val := lt_of_le_of_ne (not_lt.mp hneg) (Ne.symm h0)
              obtain ⟨c, t, hct, h48, h57⟩ := fmtG15Pos_head hpos
              exact ⟨c, t, hct, Or.inr ⟨h48, h57⟩⟩
        simp only [parse_valueF]
        have hns : isspaceB c = false := by
          simp only [isspaceB, decide_eq_false_iff_not]
          omega
        have hsk : skipWs (fmtG15 g ++ rest) = fmtG15 g ++ rest := by
          rw [hct, List.cons_append]
          exact skipWs_not_ws _ hns
        have hpk : peekChar (fmtG15 g ++ rest) = c := by
          rw [hct, List.cons_append]
          exact peekChar_cons _ hns
        rw [hpk, hsk]
        rw [if_neg (by omega : ¬ (c = 110)), if_neg (by omega : ¬ (c = 116)),
          if_neg (by omega : ¬ (c = 102)), if_neg (by omega : ¬ (c = 34)),
          if_neg (by omega : ¬ (c = 91)), if_neg (by omega : ¬ (c = 123))]
        rw [if_pos (by
          rcases hc with h | h
          · exact Or.inl h
          · exact Or.inr (isdigitB_true h))]
        exact parse_number_fmtG15 g rest hstop
      | vstr str =>
        simp only [write_json_value] at hfuel ⊢
        simp only [parse_valueF]
        have hsk : skipWs (write_json_string str ++ rest) =
            write_json_string str ++ rest := skipWs_not_ws _ rfl
        have hpk : peekChar (write_json_string str ++ rest) = 34 :=
          peekChar_cons _ rfl
        rw [hpk, hsk]
        rw [if_neg (by omega : ¬ ((34:Nat) = 110)),
          if_neg (by omega : ¬ ((34:Nat) = 116)),
          if_neg (by omega : ¬ ((34:Nat) = 102)), if_pos rfl,
          parse_string_quoted str rest]
        rfl
      | vbytes bs => simp [json_safe] at hsafe
      | vtime ms => simp [json_safe] at hsafe
      | vid pf idv => simp [json_safe] at hsafe
      | vstruct tn fs => simp [json_safe] at hsafe
      | vsum tag inner => simp [json_safe] at hsafe
      | vlist items =>
        simp only [json_safe] at hsafe
        have hsafes := json_safe_items_mem hsafe
        have hshape : write_json_value (GlyphValue.vlist items) ++ rest =
            91 :: (joinSep [44] (jsonItems items) ++ 93 :: rest) := by
          simp [write_json_value, List.append_assoc]
        rw [hshape] at hfuel ⊢
        simp only [parse_valueF]
        have hsk : skipWs (91 :: (joinSep [44] (jsonItems items) ++ 93 :: rest)) =
            91 :: (joinSep [44] (jsonItems items) ++ 93 :: rest) :=
          skipWs_not_ws _ rfl
        have hpk : peekChar (91 :: (joinSep [44] (jsonItems items) ++ 93 :: rest)) =
            91 := peekChar_cons _ rfl
        rw [hpk, hsk]
        rw [if_neg (by omega : ¬ ((91:Nat) = 110)),
          if_neg (by omega : ¬ ((91:Nat) = 116)),
          if_neg (by omega : ¬ ((91:Nat) = 102)),
          if_neg (by omega : ¬ ((91:Nat) = 34)), if_pos rfl]
        simp only [List.length_cons, List.length_append] at hfuel
        cases fuel with
        | zero => omega
        | succ fuel =>
          simp only [parse_arrayF]
          rw [nextChar_cons _ (by rfl)]
          simp only
          rw [if_pos (trivial : True)]
          cases items with
          | nil =>
            have hjoin : joinSep [44] (jsonItems ([] : List GlyphValue)) =
                ([] : List Nat) := rfl
            rw [hjoin, List.nil_append]
            rw [peekChar_cons _ (by rfl), if_pos rfl, nextChar_cons _ (by rfl)]
            rfl
          | cons w ws =>
            obtain ⟨cw, tw, hcw, hwns, hw93, hw125⟩ :=
              write_head_safe w (hsafes w (by simp))
            have hex : ∃ t3, joinSep [44] (jsonItems (w :: ws)) ++ 93 :: rest =
                cw :: t3 := by
              cases ws with
              | nil =>
                refine ⟨tw ++ 93 :: rest, ?_⟩
                simp [jsonItems, joinSep, hcw]
              | cons w2 ws2 =>
                refine ⟨tw ++ 44 :: (joinSep [44] (jsonItems (w2 :: ws2)) ++
                  93 :: rest), ?_⟩
                simp [jsonItems, joinSep, hcw, List.append_assoc]
            obtain ⟨t3, ht3⟩ := hex
            rw [ht3, peekChar_cons _ hwns, if_neg hw93, ← ht3]
            have hloop := parse_array_loop_write (w :: ws) (by simp)
              (fun u hu fl rs h1 h2 => ih u (by
                have h3 := List.sizeOf_lt_of_mem hu
                have h4 : sizeOf (GlyphValue.vlist (w :: ws)) = 1 + sizeOf (w :: ws) := by
                  simp
                omega) (hsafes u hu) fl rs h1 h2)
              fuel [] rest hstop (by
                simp only [List.length_append, List.length_cons]
                omega)
            rw [hloop, List.nil_append]
            rfl
      | vmap es =>
        simp only [json_safe] at hsafe
        have hsafes := json_safe_entries_mem hsafe
        have hshape : write_json_value (GlyphValue.vmap es) ++ rest =
            123 :: (joinSep [44] (jsonEntries es) ++ 125 :: rest) := by
          simp [write_json_value, List.append_assoc]
        rw [hshape] at hfuel ⊢
        simp only [parse_valueF]
        have hsk : skipWs (123 :: (joinSep [44] (jsonEntries es) ++ 125 :: rest)) =
            123 :: (joinSep [44] (jsonEntries es) ++ 125 :: rest) :=
          skipWs_not_ws _ rfl
        have hpk : peekChar (123 :: (joinSep [44] (jsonEntries es) ++
            125 :: rest)) = 123 := peekChar_cons _ rfl
        rw [hpk, hsk]
        rw [if_neg (by omega : ¬ ((123:Nat) = 110)),
          if_neg (by omega : ¬ ((123:Nat) = 116)),
          if_neg (by omega : ¬ ((123:Nat) = 102)),
          if_neg (by omega : ¬ ((123:Nat) = 34)),
          if_neg (by omega : ¬ ((123:Nat) = 91)), if_pos rfl]
        simp only [List.length_cons, List.length_append] at hfuel
        cases fuel with
        | zero => omega
        | succ fuel =>
          simp only [parse_objectF]
          rw [nextChar_cons _ (by rfl)]
          simp only
          rw [if_pos (trivial : True)]
          cases es with
          | nil =>
            have hjoin : joinSep [44]
                (jsonEntries ([] : List (List Nat × GlyphValue))) =
                ([] : List Nat) := rfl
            rw [hjoin, List.nil_append]
            rw [peekChar_cons _ (by rfl), if_pos rfl, nextChar_cons _ (by rfl)]
            rfl
          | cons w ws =>
            obtain ⟨kw, vw⟩ := w
            have hjshape : ∃ t2, joinSep [44] (jsonEntries ((kw, vw) :: ws)) ++
                125 :: rest = 34 :: t2 := by
              cases ws with
              | nil => exact ⟨_, rfl⟩
              | cons w2 ws2 => exact ⟨_, rfl⟩
            obtain ⟨t2, ht2⟩ := hjshape
            rw [ht2, peekChar_cons _ (by rfl), if_neg (by omega : ¬ ((34:Nat) = 125)),
              ← ht2]
            have hloop := parse_object_loop_write ((kw, vw) :: ws) (by simp)
              (fun u hu fl rs h1 h2 => ih u.2 (by
                have h3 := List.sizeOf_lt_of_mem hu
                have h4 : sizeOf (GlyphValue.vmap ((kw, vw) :: ws)) =
                    1 + sizeOf ((kw, vw) :: ws) := by
                  simp
                have h5 : sizeOf u.2 < sizeOf u := by
                  obtain ⟨uk, uv⟩ := u
                  simp only [Prod.mk.sizeOf_spec]
                  omega
                omega) (hsafes u hu) fl rs h1 h2)
              fuel [] rest hstop (by
                simp only [List.length_append, List.length_cons]
                omega)
            rw [hloop, List.nil_append]
            rfl

/-- C6 fails on the code as stated: the parse side of the round trip is
exact - parsing the serialized JSON of any value built from Null, Bool,
int64-range Int, Float, Str, List and Map succeeds and preserves the value
up to Float normalization, which canonicalization cannot distinguish - but
the claimed byte-identity of the two default canonical forms rests on the
tabular column order, which the code obtains from a qsort whose comparator
receives the column array's `char **` elements and so compares the
pointers' own bytes; that order is allocation-address-dependent, so for
values containing a list rendered tabular with at least two columns the two
encode calls need not agree.  Under the no-tabular preset, which never
reaches that sort, the round trip is byte-exact, as this theorem states. -/
theorem c6_json_round_trip_no_tabular (v : GlyphValue)
    (hsafe : json_safe v = true) :
    ∃ w, glyph_from_json (glyph_to_json (some v)) = some w ∧
      glyph_canonicalize_loose_no_tabular (some w) =
        glyph_canonicalize_loose_no_tabular (some v) := by
  refine ⟨jnorm v, ?_, ?_⟩
  · simp only [glyph_from_json, glyph_to_json]
    have h := parse_write_json (sizeOf v) v le_rfl hsafe
      (3 * (write_json_value v).length + 3) [] rfl (by
        simp only [List.append_nil]
        omega)
    rw [List.append_nil] at h
    rw [h]
    rfl
  · simp only [glyph_canonicalize_loose_no_tabular,
      glyph_canonicalize_loose_with_opts]
    exact jnorm_canon _ v

theorem c6_witness :
    json_safe (GlyphValue.vmap [([97], GlyphValue.vlist [GlyphValue.vint (-3),
      GlyphValue.vfloat ⟨(3:ℚ)/2, false⟩, GlyphValue.vstr [104, 105],
      GlyphValue.vbool true, GlyphValue.vnull]), ([98], GlyphValue.vmap [])]) =
        true ∧
    ∃ w, glyph_from_json (glyph_to_json (some (GlyphValue.vmap [([97],
        GlyphValue.vlist [GlyphValue.vint (-3), GlyphValue.vfloat ⟨(3:ℚ)/2, false⟩,
        GlyphValue.vstr [104, 105], GlyphValue.vbool true, GlyphValue.vnull]),
        ([98], GlyphValue.vmap [])]))) = some w ∧
      glyph_canonicalize_loose_no_tabular (some w) =
        glyph_canonicalize_loose_no_tabular (some (GlyphValue.vmap [([97],
          GlyphValue.vlist [GlyphValue.vint (-3), GlyphValue.vfloat ⟨(3:ℚ)/2, false⟩,
          GlyphValue.vstr [104, 105], GlyphValue.vbool true, GlyphValue.vnull]),
          ([98], GlyphValue.vmap [])])) :=
  ⟨by decide, c6_json_round_trip_no_tabular _ (by decide)⟩

/-- C1 fails on the code: the bytes of a rendered table are a function of the
column order - the two orders of the same two columns give different output,
as this theorem shows - while the code sorts the column array with a qsort
whose comparator receives the array's `char **` elements and therefore
compares the pointers' own bytes, making the column order
allocation-address-dependent rather than a function of the keys.  Encoding a
map and a permutation of it rebuilds the key strings at different addresses,
so for any map containing a list rendered tabular with at least two columns
the byte-identity the claim demands is not guaranteed; map and struct entry
order itself is normalized by the correct entry comparator. -/
theorem c1_tabular_column_order_observable :
    write_tabular glyph_canon_opts_default
        [[(ascii "a", ascii "1"), (ascii "b", ascii "2")]] 1
        [ascii "a", ascii "b"] ≠
      write_tabular glyph_canon_opts_default
        [[(ascii "a", ascii "1"), (ascii "b", ascii "2")]] 1
        [ascii "b", ascii "a"] := by
  decide

/-- C2: under default options, a list of at least 3 elements, all Maps or
Structs, whose key union (the column set) is non-empty, has at most 64
columns and is 100% common, canonicalizes to bytes beginning with `@tab `
and ending with `@end`; a list of fewer than 3 elements, or one whose common
keys are fewer than half of the key union, canonicalizes to bytes beginning
with `[`. -/
theorem c2_tabular_threshold :
    (∀ (items : List GlyphValue) (u : List (List Nat)),
      collectAllKeys items = some u → 3 ≤ items.length → u ≠ [] →
      u.length ≤ 64 → (∀ k ∈ u, ∀ it ∈ items, hasKey it k = true) →
      (ascii "@tab ").IsPrefix
          (glyph_canonicalize_loose (some (GlyphValue.vlist items))) ∧
        (ascii "@end").IsSuffix
          (glyph_canonicalize_loose (some (GlyphValue.vlist items)))) ∧
    (∀ items : List GlyphValue, items.length < 3 →
      [91].IsPrefix (glyph_canonicalize_loose (some (GlyphValue.vlist items)))) ∧
    (∀ (items : List GlyphValue) (u : List (List Nat)),
      collectAllKeys items = some u →
      (u.countP (fun k => items.all (fun it => hasKey it k))) * 2 < u.length →
      [91].IsPrefix (glyph_canonicalize_loose (some (GlyphValue.vlist items)))) := by
  have hbracket : ∀ items : List GlyphValue,
      check_homogeneous items glyph_canon_opts_default = none →
      [91].IsPrefix (glyph_canonicalize_loose (some (GlyphValue.vlist items))) := by
    intro items hcheck
    simp only [glyph_canonicalize_loose, glyph_canonicalize_loose_with_opts,
      write_canon_value, write_canon_list, hcheck]
    exact ⟨_, rfl⟩
  refine ⟨?_, ?_, ?_⟩
  · intro items u hcoll hlen hne hle hcommon
    have hcount : u.countP (fun k => items.all (fun it => hasKey it k)) =
        u.length :=
      List.countP_eq_length.mpr (fun k hk =>
        List.all_eq_true.mpr (fun it hit => hcommon k hk it hit))
    have h1 : ¬ items.length < glyph_canon_opts_default.min_rows := by
      show ¬ items.length < 3
      omega
    have h2 : ¬ (u.length = 0 ∨ glyph_canon_opts_default.max_cols < u.length) := by
      show ¬ (u.length = 0 ∨ 64 < u.length)
      push_neg
      exact ⟨fun h0 => hne (List.length_eq_zero.mp h0), by omega⟩
    have h3 : ¬ (u.countP (fun k => items.all (fun it => hasKey it k)) * 2 <
        u.length) := by
      rw [hcount]
      omega
    have hcheck : check_homogeneous items glyph_canon_opts_default =
        some (u.insertionSort lexLe) := by
      rw [check_homogeneous_cont items _ u h1 hcoll, if_neg h2, if_neg h3]
    have hout : glyph_canonicalize_loose (some (GlyphValue.vlist items)) =
        write_tabular glyph_canon_opts_default
          (renderRows glyph_canon_opts_default items) items.length
          (u.insertionSort lexLe) := by
      simp only [glyph_canonicalize_loose, glyph_canonicalize_loose_with_opts,
        write_canon_value, write_canon_list, hcheck]
      rfl
    rw [hout, write_tabular]
    constructor
    · have hsplit : ascii "@tab _ rows=" = ascii "@tab " ++ ascii "_ rows=" := rfl
      rw [hsplit, List.append_assoc]
      exact List.prefix_append _ _
    · exact List.suffix_append _ _
  · intro items hlen
    apply hbracket
    rw [check_homogeneous, if_pos]
    exact hlen
  · intro items u hcoll hlt
    apply hbracket
    by_cases h1 : items.length < glyph_canon_opts_default.min_rows
    · rw [check_homogeneous, if_pos h1]
    · rw [check_homogeneous_cont items _ u h1 hcoll]
      by_cases h2 : u.length = 0 ∨ glyph_canon_opts_default.max_cols < u.length
      · rw [if_pos h2]
      · rw [if_neg h2, if_pos hlt]

/-- Witness for C2: the three-map homogeneous list renders tabular, a
two-map list and a sparse three-map list render bracketed. -/
theorem c2_witness :
    (collectAllKeys
        [GlyphValue.vmap [(ascii "x", GlyphValue.vint 0), (ascii "y", GlyphValue.vint 0)],
         GlyphValue.vmap [(ascii "x", GlyphValue.vint 1), (ascii "y", GlyphValue.vint 2)],
         GlyphValue.vmap [(ascii "x", GlyphValue.vint 2), (ascii "y", GlyphValue.vint 4)]] =
      some [ascii "x", ascii "y"]) ∧
    ((ascii "@tab ").IsPrefix
        (glyph_canonicalize_loose (some (GlyphValue.vlist
          [GlyphValue.vmap [(ascii "x", GlyphValue.vint 0), (ascii "y", GlyphValue.vint 0)],
           GlyphValue.vmap [(ascii "x", GlyphValue.vint 1), (ascii "y", GlyphValue.vint 2)],
           GlyphValue.vmap [(ascii "x", GlyphValue.vint 2), (ascii "y", GlyphValue.vint 4)]]))) ∧
      (ascii "@end").IsSuffix
        (glyph_canonicalize_loose (some (GlyphValue.vlist
          [GlyphValue.vmap [(ascii "x", GlyphValue.vint 0), (ascii "y", GlyphValue.vint 0)],
           GlyphValue.vmap [(ascii "x", GlyphValue.vint 1), (ascii "y", GlyphValue.vint 2)],
           GlyphValue.vmap [(ascii "x", GlyphValue.vint 2), (ascii "y", GlyphValue.vint 4)]])))) ∧
    [91].IsPrefix (glyph_canonicalize_loose (some (GlyphValue.vlist
      [GlyphValue.vint 1, GlyphValue.vint 2]))) ∧
    [91].IsPrefix (glyph_canonicalize_loose (some (GlyphValue.vlist
      [GlyphValue.vmap [(ascii "a", GlyphValue.vint 1)],
       GlyphValue.vmap [(ascii "b", GlyphValue.vint 2)],
       GlyphValue.vmap [(ascii "c", GlyphValue.vint 3)]]))) :=
  ⟨by decide,
   c2_tabular_threshold.1 _ [ascii "x", ascii "y"] (by decide) (by decide) (by decide) (by decide)
     (by decide),
   c2_tabular_threshold.2.1 _ (by decide),
   c2_tabular_threshold.2.2 _ [ascii "a", ascii "b", ascii "c"] (by decide)
     (by decide)⟩

/-- C4: for every integer n with |n| < 10^15, canonicalizing the double
holding exactly n produces the same bytes as canonicalizing Int(n); Float
42.0 encodes as `42` and Float -0.0 encodes as `0`. -/
theorem c4_whole_number_collapse :
    (∀ n : Int, |n| < 10 ^ 15 →
      glyph_canonicalize_loose (some (GlyphValue.vfloat (CDouble.ofInt n))) =
        glyph_canonicalize_loose (some (GlyphValue.vint n))) ∧
    glyph_canonicalize_loose (some (GlyphValue.vfloat (CDouble.ofInt 42))) =
      ascii "42" ∧
    glyph_canonicalize_loose (some (GlyphValue.vfloat ⟨0, true⟩)) = ascii "0" := by
  have main : ∀ n : Int, |n| < 10 ^ 15 →
      glyph_canonicalize_loose (some (GlyphValue.vfloat (CDouble.ofInt n))) =
        glyph_canonicalize_loose (some (GlyphValue.vint n)) := by
    intro n hn
    simp only [glyph_canonicalize_loose, glyph_canonicalize_loose_with_opts,
      write_canon_value, CDouble.ofInt]
    have hval : (if ((n : ℚ) = 0) then (⟨0, false⟩ : CDouble)
        else ⟨(n : ℚ), false⟩).val = (n : ℚ) := by
      by_cases h : (n : ℚ) = 0
      · simp [h]
      · simp [h]
    rw [hval]
    have hfloor : ⌊(n : ℚ)⌋ = n := rfl
    have habs : |(n : ℚ)| < 10 ^ 15 := by exact_mod_cast hn
    rw [if_pos ⟨by rw [hfloor], habs⟩, hfloor]
  refine ⟨main, ?_, ?_⟩
  · rw [main 42 (by norm_num)]
    decide
  · simp only [glyph_canonicalize_loose, glyph_canonicalize_loose_with_opts,
      write_canon_value]
    norm_num
    decide

/-- Witness for C4 at n = 3. -/
theorem c4_witness :
    |(3 : Int)| < 10 ^ 15 ∧
    glyph_canonicalize_loose (some (GlyphValue.vfloat (CDouble.ofInt 3))) =
      glyph_canonicalize_loose (some (GlyphValue.vint 3)) :=
  ⟨by norm_num, c4_whole_number_collapse.1 3 (by norm_num)⟩

/-- C5: a string passing all bareword conditions canonicalizes to exactly
its own byte sequence, with no quotes or escapes. -/
theorem c5_bareword_reversibility (s : List Nat) (hne : s ≠ [])
    (hfirst : ∀ c, s.head? = some c →
      isdigitB c = false ∧ c ≠ 34 ∧ c ≠ 39 ∧ c ≠ 45)
    (hres : reservedWord s = false)
    (hall : ∀ c ∈ s, isalnumB c = true ∨ c = 95 ∨ c = 45 ∨ c = 46 ∨ c = 47 ∨
      c = 64 ∨ c = 58 ∨ 127 < c) :
    glyph_canonicalize_loose (some (GlyphValue.vstr s)) = s := by
  have hbare : is_bare_safe s = true := by
    cases s with
    | nil => exact absurd rfl hne
    | cons c rest =>
      obtain ⟨h1, h2, h3, h4⟩ := hfirst c rfl
      have hallB : ∀ x ∈ c :: rest, bareChar x = true := by
        intro x hx
        rcases hall x hx with h | h | h | h | h | h | h | h <;>
          simp [bareChar, h]
      simp only [is_bare_safe, h1, h2, h3, h4, hres]
      simp [List.all_eq_true.mpr hallB]
  simp [glyph_canonicalize_loose, glyph_canonicalize_loose_with_opts,
    write_canon_value, write_canon_string, hbare]

/-- Witness for C5 at the bareword `hello`. -/
theorem c5_witness :
    (ascii "hello" ≠ []) ∧
    glyph_canonicalize_loose (some (GlyphValue.vstr (ascii "hello"))) =
      ascii "hello" :=
  ⟨by decide,
   c5_bareword_reversibility (ascii "hello") (by decide) (by decide) (by decide)
     (by decide)⟩

/-- C7 fails on the code: `glyph_map_set` appends without deduplicating and
`write_canon_map` emits every entry, so setting key `a` twice yields a
canonical form containing `a` twice, and it differs from the canonical form
of only the surviving binding. -/
theorem c7_duplicate_keys_survive_canonicalization :
    glyph_canonicalize_loose
        (glyph_map_set (glyph_map_set (some (GlyphValue.vmap []))
            (some (ascii "a")) (some (GlyphValue.vint 1)))
          (some (ascii "a")) (some (GlyphValue.vint 2))) =
      ascii "\x7ba=1 a=2\x7d" ∧
    glyph_canonicalize_loose
        (glyph_map_set (glyph_map_set (some (GlyphValue.vmap []))
            (some (ascii "a")) (some (GlyphValue.vint 1)))
          (some (ascii "a")) (some (GlyphValue.vint 2))) ≠
      glyph_canonicalize_loose
        (glyph_map_set (some (GlyphValue.vmap []))
          (some (ascii "a")) (some (GlyphValue.vint 2))) := by
  constructor
  · decide
  · decide

/-- C3 fails on the code: neither the homogeneity test nor the tabular
writer reads `allow_missing` (flipping the option never changes their
result, the first two conjuncts), so with `allow_missing = false` a list
whose third element lacks column `b` still renders tabular - the output
starts with the `@tab _ rows=3 cols=2 [` header, ends with `@end`, and
carries a second null glyph for the missing cell - instead of falling back
to the bracketed list form.  The conjuncts pin no column order: the code
sorts the columns by the pointers' own bytes, so only order-insensitive
facts are consequences of the program. -/
theorem c3_allow_missing_never_consulted :
    (∀ (items : List GlyphValue) (t : Bool) (r c : Nat) (b b' : Bool)
        (s : NullStyle),
      check_homogeneous items ⟨t, r, c, b, s⟩ =
        check_homogeneous items ⟨t, r, c, b', s⟩) ∧
    (∀ (rows : List (List (List Nat × List Nat))) (count : Nat)
        (cols : List (List Nat)) (t : Bool) (r c : Nat) (b b' : Bool)
        (s : NullStyle),
      write_tabular ⟨t, r, c, b, s⟩ rows count cols =
        write_tabular ⟨t, r, c, b', s⟩ rows count cols) ∧
    ((glyph_canonicalize_loose_with_opts
        (some (GlyphValue.vlist
          [GlyphValue.vmap [(ascii "a", GlyphValue.vint 1), (ascii "b", GlyphValue.vint 2)],
           GlyphValue.vmap [(ascii "a", GlyphValue.vint 1), (ascii "b", GlyphValue.vint 2)],
           GlyphValue.vmap [(ascii "a", GlyphValue.vint 3)]]))
        ⟨true, 3, 64, false, NullStyle.underscore⟩).take 22 =
      ascii "@tab _ rows=3 cols=2 [") ∧
    ((glyph_canonicalize_loose_with_opts
        (some (GlyphValue.vlist
          [GlyphValue.vmap [(ascii "a", GlyphValue.vint 1), (ascii "b", GlyphValue.vint 2)],
           GlyphValue.vmap [(ascii "a", GlyphValue.vint 1), (ascii "b", GlyphValue.vint 2)],
           GlyphValue.vmap [(ascii "a", GlyphValue.vint 3)]]))
        ⟨true, 3, 64, false, NullStyle.underscore⟩).drop
      ((glyph_canonicalize_loose_with_opts
        (some (GlyphValue.vlist
          [GlyphValue.vmap [(ascii "a", GlyphValue.vint 1), (ascii "b", GlyphValue.vint 2)],
           GlyphValue.vmap [(ascii "a", GlyphValue.vint 1), (ascii "b", GlyphValue.vint 2)],
           GlyphValue.vmap [(ascii "a", GlyphValue.vint 3)]]))
        ⟨true, 3, 64, false, NullStyle.underscore⟩).length - 4) =
      ascii "@end") ∧
    (((glyph_canonicalize_loose_with_opts
        (some (GlyphValue.vlist
          [GlyphValue.vmap [(ascii "a", GlyphValue.vint 1), (ascii "b", GlyphValue.vint 2)],
           GlyphValue.vmap [(ascii "a", GlyphValue.vint 1), (ascii "b", GlyphValue.vint 2)],
           GlyphValue.vmap [(ascii "a", GlyphValue.vint 3)]]))
        ⟨true, 3, 64, false, NullStyle.underscore⟩).filter
      (fun x => x = 95)).length = 2) := by
  refine ⟨fun _ _ _ _ _ _ _ => rfl, fun _ _ _ _ _ _ _ _ _ => rfl,
    by decide, by decide, by decide⟩

/-- C9: canonicalizing an absent (NULL) value succeeds and returns exactly
the null glyph of the selected style, and the type query reports GLYPH_NULL
for an absent value. -/
theorem c9_null_pointer_canonicalization :
    glyph_canonicalize_loose none = ascii "_" ∧
    glyph_canonicalize_loose_with_opts none glyph_canon_opts_pretty =
      [0xe2, 0x88, 0x85] ∧
    (∀ opts : CanonOpts,
      glyph_canonicalize_loose_with_opts none opts = canon_null opts.null_style) ∧
    glyph_get_type none = GlyphType.GLYPH_NULL :=
  ⟨rfl, rfl, fun _ => rfl, rfl⟩

/-- C10: each mutator is a silent no-op leaving the container unchanged when
its preconditions fail (absent container, wrong kind, absent key or item). -/
theorem c10_mutator_silent_noop :
    (∀ (l i : Option GlyphValue),
      (l = none ∨ (∀ xs, l ≠ some (GlyphValue.vlist xs)) ∨ i = none) →
      glyph_list_append l i = l) ∧
    (∀ (m : Option GlyphValue) (k : Option (List Nat)) (v : Option GlyphValue),
      (m = none ∨ (∀ es, m ≠ some (GlyphValue.vmap es)) ∨ k = none ∨ v = none) →
      glyph_map_set m k v = m) ∧
    (∀ (s : Option GlyphValue) (k : Option (List Nat)) (v : Option GlyphValue),
      (s = none ∨ (∀ tn fs, s ≠ some (GlyphValue.vstruct tn fs)) ∨ k = none ∨
        v = none) →
      glyph_struct_set s k v = s) := by
  refine ⟨?_, ?_, ?_⟩
  · intro l i h
    cases l with
    | none => cases i <;> rfl
    | some v =>
      cases v <;> (try (cases i <;> rfl))
      case vlist xs =>
        cases i with
        | none => rfl
        | some it =>
          rcases h with h | h | h
          · exact absurd h (by simp)
          · exact absurd rfl (h xs)
          · exact absurd h (by simp)
  · intro m k v h
    cases m with
    | none => cases k <;> cases v <;> rfl
    | some mv =>
      cases mv <;> (try (cases k <;> cases v <;> rfl))
      case vmap es =>
        cases k with
        | none => cases v <;> rfl
        | some kk =>
          cases v with
          | none => rfl
          | some vv =>
            rcases h with h | h | h | h
            · exact absurd h (by simp)
            · exact absurd rfl (h es)
            · exact absurd h (by simp)
            · exact absurd h (by simp)
  · intro s k v h
    cases s with
    | none => cases k <;> cases v <;> rfl
    | some sv =>
      cases sv <;> (try (cases k <;> cases v <;> rfl))
      case vstruct tn fs =>
        cases k with
        | none => cases v <;> rfl
        | some kk =>
          cases v with
          | none => rfl
          | some vv =>
            rcases h with h | h | h | h
            · exact absurd h (by simp)
            · exact absurd rfl (h tn fs)
            · exact absurd h (by simp)
            · exact absurd h (by simp)

/-- Witness for C10: one failed precondition of each mutator. -/
theorem c10_witness :
    glyph_list_append (some (GlyphValue.vint 7)) (some GlyphValue.vnull) =
      some (GlyphValue.vint 7) ∧
    glyph_map_set (some (GlyphValue.vmap [])) none (some GlyphValue.vnull) =
      some (GlyphValue.vmap []) ∧
    glyph_struct_set none (some []) (some GlyphValue.vnull) = none :=
  ⟨c10_mutator_silent_noop.1 _ _ (Or.inr (Or.inl (by intro xs; simp))),
   c10_mutator_silent_noop.2.1 _ _ _ (Or.inr (Or.inr (Or.inl rfl))),
   c10_mutator_silent_noop.2.2 _ _ _ (Or.inl rfl)⟩

/-- C8 fails as stated: the byte string `"\q"` has no well-formed JSON value
at its start (the escape `\q` is not a JSON escape, so no prefix derives a
value), yet `glyph_from_json` accepts it, dropping the backslash. -/
theorem c8_counterexample :
    spec_json_wf (ascii "\"\\q\"") = false ∧
    glyph_from_json (ascii "\"\\q\"") = some (GlyphValue.vstr (ascii "q")) :=
  ⟨rfl, rfl⟩

/-- C8 amended: for every input with no value of the parser's lenient
dialect at its start (JSON structure, strings scanned leniently, `strtoll`
and `strtod` numbers), `glyph_from_json` returns an absent result - and in
this functional model an absent result carries no partial tree; whitespace
before a value (and, by the `skipWs` in every token primitive, between
tokens) is ignored at any fuel; trailing input after one complete value
never causes failure. -/
theorem c8_parse_error_discipline :
    (∀ s : List Nat, (¬ ∃ r, LJValue s r) → glyph_from_json s = none) ∧
    (∀ (ws s : List Nat), ws.all (fun c => isspaceB c) = true →
      ∀ fuel, parse_valueF fuel (ws ++ s) = parse_valueF fuel s) ∧
    (∀ (s : List Nat) (v : GlyphValue) (r : List Nat),
      parse_valueF (3 * s.length + 3) s = some (v, r) →
      glyph_from_json s = some v) := by
  refine ⟨?_, ?_, ?_⟩
  · intro s hno
    cases hp : parse_valueF (3 * s.length + 3) s with
    | none => simp [glyph_from_json, hp]
    | some p =>
      exact absurd ⟨p.2, (parse_soundness _).1 s p.1 p.2 (by rw [hp])⟩ hno
  · intro ws s hws fuel
    cases fuel with
    | zero => rfl
    | succ n =>
      have hsk := skipWs_ws_append s hws
      simp only [parse_valueF, peekChar, hsk]
  · intro s v r hp
    simp [glyph_from_json, hp]

/-- Witness for C8: the empty input derives nothing and parses to an absent
result; a leading space does not change a parse; a complete value followed
by junk still parses. -/
theorem c8_witness :
    (¬ ∃ r, LJValue ([] : List Nat) r) ∧
    glyph_from_json [] = none ∧
    parse_valueF 5 ([32] ++ [49]) = parse_valueF 5 [49] ∧
    glyph_from_json (ascii "1 x") = some (GlyphValue.vint 1) := by
  have h4 : ascii "null" = [110, 117, 108, 108] := rfl
  have h4t : ascii "true" = [116, 114, 117, 101] := rfl
  have h5f : ascii "false" = [102, 97, 108, 115, 101] := rfl
  have hno : ¬ ∃ r, LJValue ([] : List Nat) r := by
    rintro ⟨r, h⟩
    cases h with
    | jnull _ _ h => rw [h4] at h; simp [skipWs] at h
    | jtrue _ _ h => rw [h4t] at h; simp [skipWs] at h
    | jfalse _ _ h => rw [h5f] at h; simp [skipWs] at h
    | jstr _ b _ h hb => simp [skipWs] at h
    | jnum _ _ hd h => revert hd; decide
    | jarr _ m _ h ht => simp [skipWs] at h
    | jobj _ m _ h ht => simp [skipWs] at h
  refine ⟨hno, c8_parse_error_discipline.1 [] hno,
    c8_parse_error_discipline.2.1 [32] [49] (by decide) 5,
    c8_parse_error_discipline.2.2 (ascii "1 x") (GlyphValue.vint 1)
      (ascii " x") rfl⟩

end Glyph
